import Mathlib

/-!
# Sparse matrix-vector multiplication in CSR form

A shallow embedding of `Task6-Sparse-Matrix/sparse_matrix_vector.c`, followed by the
kernels of the four companion programs of the repository: the blocked matrix product
(`Task1`, namespace `MatMul`), the file encryption (`Task2`, `Encryption`), the histogram
(`Task3`, `Histogram`) and the matrix transpose (`Task4`, `Transpose`).

Modelling conventions.

* A C array is a `List`; a read `a[i]` and a write `a[i] = v` are checked
  (`readAt`, `writeAt`) and a run that leaves an array is `none`.
* A C `int` is an `Int`.  The products `rows * cols`, `estimated_nnz * 2` and
  `num_threads * 100` are reduced to the 32-bit two's complement range by
  `wrap32`; the increments `i + 1`, `j++`, `nnz++` stay inside the range of the
  array they index and are exact.
* The kernels are generic in the element type: only `0`, `+` and `*` are used and
  no law (associativity, commutativity) is assumed of them, so a statement proved
  for every such type holds for IEEE doubles.  The builder and the verifier
  compare numbers; there a `double` is a rational (exact arithmetic).
* A `for` loop whose bounds do not change while it runs is a recursion on its
  trip count, carrying the loop variable.
* An OpenMP worksharing loop runs every iteration once; the order in which the
  iterations take effect is an argument (`sched`).
* A variable declared inside a parallel region is private: every thread of the
  team has its own.  A private `int` that its thread never assigned has no value
  (`none`), and a run that reads it is undefined, like a run that leaves an array.
-/

namespace SpMV

/-! ## Machine integers and arrays -/

/-- Largest value of a C `int`. -/
def INT_MAX : Int := 2147483647

/-- Reduction of an integer to the 32-bit two's complement range. -/
def wrap32 (z : Int) : Int := (z + 2147483648) % 4294967296 - 2147483648

/-- Checked array read `a[i]`. -/
def readAt {β : Type} (a : List β) (i : Int) : Option β :=
  if 0 ≤ i then a[i.toNat]? else none

/-- Checked array write `a[i] = v`. -/
def writeAt {β : Type} (a : List β) (i : Int) (v : β) : Option (List β) :=
  if 0 ≤ i ∧ i.toNat < a.length then some (a.set i.toNat v) else none

/-! ## The store -/

/-- The struct `CSRMatrix`. -/
structure CSRMatrix (α : Type) where
  num_rows : Int
  num_cols : Int
  nnz : Int
  values : List α
  col_indices : List Int
  row_ptr : List Int
deriving DecidableEq, Repr

/-- The structural invariant of a store: `row_ptr` has `num_rows + 1` entries,
starts at `0`, ends at `nnz`, is non-decreasing; `values` and `col_indices` have
`nnz` entries; every column index lies in `[0, num_cols)`. -/
def CSRMatrix.Valid {α : Type} (A : CSRMatrix α) : Prop :=
  0 ≤ A.num_rows ∧ 0 ≤ A.nnz ∧
  A.row_ptr.length = A.num_rows.toNat + 1 ∧
  A.row_ptr[0]? = some 0 ∧
  A.row_ptr[A.num_rows.toNat]? = some A.nnz ∧
  A.row_ptr.Pairwise (fun a b => a ≤ b) ∧
  A.values.length = A.nnz.toNat ∧
  A.col_indices.length = A.nnz.toNat ∧
  ∀ c ∈ A.col_indices, 0 ≤ c ∧ c < A.num_cols

instance {α : Type} (A : CSRMatrix α) : Decidable A.Valid := by
  unfold CSRMatrix.Valid; infer_instance

/-! ## The chunks of a dynamic schedule -/

/-- Modelled from the spec: chunk `k` of the schedule `dynamic, C` over the rows
`[0, n)`, the rows from `k * C` up to `min((k + 1) * C, n)`, in ascending order.
The source only names the schedule (`schedule(dynamic, chunk_size)`); the chunks
are handed out by the OpenMP runtime. -/
def dynamic_chunk (C n k : Nat) : List Nat :=
  List.range' (k * C) (min ((k + 1) * C) n - k * C)

/-- Modelled from the spec: the number of chunks of the schedule `dynamic, C`
over `n` rows, `ceil(n / C)`. -/
def num_dynamic_chunks (C n : Nat) : Nat := (n + C - 1) / C

/-! ## The kernels -/

section Kernels

variable {α : Type} [Zero α] [Add α] [Mul α]

/-- The inner loop `for (j = ...; j < row_ptr[i + 1]; j++) sum += values[j] * x[col_indices[j]]`,
with `n` iterations left, loop variable `j` and accumulator `sum`. -/
def row_loop (A : CSRMatrix α) (x : List α) : Nat → Int → α → Option α
  | 0, _, sum => some sum
  | n + 1, j, sum => do
      let v ← readAt A.values j
      let c ← readAt A.col_indices j
      let xv ← readAt x c
      row_loop A x n (j + 1) (sum + v * xv)

/-- The body of the row loop for row `i`: the sum of the row, then `y[i] = sum`. -/
def spmv_row (A : CSRMatrix α) (x : List α) (y : List α) (i : Int) : Option (List α) := do
  let lo ← readAt A.row_ptr i
  let hi ← readAt A.row_ptr (i + 1)
  let sum ← row_loop A x (hi - lo).toNat lo 0
  writeAt y i sum

/-- The loop `for (i = ...; i < num_rows; i++)` of `spmv_sequential`, with `n`
iterations left. -/
def spmv_loop (A : CSRMatrix α) (x : List α) : Nat → Int → List α → Option (List α)
  | 0, _, y => some y
  | n + 1, i, y => do
      let y1 ← spmv_row A x y i
      spmv_loop A x n (i + 1) y1

/-- The function `spmv_sequential(A, x, y)`; the result is `y` after the call. -/
def spmv_sequential (A : CSRMatrix α) (x : List α) (y : List α) : Option (List α) :=
  spmv_loop A x A.num_rows.toNat 0 y

/-- An OpenMP worksharing loop over the rows: the iterations take effect in the
order `sched`. -/
def omp_for (body : List α → Int → Option (List α)) : List Nat → List α → Option (List α)
  | [], y => some y
  | i :: rest, y => do
      let y1 ← body y (i : Int)
      omp_for body rest y1

/-- The function `spmv_parallel_static(A, x, y)`, its rows taking effect in the
order `sched`. -/
def spmv_parallel_static (A : CSRMatrix α) (x : List α) (y : List α) (sched : List Nat) :
    Option (List α) :=
  omp_for (spmv_row A x) sched y

/-- The chunk size of `spmv_parallel_dynamic`:
`chunk_size = num_rows / (num_threads * 100)`, raised to `10`, lowered to `1000`.
The division is the truncating division of C and has no result for a zero
divisor. -/
def chunk_size (num_rows num_threads : Int) : Option Int :=
  let d := wrap32 (num_threads * 100)
  if d = 0 then none
  else
    let c := wrap32 (Int.tdiv num_rows d)
    let c := if c < 10 then 10 else c
    let c := if c > 1000 then 1000 else c
    some c

/-- The variable `chunk_size` of thread `t` of `spmv_parallel_dynamic` when the
thread reaches the loop directive.  `num_threads` and `chunk_size` are declared
inside the parallel region, so every thread has its own pair; the `single` block
(it has no `copyprivate` clause) is executed by one thread of the team,
`single_thread`, and assigns the pair of that thread only.  `none` is an `int`
that was never assigned. -/
def private_chunk_size (num_rows num_threads : Int) (single_thread t : Nat) : Option Int :=
  if t = single_thread then chunk_size num_rows num_threads else none

/-- The chunk size that `#pragma omp for schedule(dynamic, chunk_size)` receives
from a team of `num_threads` threads (threads `0 .. num_threads - 1`): every
thread evaluates its own `chunk_size`, and the read of one that was never
assigned is undefined. -/
def schedule_chunk_size (num_rows num_threads : Int) (single_thread : Nat) : Option Int :=
  if (List.range num_threads.toNat).all
      (fun t => (private_chunk_size num_rows num_threads single_thread t).isSome) then
    private_chunk_size num_rows num_threads single_thread single_thread
  else none

/-- The rows of the loop of `spmv_parallel_dynamic` in the order in which they
take effect: the chunks of the schedule are handed out in the order `order` and
each is run to its end, in ascending order of the rows.  (Chunks of different
threads could interleave; a run in which every thread holds a chunk size has one
thread.) -/
def dynamic_schedule (num_rows num_threads : Int) (single_thread : Nat) (order : List Nat) :
    Option (List Nat) := do
  let c ← schedule_chunk_size num_rows num_threads single_thread
  some (order.flatMap (dynamic_chunk c.toNat num_rows.toNat))

/-- The function `spmv_parallel_dynamic(A, x, y)` run by a team of `num_threads`
threads of which thread `single_thread` executes the `single` block, the chunks
being handed out in the order `order`. -/
def spmv_parallel_dynamic (A : CSRMatrix α) (x : List α) (y : List α) (num_threads : Int)
    (single_thread : Nat) (order : List Nat) : Option (List α) := do
  let sched ← dynamic_schedule A.num_rows num_threads single_thread order
  omp_for (spmv_row A x) sched y

/-- The sum of row `r` as the specification writes it: the products
`values[k] * x[col_indices[k]]` for `k` from `row_ptr[r]` up to `row_ptr[r+1]`,
added one by one to `0` in ascending order of `k`. -/
def row_sum (A : CSRMatrix α) (x : List α) (r : Nat) : α :=
  let lo := (A.row_ptr.getD r 0).toNat
  let hi := (A.row_ptr.getD (r + 1) 0).toNat
  (List.range' lo (hi - lo)).foldl
    (fun s k => s + A.values.getD k 0 * x.getD (A.col_indices.getD k 0).toNat 0) 0

/-- The entries of row `r`: the pairs (column index, value) at the positions
`row_ptr[r]` up to `row_ptr[r+1]`, in the order of storage. -/
def row_entries (A : CSRMatrix α) (r : Nat) : List (Int × α) :=
  let lo := (A.row_ptr.getD r 0).toNat
  let hi := (A.row_ptr.getD (r + 1) 0).toNat
  ((A.col_indices.zip A.values).drop lo).take (hi - lo)

/-- The column indices of every row are strictly increasing. -/
def CSRMatrix.RowsSorted (A : CSRMatrix α) : Prop :=
  ∀ r, r < A.num_rows.toNat → ((row_entries A r).map Prod.fst).Pairwise (fun a b => a < b)

/-- The dense matrix of the specification: `D[r][c]` is the value row `r` stores
for column `c`, and `0` when it stores none. -/
def dense (A : CSRMatrix α) (r c : Nat) : α :=
  ((row_entries A r).lookup (c : Int)).getD 0

/-- Row `r` of the dense matrix-vector product: the sum of `D[r][c] * x[c]` over
the columns `c` in `[0, num_cols)`. -/
def dense_row_product (A : CSRMatrix α) (x : List α) (r : Nat) : α :=
  ((List.range A.num_cols.toNat).map (fun c => dense A r c * x.getD c 0)).sum

instance (A : CSRMatrix α) : Decidable A.RowsSorted := by
  unfold CSRMatrix.RowsSorted; infer_instance

end Kernels

/-! ## The builder -/

/-- The part of the C library the builder uses: the constant `RAND_MAX`, the
state the generator is in after `srand(seed)`, and `rand()`, which returns a
number and moves the generator to its next state. -/
structure Libc (S : Type) where
  RAND_MAX : Nat
  srand : Nat → S
  rand : S → Nat × S

/-- Every number `rand()` returns lies in `[0, RAND_MAX]`, and `RAND_MAX` is positive. -/
def Libc.InRange {S : Type} (L : Libc S) : Prop :=
  0 < L.RAND_MAX ∧ ∀ g, (L.rand g).1 ≤ L.RAND_MAX

/-- The conversion `(int)q` of a double: truncation toward zero.  Outside the
range of `int` the conversion is undefined in C; the value taken here is the one
the x86-64 conversion instruction yields, `INT_MIN`. -/
def double_to_int (q : ℚ) : Int :=
  let t := Int.tdiv q.num q.den
  if -2147483648 ≤ t ∧ t ≤ 2147483647 then t else -2147483648

/-- A block returned by `malloc(n * sizeof(T))` for an `int` count `n`: `n` cells.
A negative count is a size no allocation can serve, the block is then empty
(a null pointer) and every access to it is out of bounds.  The cells are never
read before they are written, so their initial content `fill` is immaterial. -/
def alloc {β : Type} (n : Int) (fill : β) : List β := List.replicate n.toNat fill

/-- The variables of `create_random_sparse_matrix` that its loops change: the
generator, the two temporary buffers and the counter `nnz`. -/
structure BuildState (S : Type) where
  g : S
  temp_values : List ℚ
  temp_cols : List Int
  nnz : Int

/-- The loop `for (j = ...; j < cols; j++)` of the builder, with `n` iterations
left: one draw decides whether cell `j` is stored, a second draw gives its value.
(The counter `row_nnz` of the source is never read and is left out.) -/
def col_loop {S : Type} (L : Libc S) (density : ℚ) : Nat → Int → BuildState S →
    Option (BuildState S)
  | 0, _, st => some st
  | n + 1, j, st =>
      let r := L.rand st.g
      let rand_val : ℚ := (r.1 : ℚ) / (L.RAND_MAX : ℚ)
      if rand_val < density then
        let r2 := L.rand r.2
        do
          let tv ← writeAt st.temp_values st.nnz (((r2.1 : ℚ) / (L.RAND_MAX : ℚ)) * 10)
          let tc ← writeAt st.temp_cols st.nnz j
          col_loop L density n (j + 1)
            { g := r2.2, temp_values := tv, temp_cols := tc, nnz := st.nnz + 1 }
      else
        col_loop L density n (j + 1) { st with g := r.2 }

/-- The loop `for (i = ...; i < rows; i++)` of the builder, with `n` iterations
left: the columns of row `i` are scanned, then `row_ptr[i + 1] = nnz`. -/
def row_gen_loop {S : Type} (L : Libc S) (density : ℚ) (cols : Int) :
    Nat → Int → BuildState S × List Int → Option (BuildState S × List Int)
  | 0, _, st => some st
  | n + 1, i, st => do
      let st1 ← col_loop L density cols.toNat 0 st.1
      let rp ← writeAt st.2 (i + 1) st1.nnz
      row_gen_loop L density cols n (i + 1) (st1, rp)

/-- The local `estimated_nnz = (int)(rows * cols * density)`: the product
`rows * cols` is an `int` product, its product with `density` a double. -/
def estimated_nnz (rows cols : Int) (density : ℚ) : Int :=
  double_to_int ((wrap32 (rows * cols) : ℚ) * density)

/-- The number of cells of each temporary buffer, `estimated_nnz * 2`. -/
def temp_capacity (rows cols : Int) (density : ℚ) : Int :=
  wrap32 (estimated_nnz rows cols density * 2)

/-- The function `create_random_sparse_matrix(rows, cols, density)`, called with
the generator in state `g0`; the result is the store and the state the generator
is left in.  Allocations of a non-negative count succeed. -/
def create_random_sparse_matrix {S : Type} (L : Libc S) (_g0 : S) (rows cols : Int)
    (density : ℚ) : Option (CSRMatrix ℚ × S) :=
  let temp_values : List ℚ := alloc (temp_capacity rows cols density) 0
  let temp_cols : List Int := alloc (temp_capacity rows cols density) 0
  let row_ptr : List Int := alloc (rows + 1) 0
  let g := L.srand 42
  do
    let row_ptr ← writeAt row_ptr 0 0
    let fin ← row_gen_loop L density cols rows.toNat 0
      ({ g := g, temp_values := temp_values, temp_cols := temp_cols, nnz := 0 }, row_ptr)
    some ({ num_rows := rows, num_cols := cols, nnz := fin.1.nnz,
            values := fin.1.temp_values.take fin.1.nnz.toNat,
            col_indices := fin.1.temp_cols.take fin.1.nnz.toNat,
            row_ptr := fin.2 }, fin.1.g)

/-- A generator that reads its numbers off a fixed list, then returns `0` for
ever; its state is the part of the list not yet read.  A number above `rand_max`
is returned as `rand_max`. -/
def listLibc (rand_max : Nat) (draws : List Nat) : Libc (List Nat) :=
  { RAND_MAX := rand_max
    srand := fun _ => draws
    rand := fun g => (min (g.headD 0) rand_max, g.tail) }

/-- A generator that returns the same number `v` (at most `rand_max`) at every
call. -/
def constLibc (rand_max v : Nat) : Libc Unit :=
  { RAND_MAX := rand_max
    srand := fun _ => ()
    rand := fun _ => (min v rand_max, ()) }

/-- A generator with `RAND_MAX = 32767` and ten fixed draws. -/
def exampleLibc : Libc (List Nat) :=
  listLibc 32767 [100, 16000, 20000, 5, 32767, 30000, 1, 0, 2, 3]

/-- The store `create_random_sparse_matrix(2, 3, 0.5)` builds from `exampleLibc`. -/
def exampleBuilt : CSRMatrix ℚ :=
  { num_rows := 2, num_cols := 3, nnz := 4,
    values := [160000 / 32767, 10, 0, 30 / 32767],
    col_indices := [0, 2, 1, 2], row_ptr := [0, 2, 4] }

/-! ### The scan as the specification describes it

Cells are numbered in row-major order: cell `c` is column `c % cols` of row
`c / cols`. -/

section Scan

variable {S : Type} (L : Libc S) (density : ℚ)

/-- The inclusion test of a cell reached with the generator in state `g`:
one draw, `rand() / RAND_MAX < density`. -/
def cell_included (g : S) : Bool :=
  decide (((L.rand g).1 : ℚ) / (L.RAND_MAX : ℚ) < density)

/-- The value of a stored cell reached with the generator in state `g`: the
draw after the inclusion draw, `(rand() / RAND_MAX) * 10`. -/
def cell_value (g : S) : ℚ :=
  (((L.rand (L.rand g).2).1 : ℚ) / (L.RAND_MAX : ℚ)) * 10

/-- The state of the generator after a cell reached in state `g`: two draws
later when the cell is stored, one draw later when it is not. -/
def cell_next (g : S) : S :=
  if cell_included L density g then (L.rand (L.rand g).2).2 else (L.rand g).2

/-- The state of the generator when the scan reaches cell `c`, after `srand(42)`. -/
def scan_state (c : Nat) : S := (cell_next L density)^[c] (L.srand 42)

/-- Whether cell `c` passes its inclusion draw. -/
def stored (c : Nat) : Bool := cell_included L density (scan_state L density c)

/-- The value drawn for cell `c`. -/
def stored_value (c : Nat) : ℚ := cell_value L (scan_state L density c)

/-- The cells among the first `c` that pass their inclusion draw, ascending. -/
def stored_cells (c : Nat) : List Nat := (List.range c).filter (stored L density)

/-- The number of cells among the first `c` that pass their inclusion draw. -/
def stored_count (c : Nat) : Nat := (stored_cells L density c).length

/-- The store the scan describes. -/
def scanned_store (rows cols : Int) : CSRMatrix ℚ :=
  { num_rows := rows
    num_cols := cols
    nnz := (stored_count L density (rows.toNat * cols.toNat) : Int)
    values := (stored_cells L density (rows.toNat * cols.toNat)).map (stored_value L density)
    col_indices := (stored_cells L density (rows.toNat * cols.toNat)).map
      (fun c => ((c % cols.toNat : Nat) : Int))
    row_ptr := (List.range (rows.toNat + 1)).map
      (fun i => (stored_count L density (i * cols.toNat) : Int)) }

/-- The invariant of the builder's loops when the scan reaches cell `c`: the
generator is where the scan says, `nnz` counts the stored cells so far, and the
first `nnz` cells of the buffers hold their values and columns. -/
structure BuildInv (cols cap c : Nat) (st : BuildState S) : Prop where
  g_eq : st.g = scan_state L density c
  nnz_eq : st.nnz = (stored_count L density c : Int)
  tv_len : st.temp_values.length = cap
  tc_len : st.temp_cols.length = cap
  tv_eq : st.temp_values.take (stored_count L density c) =
    (stored_cells L density c).map (stored_value L density)
  tc_eq : st.temp_cols.take (stored_count L density c) =
    (stored_cells L density c).map (fun c => ((c % cols : Nat) : Int))

end Scan

/-! ## The verifier -/

/-- A line `verify_results` prints. -/
inductive Line where
  | error_at (i : Int) (y1 y2 : ℚ)
  | more_errors (n : Int)
deriving DecidableEq, Repr

/-- The constant `tolerance` of `verify_results`. -/
def tolerance : ℚ := 1 / 1000000000

/-- The loop of `verify_results`, with `n` iterations left; the state is the
counter `errors` and the lines printed so far. -/
def verify_loop (y1 y2 : List ℚ) : Nat → Int → Int × List Line → Option (Int × List Line)
  | 0, _, st => some st
  | n + 1, i, st => do
      let a ← readAt y1 i
      let b ← readAt y2 i
      if |a - b| > tolerance then
        let errors := st.1 + 1
        let out := if errors ≤ 5 then st.2 ++ [Line.error_at i a b] else st.2
        verify_loop y1 y2 n (i + 1) (errors, out)
      else
        verify_loop y1 y2 n (i + 1) st

/-- The function `verify_results(y1, y2, size)`: the value returned and the lines
printed. -/
def verify_results (y1 y2 : List ℚ) (size : Int) : Option (Int × List Line) := do
  let st ← verify_loop y1 y2 size.toNat 0 (0, [])
  let out := if st.1 > 5 then st.2 ++ [Line.more_errors (st.1 - 5)] else st.2
  some (if st.1 = 0 then 1 else 0, out)

/-- The store of the specification's scenario: row 0 holds (0, 2) and (2, 1),
row 1 is empty, row 2 holds (1, 3). -/
def exampleStore : CSRMatrix Int :=
  { num_rows := 3, num_cols := 3, nnz := 3,
    values := [2, 1, 3], col_indices := [0, 2, 1], row_ptr := [0, 2, 2, 3] }

/-- The same store with rational values. -/
def exampleStoreQ : CSRMatrix ℚ :=
  { num_rows := 3, num_cols := 3, nnz := 3,
    values := [2, 1, 3], col_indices := [0, 2, 1], row_ptr := [0, 2, 2, 3] }

/-- The store with four rows and four columns and no entry, as the builder
returns it at density `0`. -/
def emptyStore4 : CSRMatrix ℚ :=
  { num_rows := 4, num_cols := 4, nnz := 0, values := [], col_indices := [],
    row_ptr := [0, 0, 0, 0, 0] }

/-- A store of twelve rows, the identity matrix with its diagonal doubled: with
one thread the dynamic schedule has the two chunks `0 .. 9` and `10 .. 11`. -/
def diagStore12 : CSRMatrix Int :=
  { num_rows := 12, num_cols := 12, nnz := 12,
    values := List.replicate 12 2, col_indices := (List.range 12).map Int.ofNat,
    row_ptr := (List.range 13).map Int.ofNat }

/-- Writing the cells `sched` of `y` one after the other, cell `i` receiving `f i`. -/
def setRows {β : Type} (f : Nat → β) (sched : List Nat) (y : List β) : List β :=
  sched.foldl (fun y i => y.set i (f i)) y

/-- Whether index `i` is a mismatch for `verify_results`:
`fabs(y1[i] - y2[i]) > tolerance`. -/
def mismatch (y1 y2 : List ℚ) (i : Nat) : Bool :=
  decide (|y1.getD i 0 - y2.getD i 0| > tolerance)

/-- The mismatching indices below `size`, ascending. -/
def mismatches (y1 y2 : List ℚ) (size : Nat) : List Nat :=
  (List.range size).filter (mismatch y1 y2)

/-- The line `Error at index i: y1=..., y2=...`. -/
def error_line (y1 y2 : List ℚ) (i : Nat) : Line :=
  Line.error_at (i : Int) (y1.getD i 0) (y2.getD i 0)

/-! ## The kernels as transformers of memory -/

section KernelsMem

variable {α : Type} [Zero α] [Add α] [Mul α]

/-- The memory a kernel call can reach through its three pointers: the store,
the vector `x` and the vector `y`, three separate blocks. -/
structure Mem (α : Type) where
  A : CSRMatrix α
  x : List α
  y : List α

/-- The body of the row loop on memory: it reads the store and `x`, and its one
assignment is `y[i] = sum`. -/
def spmv_row_mem (m : Mem α) (i : Int) : Option (Mem α) := do
  let lo ← readAt m.A.row_ptr i
  let hi ← readAt m.A.row_ptr (i + 1)
  let sum ← row_loop m.A m.x (hi - lo).toNat lo 0
  let y1 ← writeAt m.y i sum
  some { m with y := y1 }

/-- The loop of `spmv_sequential` on memory, with `n` iterations left. -/
def spmv_loop_mem : Nat → Int → Mem α → Option (Mem α)
  | 0, _, m => some m
  | n + 1, i, m => do
      let m1 ← spmv_row_mem m i
      spmv_loop_mem n (i + 1) m1

/-- The call `spmv_sequential(A, x, y)` on memory. -/
def spmv_sequential_mem (m : Mem α) : Option (Mem α) :=
  spmv_loop_mem m.A.num_rows.toNat 0 m

/-- A worksharing loop over the rows on memory, its iterations taking effect in
the order `sched`. -/
def omp_for_mem : List Nat → Mem α → Option (Mem α)
  | [], m => some m
  | i :: rest, m => do
      let m1 ← spmv_row_mem m (i : Int)
      omp_for_mem rest m1

/-- The call `spmv_parallel_static(A, x, y)` on memory. -/
def spmv_parallel_static_mem (m : Mem α) (sched : List Nat) : Option (Mem α) :=
  omp_for_mem sched m

/-- The call `spmv_parallel_dynamic(A, x, y)` on memory, by a team of
`num_threads` threads of which thread `single_thread` executes the `single`
block, the chunks being handed out in the order `order`. -/
def spmv_parallel_dynamic_mem (m : Mem α) (num_threads : Int) (single_thread : Nat)
    (order : List Nat) : Option (Mem α) := do
  let sched ← dynamic_schedule m.A.num_rows num_threads single_thread order
  omp_for_mem sched m

end KernelsMem

/-! ## The builder when allocations can fail -/

/-- A block returned by `malloc` for `n` cells when the request may be refused:
refused (`ok = false`), the result is a null pointer, a block with no cell. -/
def alloc_or_null {β : Type} (ok : Bool) (n : Int) (fill : β) : List β :=
  if ok then alloc n fill else []

/-- The call `memcpy(dst, src, n * sizeof(T))`: the first `n` cells of `src` are
copied over the first `n` cells of `dst`; both blocks must hold `n` cells. -/
def memcpy {β : Type} (dst src : List β) (n : Int) : Option (List β) :=
  if 0 ≤ n ∧ n.toNat ≤ dst.length ∧ n.toNat ≤ src.length then
    some (src.take n.toNat ++ dst.drop n.toNat)
  else none

/-- The function `create_random_sparse_matrix` in an environment where the
`k`-th `malloc` of the call succeeds when `ok k` holds (`0`: the matrix header,
`1`: `temp_values`, `2`: `temp_cols`, `3`: `row_ptr`, `4`: `values`,
`5`: `col_indices`).  The source tests none of the six pointers: after a refused
request it goes on, and the first access through the null pointer (for the
header, `matrix->num_rows = rows`) leaves the block.  As everywhere, `none` is a
run that makes an access outside a block; the function has no other way to
end than to return the store. -/
def create_random_sparse_matrix_env {S : Type} (L : Libc S) (ok : Nat → Bool) (_g0 : S)
    (rows cols : Int) (density : ℚ) : Option (CSRMatrix ℚ × S) :=
  if ok 0 = false then none
  else
    let temp_values : List ℚ := alloc_or_null (ok 1) (temp_capacity rows cols density) 0
    let temp_cols : List Int := alloc_or_null (ok 2) (temp_capacity rows cols density) 0
    let row_ptr : List Int := alloc_or_null (ok 3) (rows + 1) 0
    let g := L.srand 42
    do
      let row_ptr ← writeAt row_ptr 0 0
      let fin ← row_gen_loop L density cols rows.toNat 0
        ({ g := g, temp_values := temp_values, temp_cols := temp_cols, nnz := 0 }, row_ptr)
      let values ← memcpy (alloc_or_null (ok 4) fin.1.nnz (0 : ℚ)) fin.1.temp_values fin.1.nnz
      let col_indices ← memcpy (alloc_or_null (ok 5) fin.1.nnz (0 : Int)) fin.1.temp_cols
        fin.1.nnz
      some ({ num_rows := rows, num_cols := cols, nnz := fin.1.nnz,
              values := values, col_indices := col_indices, row_ptr := fin.2 }, fin.1.g)

/-- The environment in which the request for `temp_values` is refused and every
other request is served. -/
def refuse_temp_values (k : Nat) : Bool := decide (k ≠ 1)

/-- The vector `a * x + b * z`, element by element. -/
def lin_comb {α : Type} [Add α] [Mul α] (a : α) (x : List α) (b : α) (z : List α) : List α :=
  List.zipWith (fun xi zi => a * xi + b * zi) x z

/-! ## The loops of the companion programs

The four companion programs (blocked matrix product, file encryption, histogram, matrix
transpose) are written with the same two loop shapes. -/

/-- The counted loop `for (i = start; i < start + n; i++) body`: `n` is the trip count, the
state is threaded through the iterations, and a failing iteration fails the loop. -/
def for_loop {σ : Type} (body : σ → Int → Option σ) : Nat → Int → σ → Option σ
  | 0, _, s => some s
  | n + 1, i, s => (body s i).bind (fun s1 => for_loop body n (i + 1) s1)

/-- An OpenMP worksharing loop whose iterations touch the shared state one after the other,
in the order `sched` in which the runtime happens to run them. -/
def omp_loop {σ ι : Type} (body : σ → ι → Option σ) : List ι → σ → Option σ
  | [], s => some s
  | k :: rest, s => (body s k).bind (fun s1 => omp_loop body rest s1)

/-! ## File encryption (`file_encryption.c`)

A file is the list of its bytes; a byte is a natural number below 256. -/

namespace Encryption

/-- The statement `buffer[i] ^= key` on `unsigned char` cells: the XOR of the promoted
operands, stored back as a byte. -/
def xor_byte (b key : Nat) : Nat := (b ^^^ key) % 256

/-- The loop `for (i = start; i < stop; i++) file_data[i] ^= key;`. -/
def xor_range (key : Nat) (start stop : Int) (file_data : List Nat) : Option (List Nat) :=
  for_loop (fun d i => (readAt d i).bind (fun b => writeAt d i (xor_byte b key)))
    (stop - start).toNat start file_data

/-- The loop of `encrypt_sequential`: `fread` takes up to 4096 bytes of the unread part `fin`
of the input, the buffer is encrypted in place and appended to the output `fout`; the loop
ends at the first empty read. -/
def encrypt_sequential_loop (key : Nat) : Nat → List Nat → List Nat → Option (List Nat)
  | 0, _, _ => none
  | fuel + 1, fin, fout =>
    let buffer := fin.take 4096
    let bytes_read : Int := buffer.length
    if bytes_read > 0 then
      (xor_range key 0 bytes_read buffer).bind
        (fun buffer1 => encrypt_sequential_loop key fuel (fin.drop 4096) (fout ++ buffer1))
    else some fout

/-- The function `encrypt_sequential`: the bytes written to the output file. -/
def encrypt_sequential (input : List Nat) (key : Nat) : Option (List Nat) :=
  encrypt_sequential_loop key (input.length + 1) input []

/-- The `int num_chunks = (file_size + chunk_size - 1) / chunk_size`: the quotient of two
`long` values, converted to `int`. -/
def num_chunks (file_size chunk_size : Int) : Option Int :=
  if chunk_size = 0 then none
  else some (wrap32 (Int.tdiv (file_size + chunk_size - 1) chunk_size))

/-- One iteration of the chunk loop of `encrypt_parallel`. -/
def encrypt_chunk (key : Nat) (chunk_size file_size : Int) (file_data : List Nat)
    (chunk : Nat) : Option (List Nat) :=
  let start_pos : Int := (chunk : Int) * chunk_size
  let end_pos : Int := start_pos + chunk_size
  let end_pos : Int := if end_pos > file_size then file_size else end_pos
  xor_range key start_pos end_pos file_data

/-- The function `encrypt_parallel`: the whole file is read into `file_data`, the chunks are
encrypted in place in the order `sched`, and `file_data` is written out. The allocation and
the file operations are taken to succeed. -/
def encrypt_parallel (input : List Nat) (key : Nat) (chunk_size : Int) (sched : List Nat) :
    Option (List Nat) :=
  let file_size : Int := input.length
  (num_chunks file_size chunk_size).bind
    (fun _ => omp_loop (encrypt_chunk key chunk_size file_size) sched input)

/-- A line printed by `verify_encryption`. -/
inductive Line where
  | size_mismatch : Line
  | error_at (pos : Int) (expected got : Nat) : Line
  deriving DecidableEq, Repr

/-- The loop of `verify_encryption`: the two files are read byte by byte; it returns the
error count and the lines printed. -/
def verify_loop (key : Nat) : List Nat → List Nat → Int → Int → List Line → Int × List Line
  | [], _, _, errors, out => (errors, out)
  | _ :: _, [], _, errors, out => (wrap32 (errors + 1), out ++ [Line.size_mismatch])
  | o :: fin, e :: fenc, pos, errors, out =>
    if e ≠ o ^^^ key then
      let errors1 := wrap32 (errors + 1)
      verify_loop key fin fenc (pos + 1) errors1
        (if errors1 ≤ 5 then out ++ [Line.error_at pos (o ^^^ key) e] else out)
    else verify_loop key fin fenc (pos + 1) errors out

/-- The function `verify_encryption`: 1 when no error was counted, and the lines printed. -/
def verify_encryption (original encrypted : List Nat) (key : Nat) : Int × List Line :=
  let r := verify_loop key original encrypted 0 0 []
  (if r.1 = 0 then 1 else 0, r.2)

/-- The byte positions of chunk `chunk`: from `chunk * chunk_size` up to, not including,
the smaller of `(chunk + 1) * chunk_size` and the file size. -/
def chunk_positions (chunk_size file_size chunk : Nat) : List Nat :=
  List.range' (chunk * chunk_size) (min (chunk * chunk_size + chunk_size) file_size
    - chunk * chunk_size)

/-- The cell `i` of `d` encrypted in place. -/
def xorAt (key : Nat) (d : List Nat) (i : Nat) : List Nat :=
  d.set i (xor_byte (d.getD i 0) key)

/-- The cells `idxs` of `d` encrypted in place, one after the other. -/
def xorAll (key : Nat) (idxs : List Nat) (d : List Nat) : List Nat :=
  idxs.foldl (xorAt key) d

end Encryption

/-! ## Histogram (`histogram.c`) -/

namespace Histogram

/-- The constant `NUM_BINS`. -/
def NUM_BINS : Int := 10

/-- The call `memset(histogram, 0, n * sizeof(int))`: the first `n` cells become 0. -/
def memset_zero (a : List Int) (n : Int) : Option (List Int) :=
  if 0 ≤ n ∧ n.toNat ≤ a.length then some (List.replicate n.toNat 0 ++ a.drop n.toNat)
  else none

/-- The statement `histogram[data[i]]++` on `int` cells. -/
def count_element (data : List Int) (histogram : List Int) (i : Int) : Option (List Int) :=
  (readAt data i).bind (fun d =>
    (readAt histogram d).bind (fun h => writeAt histogram d (wrap32 (h + 1))))

/-- The function `histogram_sequential`. -/
def histogram_sequential (data : List Int) (size : Int) (histogram : List Int) :
    Option (List Int) :=
  (memset_zero histogram NUM_BINS).bind
    (fun h => for_loop (count_element data) size.toNat 0 h)

/-- The statement `histogram[bin] += local_hist[bin]`. -/
def merge_bin (local_hist : List Int) (histogram : List Int) (bin : Int) :
    Option (List Int) :=
  (readAt histogram bin).bind (fun h =>
    (readAt local_hist bin).bind (fun l => writeAt histogram bin (wrap32 (h + l))))

/-- One thread of the parallel region of `histogram_parallel_reduction`: it counts the
elements at the indices `share` the worksharing loop hands it into its own zeroed
`local_hist`, then adds `local_hist` to the shared histogram inside the critical section. -/
def thread_run (data : List Int) (histogram : List Int) (share : List Nat) :
    Option (List Int) :=
  (omp_loop (fun h (i : Nat) => count_element data h (i : Int)) share
      (List.replicate NUM_BINS.toNat 0)).bind
    (fun local_hist => for_loop (merge_bin local_hist) NUM_BINS.toNat 0 histogram)

/-- The function `histogram_parallel_reduction`: `shares` lists, thread by thread in the
order in which the threads enter the critical section, the indices each thread counts. The
threads share nothing before the critical section, so each may run as a whole. -/
def histogram_parallel_reduction (data : List Int) (_size : Int) (histogram : List Int)
    (shares : List (List Nat)) : Option (List Int) :=
  (memset_zero histogram NUM_BINS).bind (fun h => omp_loop (thread_run data) shares h)

/-- A line printed by `verify_histograms`. -/
inductive Line where
  | error_in_bin (i h1 h2 : Int) : Line
  deriving DecidableEq, Repr

/-- One iteration of the loop of `verify_histograms`. -/
def verify_bin (h1 h2 : List Int) (st : Int × List Line) (i : Int) :
    Option (Int × List Line) :=
  (readAt h1 i).bind (fun a =>
    (readAt h2 i).bind (fun b =>
      if a ≠ b then some (wrap32 (st.1 + 1), st.2 ++ [Line.error_in_bin i a b])
      else some st))

/-- The function `verify_histograms`: 1 when no bin differs, and the lines printed. -/
def verify_histograms (h1 h2 : List Int) : Option (Int × List Line) :=
  (for_loop (verify_bin h1 h2) NUM_BINS.toNat 0 (0, [])).map
    (fun r => (if r.1 = 0 then 1 else 0, r.2))

/-- The ten bins of `data`: bin `b` is the number of indices `i` with `data[i] = b`. -/
def bin_counts (data : List Int) : List Int :=
  (List.range 10).map (fun (b : Nat) => ((data.count (b : Int) : Nat) : Int))

/-- The number of indices in `idxs` whose element of `data` is `b`. -/
def tally (data : List Int) (idxs : List Nat) (b : Nat) : Nat :=
  idxs.countP (fun i => decide (data.getD i 0 = (b : Int)))

end Histogram

/-! ## Square matrices in row-major arrays

The matrix programs index an `N x N` matrix stored row by row with the `int` expression
`i * N + j` and cut the index range `[0, N)` into blocks of `block_size`. -/

/-- The `int` expression `i * N + j`. -/
def index2 (i N j : Int) : Int := wrap32 (wrap32 (i * N) + j)

namespace Transpose

section

variable {α : Type}

/-- A line printed by `verify_transpose`. -/
inductive Line (α : Type) where
  | error_at (i j : Int) (a b : α) : Line α
  | more_errors (k : Int) : Line α

/-- One iteration of the inner loop of `verify_transpose`. -/
def verify_cell (differ : α → α → Bool) (A B : List α) (N : Int) (i : Int)
    (st : Int × List (Line α)) (j : Int) : Option (Int × List (Line α)) :=
  (readAt B (index2 j N i)).bind (fun b =>
    (readAt A (index2 i N j)).bind (fun a =>
      if differ b a then
        let errors := wrap32 (st.1 + 1)
        some (errors, if errors ≤ 5 then st.2 ++ [Line.error_at i j a b] else st.2)
      else some st))

/-- Cell `c = j * n + i` of the transpose of the `n x n` matrix `A`: the element
`A[i * n + j]`. -/
def transposed_at [Inhabited α] (A : List α) (n c : Nat) : α :=
  A.getD ((c % n) * n + c / n) default

/-- The transpose of the `n x n` matrix `A`: cell `j * n + i` holds `A[i * n + j]`. -/
def transposed [Inhabited α] (A : List α) (n : Nat) : List α :=
  (List.range (n * n)).map (transposed_at A n)

end

end Transpose

namespace MatMul

section

variable {α : Type} [Zero α] [Add α] [Mul α]

/-- The call `memset(C, 0, count * sizeof(double))`: the `int` count is converted to
`size_t`, so a negative count asks for more cells than any array has. -/
def memset_zero (C : List α) (count : Int) : Option (List α) :=
  if 0 ≤ count ∧ count.toNat ≤ C.length then
    some (List.replicate count.toNat 0 ++ C.drop count.toNat)
  else none

/-- A line printed by `verify_results`. -/
inductive Line (α : Type) where
  | error_at (i : Int) (seq par : α) : Line α
  | more_errors (k : Int) : Line α

/-- One iteration of the loop of `verify_results`. -/
def verify_cell (differ : α → α → Bool) (C1 C2 : List α) (st : Int × List (Line α))
    (i : Int) : Option (Int × List (Line α)) :=
  (readAt C1 i).bind (fun a =>
    (readAt C2 i).bind (fun b =>
      if differ a b then
        let errors := wrap32 (st.1 + 1)
        some (errors, if errors ≤ 5 then st.2 ++ [Line.error_at i a b] else st.2)
      else some st))

/-- The function `verify_results`: 1 when no error was counted, and the lines printed. -/
def verify_results (differ : α → α → Bool) (C1 C2 : List α) (N : Int) :
    Option (Int × List (Line α)) :=
  (for_loop (verify_cell differ C1 C2) (wrap32 (N * N)).toNat 0 (0, [])).map
    (fun r => (if r.1 = 0 then 1 else 0,
      if r.1 > 5 then r.2 ++ [Line.more_errors (wrap32 (r.1 - 5))] else r.2))

end

end MatMul

/-! ## Arrays -/

theorem readAt_natCast {β : Type} (a : List β) (k : Nat) : readAt a (k : Int) = a[k]? := by
  simp [readAt]

theorem writeAt_natCast {β : Type} (a : List β) (k : Nat) (v : β) :
    writeAt a (k : Int) v = if k < a.length then some (a.set k v) else none := by
  simp [writeAt]

theorem writeAt_length {β : Type} {a b : List β} {i : Int} {v : β}
    (h : writeAt a i v = some b) : b.length = a.length := by
  unfold writeAt at h
  split at h
  · cases h; simp
  · cases h

theorem setRows_getElem? {β : Type} (f : Nat → β) (sched : List Nat) (y : List β) (k : Nat) :
    (setRows f sched y)[k]? = if k ∈ sched ∧ k < y.length then some (f k) else y[k]? := by
  induction sched generalizing y with
  | nil => simp [setRows]
  | cons i rest ih =>
    have h := ih (y.set i (f i))
    simp only [setRows, List.foldl_cons] at h ⊢
    rw [h]
    simp only [List.length_set, List.mem_cons, List.getElem?_set]
    by_cases hk : k ∈ rest
    · by_cases hl : k < y.length
      · simp [hk, hl]
      · have hl2 : y.length ≤ k := by omega
        simp [hk, hl, List.getElem?_eq_none hl2]
        intro hik
        omega
    · by_cases hik : i = k
      · subst hik
        by_cases hl : i < y.length
        · simp [hk, hl]
        · have hl2 : y.length ≤ i := by omega
          simp [hk, hl, List.getElem?_eq_none hl2]
      · have : ¬ k = i := fun e => hik e.symm
        simp [hk, hik, this]

theorem setRows_eq_map {β : Type} (f : Nat → β) (sched : List Nat) (y : List β)
    (hall : ∀ k, k < y.length → k ∈ sched) :
    setRows f sched y = (List.range y.length).map f := by
  apply List.ext_getElem?
  intro k
  rw [setRows_getElem?]
  by_cases hk : k < y.length
  · simp [hk, hall k hk, List.getElem?_range]
  · have : y.length ≤ k := by omega
    simp [hk, this, List.getElem?_eq_none]

/-! ## The kernels: what a run computes -/

/-- In a store that satisfies the invariant, the bounds of row `r` are two
entries of `row_ptr` with `0 ≤ row_ptr[r] ≤ row_ptr[r+1] ≤ nnz`. -/
theorem valid_row_bounds {α : Type} (A : CSRMatrix α) (hA : A.Valid) (r : Nat) (hr : r < A.num_rows.toNat) :
    ∃ lo hi : Nat, A.row_ptr[r]? = some (lo : Int) ∧ A.row_ptr[r + 1]? = some (hi : Int) ∧
      lo ≤ hi ∧ hi ≤ A.nnz.toNat := by
  obtain ⟨_, hnnz, hlen, h0, hlast, hpw, _, _, _⟩ := hA
  rw [List.pairwise_iff_getElem] at hpw
  have hr0 : r < A.row_ptr.length := by omega
  have hr1 : r + 1 < A.row_ptr.length := by omega
  have hn : A.num_rows.toNat < A.row_ptr.length := by omega
  have hz : 0 < A.row_ptr.length := by omega
  rw [List.getElem?_eq_getElem hz] at h0
  rw [List.getElem?_eq_getElem hn] at hlast
  have e0 : A.row_ptr[0] = 0 := by simpa using h0
  have en : A.row_ptr[A.num_rows.toNat] = A.nnz := by simpa using hlast
  have lo_nonneg : 0 ≤ A.row_ptr[r] := by
    rcases Nat.eq_zero_or_pos r with h | h
    · subst h; omega
    · have := hpw 0 r hz hr0 h; omega
  have lo_le_hi : A.row_ptr[r] ≤ A.row_ptr[r + 1] := hpw r (r + 1) hr0 hr1 (by omega)
  have hi_le : A.row_ptr[r + 1] ≤ A.nnz := by
    rcases Nat.lt_or_ge (r + 1) A.num_rows.toNat with h | h
    · have := hpw (r + 1) A.num_rows.toNat hr1 hn h; omega
    · have e : r + 1 = A.num_rows.toNat := by omega
      simp only [e, en]; exact le_refl _
  refine ⟨(A.row_ptr[r]).toNat, (A.row_ptr[r + 1]).toNat, ?_, ?_, ?_, ?_⟩
  · rw [List.getElem?_eq_getElem hr0, Int.toNat_of_nonneg lo_nonneg]
  · rw [List.getElem?_eq_getElem hr1, Int.toNat_of_nonneg (by omega)]
  · omega
  · omega

theorem valid_cols_lt {α : Type} (A : CSRMatrix α) (x : List α) (hA : A.Valid)
    (hx : (x.length : Int) = A.num_cols) :
    ∀ c ∈ A.col_indices, 0 ≤ c ∧ c.toNat < x.length := by
  intro c hcm
  have := hA.2.2.2.2.2.2.2.2 c hcm
  omega

theorem chunk_size_isSome (num_rows T : Int) (h1 : 1 ≤ T) (h2 : T ≤ INT_MAX)
    (h3 : T ≠ 1073741824) : ∃ c, chunk_size num_rows T = some c := by
  have hd : wrap32 (T * 100) ≠ 0 := by
    unfold wrap32
    unfold INT_MAX at h2
    omega
  simp [chunk_size, hd]

theorem chunk_size_range (num_rows T c : Int) (h : chunk_size num_rows T = some c) :
    10 ≤ c ∧ c ≤ 1000 := by
  unfold chunk_size at h
  simp only at h
  split at h
  · cases h
  · cases h
    split_ifs <;> omega

section KernelLemmas

variable {α : Type} [Zero α] [Add α] [Mul α]

theorem row_loop_eq (A : CSRMatrix α) (x : List α)
    (hlen : A.col_indices.length = A.values.length)
    (hc : ∀ c ∈ A.col_indices, 0 ≤ c ∧ c.toNat < x.length) :
    ∀ (n j : Nat) (s : α), j + n ≤ A.values.length →
      row_loop A x n (j : Int) s = some ((List.range' j n).foldl
        (fun s k => s + A.values.getD k 0 * x.getD (A.col_indices.getD k 0).toNat 0) s) := by
  intro n
  induction n with
  | zero => intro j s _; simp [row_loop]
  | succ n ih =>
    intro j s h
    have hj : j < A.values.length := by omega
    have hj2 : j < A.col_indices.length := by omega
    have hcj := hc (A.col_indices[j]) (List.getElem_mem hj2)
    have hx : readAt x (A.col_indices[j]) = some (x[(A.col_indices[j]).toNat]) := by
      simp [readAt, hcj.1, List.getElem?_eq_getElem hcj.2]
    have ih2 := ih (j + 1) (s + A.values[j] * x[(A.col_indices[j]).toNat]) (by omega)
    simp only [row_loop, readAt_natCast, List.getElem?_eq_getElem hj,
      List.getElem?_eq_getElem hj2, Option.bind_eq_bind, Option.some_bind, hx]
    rw [show ((j : Int) + 1) = ((j + 1 : Nat) : Int) by push_cast; rfl, ih2]
    simp [List.range'_succ, List.getD_eq_getElem, hj, hj2, hcj.2]

theorem spmv_row_eq (A : CSRMatrix α) (x : List α) (hA : A.Valid)
    (hc : ∀ c ∈ A.col_indices, 0 ≤ c ∧ c.toNat < x.length)
    (y : List α) (r : Nat) (hr : r < A.num_rows.toNat) :
    spmv_row A x y (r : Int) =
      if r < y.length then some (y.set r (row_sum A x r)) else none := by
  obtain ⟨lo, hi, hlo, hhi, hle, hnz⟩ := valid_row_bounds A hA r hr
  obtain ⟨_, hnnz, _, _, _, _, hv, hci, _⟩ := hA
  have hloop := row_loop_eq A x (by omega) hc (hi - lo) lo 0 (by omega)
  have e1 : ((hi : Int) - (lo : Int)).toNat = hi - lo := by omega
  have hlo2 := hlo
  have hhi2 := hhi
  rw [List.getElem?_eq_some_iff] at hlo2 hhi2
  obtain ⟨h1, h1e⟩ := hlo2
  obtain ⟨h2, h2e⟩ := hhi2
  have e2 : row_sum A x r = (List.range' lo (hi - lo)).foldl
      (fun s k => s + A.values.getD k 0 * x.getD (A.col_indices.getD k 0).toNat 0) 0 := by
    simp [row_sum, List.getD_eq_getElem, h1, h2, h1e, h2e]
  unfold spmv_row
  rw [show ((r : Int) + 1) = ((r + 1 : Nat) : Int) by push_cast; rfl]
  simp only [readAt_natCast, hlo, hhi, Option.bind_eq_bind, Option.some_bind, e1, hloop,
    writeAt_natCast, e2]

theorem spmv_loop_eq_omp_for (A : CSRMatrix α) (x : List α) :
    ∀ (n i : Nat) (y : List α),
      spmv_loop A x n (i : Int) y = omp_for (spmv_row A x) (List.range' i n) y := by
  intro n
  induction n with
  | zero => intro i y; rfl
  | succ n ih =>
    intro i y
    simp only [spmv_loop, List.range'_succ, omp_for]
    congr 1
    funext y1
    rw [show ((i : Int) + 1) = ((i + 1 : Nat) : Int) by push_cast; rfl]
    exact ih (i + 1) y1

theorem omp_for_eq_setRows (A : CSRMatrix α) (x : List α) (hA : A.Valid)
    (hc : ∀ c ∈ A.col_indices, 0 ≤ c ∧ c.toNat < x.length) :
    ∀ (sched : List Nat) (y : List α), y.length = A.num_rows.toNat →
      (∀ i ∈ sched, i < A.num_rows.toNat) →
      omp_for (spmv_row A x) sched y = some (setRows (row_sum A x) sched y) := by
  intro sched
  induction sched with
  | nil => intro y _ _; rfl
  | cons i rest ih =>
    intro y hy hs
    have hi : i < A.num_rows.toNat := hs i (List.mem_cons_self _ _)
    have hi2 : i < y.length := by omega
    simp only [omp_for, spmv_row_eq A x hA hc y i hi, hi2, if_true, Option.bind_eq_bind,
      Option.some_bind]
    rw [ih (y.set i (row_sum A x i)) (by simp [hy])
      (fun k hk => hs k (List.mem_cons_of_mem _ hk))]
    rfl

/-- Every run of the row loop that visits each row in `[0, num_rows)` at least
once, and no other index, leaves the row sums in `y`. -/
theorem omp_for_eq_map (A : CSRMatrix α) (x : List α) (hA : A.Valid)
    (hc : ∀ c ∈ A.col_indices, 0 ≤ c ∧ c.toNat < x.length) (sched : List Nat) (y : List α)
    (hy : y.length = A.num_rows.toNat)
    (hs : ∀ i, i ∈ sched ↔ i < A.num_rows.toNat) :
    omp_for (spmv_row A x) sched y =
      some ((List.range A.num_rows.toNat).map (row_sum A x)) := by
  rw [omp_for_eq_setRows A x hA hc sched y hy (fun i hi => (hs i).1 hi),
    setRows_eq_map _ _ _ (fun k hk => (hs k).2 (by omega)), hy]

theorem spmv_sequential_eq_map (A : CSRMatrix α) (x : List α) (hA : A.Valid)
    (hc : ∀ c ∈ A.col_indices, 0 ≤ c ∧ c.toNat < x.length)
    (y : List α) (hy : y.length = A.num_rows.toNat) :
    spmv_sequential A x y = some ((List.range A.num_rows.toNat).map (row_sum A x)) := by
  unfold spmv_sequential
  have h := spmv_loop_eq_omp_for A x A.num_rows.toNat 0 y
  simp only [Nat.cast_zero] at h
  rw [h, omp_for_eq_map A x hA hc _ y hy]
  intro i
  simp [List.mem_range']

theorem spmv_parallel_static_eq_map (A : CSRMatrix α) (x : List α) (hA : A.Valid)
    (hc : ∀ c ∈ A.col_indices, 0 ≤ c ∧ c.toNat < x.length) (sched : List Nat) (y : List α)
    (hy : y.length = A.num_rows.toNat) (hs : sched.Perm (List.range A.num_rows.toNat)) :
    spmv_parallel_static A x y sched =
      some ((List.range A.num_rows.toNat).map (row_sum A x)) := by
  unfold spmv_parallel_static
  apply omp_for_eq_map A x hA hc sched y hy
  intro i
  rw [hs.mem_iff, List.mem_range]

theorem row_sum_empty (A : CSRMatrix α) (x : List α) (r : Nat)
    (h : A.row_ptr.getD r 0 = A.row_ptr.getD (r + 1) 0) : row_sum A x r = 0 := by
  unfold row_sum
  simp only [h, Nat.sub_self, List.range'_zero, List.foldl_nil]

theorem row_sum_of_row_ptr_eq (A : CSRMatrix α) (x : List α) (r : Nat)
    (h : A.row_ptr[r]? = A.row_ptr[r + 1]?) :
    row_sum A x r = 0 := by
  apply row_sum_empty
  rw [List.getD_eq_getElem?_getD, List.getD_eq_getElem?_getD, h]

theorem map_row_sum_of_nnz_zero (A : CSRMatrix α) (x : List α) (hA : A.Valid)
    (hz : A.nnz = 0) :
    (List.range A.num_rows.toNat).map (row_sum A x) = List.replicate A.num_rows.toNat 0 := by
  apply List.ext_getElem?
  intro k
  by_cases hk : k < A.num_rows.toNat
  · obtain ⟨lo, hi, hlo, hhi, hle, hnz⟩ := valid_row_bounds A hA k hk
    have h0 : lo = 0 ∧ hi = 0 := by rw [hz] at hnz; simp at hnz; omega
    have hrs : row_sum A x k = 0 := by
      apply row_sum_of_row_ptr_eq A x k
      rw [hlo, hhi, h0.1, h0.2]
    simp [List.getElem?_range, hk, hrs, List.getElem?_replicate]
  · have : A.num_rows.toNat ≤ k := by omega
    simp [List.getElem?_eq_none, this]

end KernelLemmas


/-! ## The sparse product is the dense product -/

theorem segment_eq_map {β : Type} (l : List β) (d : β) (lo len : Nat)
    (h : lo + len ≤ l.length) :
    (l.drop lo).take len = (List.range' lo len).map (fun k => l.getD k d) := by
  apply List.ext_getElem?
  intro i
  rw [List.getElem?_take, List.getElem?_drop, List.getElem?_map]
  by_cases hi : i < len
  · have hl : lo + i < l.length := by omega
    simp [hi, List.getElem?_range' lo 1 hi, List.getElem?_eq_getElem hl,
      List.getD_eq_getElem l d hl]
  · have : (List.range' lo len).length ≤ i := by simp; omega
    simp [hi, List.getElem?_eq_none this]

theorem foldl_add_eq_sum {β M : Type} [AddMonoid M] (f : β → M) (l : List β) (a : M) :
    l.foldl (fun s k => s + f k) a = a + (l.map f).sum := by
  induction l generalizing a with
  | nil => simp
  | cons b l ih => simp [ih, add_assoc]

theorem list_sum_range_eq_finset {M : Type} [AddCommMonoid M] (f : Nat → M) (m : Nat) :
    ((List.range m).map f).sum = ∑ c ∈ Finset.range m, f c := by
  induction m with
  | zero => simp
  | succ m ih => rw [List.sum_range_succ, Finset.sum_range_succ, ih]

theorem lookup_eq_none_of_not_mem {β : Type} (E : List (Int × β)) (c : Int)
    (h : c ∉ E.map Prod.fst) : E.lookup c = none := by
  induction E with
  | nil => rfl
  | cons e E ih =>
    obtain ⟨k, v⟩ := e
    simp only [List.map_cons, List.mem_cons, not_or] at h
    have hne : (c == k) = false := by simpa using h.1
    rw [List.lookup_cons, hne]
    exact ih h.2

/-- A list of entries with pairwise distinct columns in `[0, m)`: the sum of
`v * x[c]` over the entries is the sum over all columns of the looked-up value
times `x[c]`. -/
theorem entries_sum_eq_dense {α : Type} [Semiring α] (x : List α) (m : Nat) :
    ∀ (E : List (Int × α)), (E.map Prod.fst).Nodup →
      (∀ e ∈ E, 0 ≤ e.1 ∧ e.1.toNat < m) →
      (E.map (fun e => e.2 * x.getD e.1.toNat 0)).sum =
        ∑ c ∈ Finset.range m, (E.lookup (c : Int)).getD 0 * x.getD c 0 := by
  intro E
  induction E with
  | nil => intro _ _; simp
  | cons e E ih =>
    intro hnd hr
    obtain ⟨k, v⟩ := e
    simp only [List.map_cons, List.nodup_cons] at hnd
    have hk := hr (k, v) (List.mem_cons_self _ _)
    simp only at hk
    have ih2 := ih hnd.2 (fun e he => hr e (List.mem_cons_of_mem _ he))
    have hpt : ∀ c ∈ Finset.range m,
        (((k, v) :: E).lookup (c : Int)).getD 0 * x.getD c 0 =
          (if k.toNat = c then v * x.getD c 0 else 0) + (E.lookup (c : Int)).getD 0 * x.getD c 0 := by
      intro c _
      by_cases hc : k.toNat = c
      · have hck : (c : Int) = k := by omega
        have hb : ((c : Int) == k) = true := by simpa using hck
        have hnone : E.lookup (c : Int) = none := by
          apply lookup_eq_none_of_not_mem
          rw [hck]; exact hnd.1
        simp [List.lookup_cons, hb, hc, hnone]
      · have hck : ¬ (c : Int) = k := by omega
        have hb : ((c : Int) == k) = false := by simpa using hck
        simp [List.lookup_cons, hb, hc]
    rw [Finset.sum_congr rfl hpt, Finset.sum_add_distrib, Finset.sum_ite_eq, ← ih2]
    simp [hk.2]

theorem row_entries_eq_map {α : Type} [Zero α] (A : CSRMatrix α) (hA : A.Valid) (r : Nat)
    (hr : r < A.num_rows.toNat) :
    ∃ lo hi : Nat, A.row_ptr.getD r 0 = (lo : Int) ∧ A.row_ptr.getD (r + 1) 0 = (hi : Int) ∧
      lo ≤ hi ∧ hi ≤ A.nnz.toNat ∧
      row_entries A r =
        (List.range' lo (hi - lo)).map (fun k => (A.col_indices.getD k 0, A.values.getD k 0)) := by
  obtain ⟨lo, hi, hlo, hhi, hle, hnz⟩ := valid_row_bounds A hA r hr
  obtain ⟨_, _, _, _, _, _, hv, hci, _⟩ := hA
  have e1 : A.row_ptr.getD r 0 = (lo : Int) := by
    rw [List.getD_eq_getElem?_getD, hlo]; rfl
  have e2 : A.row_ptr.getD (r + 1) 0 = (hi : Int) := by
    rw [List.getD_eq_getElem?_getD, hhi]; rfl
  refine ⟨lo, hi, e1, e2, hle, hnz, ?_⟩
  have hz : (A.col_indices.zip A.values).length = A.nnz.toNat := by
    simp [List.length_zip, hv, hci]
  unfold row_entries
  simp only [e1, e2, Int.toNat_ofNat]
  rw [segment_eq_map (A.col_indices.zip A.values) ((0 : Int), (0 : α)) lo (hi - lo)
    (by omega)]
  apply List.map_congr_left
  intro k hk
  rw [List.mem_range'_1] at hk
  have hk1 : k < A.col_indices.length := by omega
  have hk2 : k < A.values.length := by omega
  have hk3 : k < (A.col_indices.zip A.values).length := by omega
  rw [List.getD_eq_getElem _ _ hk1, List.getD_eq_getElem _ _ hk2, List.getD_eq_getElem _ _ hk3,
    List.getElem_zip]

theorem row_sum_eq_dense {α : Type} [Semiring α] (A : CSRMatrix α) (x : List α) (hA : A.Valid)
    (hS : A.RowsSorted) (r : Nat) (hr : r < A.num_rows.toNat) :
    row_sum A x r = dense_row_product A x r := by
  obtain ⟨lo, hi, e1, e2, hle, hnz, hent⟩ := row_entries_eq_map A hA r hr
  have hnd : ((row_entries A r).map Prod.fst).Nodup :=
    (hS r hr).imp (fun h => ne_of_lt h)
  have hrange : ∀ e ∈ row_entries A r, 0 ≤ e.1 ∧ e.1.toNat < A.num_cols.toNat := by
    intro e he
    have hmem : e ∈ A.col_indices.zip A.values :=
      List.mem_of_mem_drop (List.mem_of_mem_take he)
    have hc := hA.2.2.2.2.2.2.2.2 e.1 (List.of_mem_zip hmem).1
    omega
  have hE := entries_sum_eq_dense x A.num_cols.toNat (row_entries A r) hnd hrange
  unfold dense_row_product
  rw [list_sum_range_eq_finset]
  unfold dense
  rw [← hE, hent]
  unfold row_sum
  simp only [e1, e2, Int.toNat_ofNat]
  rw [foldl_add_eq_sum, zero_add, List.map_map]
  rfl

/-! ## The builder: what a run computes -/

section BuilderLemmas

variable {S : Type} (L : Libc S) (density : ℚ)

theorem take_set_succ {β : Type} (buf : List β) (k : Nat) (v : β) (h : k < buf.length) :
    (buf.set k v).take (k + 1) = buf.take k ++ [v] := by
  induction buf generalizing k with
  | nil => simp at h
  | cons b buf ih =>
    cases k with
    | zero => simp
    | succ k =>
      simp only [List.length_cons, Nat.add_lt_add_iff_right] at h
      simp [ih k h]

theorem scan_state_succ (c : Nat) :
    scan_state L density (c + 1) = cell_next L density (scan_state L density c) := by
  simp [scan_state, Function.iterate_succ_apply']

theorem stored_cells_succ (c : Nat) :
    stored_cells L density (c + 1) =
      stored_cells L density c ++ (if stored L density c then [c] else []) := by
  unfold stored_cells
  rw [List.range_succ, List.filter_append]
  by_cases h : stored L density c <;> simp [h]

theorem stored_count_succ (c : Nat) :
    stored_count L density (c + 1) =
      stored_count L density c + (if stored L density c then 1 else 0) := by
  unfold stored_count
  rw [stored_cells_succ]
  by_cases h : stored L density c <;> simp [h]

theorem stored_count_mono {a b : Nat} (h : a ≤ b) :
    stored_count L density a ≤ stored_count L density b := by
  induction b with
  | zero =>
    have : a = 0 := by omega
    subst this; exact le_refl _
  | succ b ih =>
    rcases Nat.lt_or_ge a (b + 1) with h1 | h1
    · have := ih (by omega)
      rw [stored_count_succ]; omega
    · have : a = b + 1 := by omega
      subst this; exact le_refl _

theorem mul_add_mod_lt (i cols j : Nat) (h : j < cols) : (i * cols + j) % cols = j := by
  rw [Nat.add_comm, Nat.add_mul_mod_self_right, Nat.mod_eq_of_lt h]

theorem BuildInv.count_le {cols cap c : Nat} {st : BuildState S}
    (h : BuildInv L density cols cap c st) : stored_count L density c ≤ cap := by
  have h1 := congrArg List.length h.tv_eq
  rw [List.length_take, List.length_map, h.tv_len] at h1
  unfold stored_count at h1 ⊢
  omega

theorem BuildInv.step_stored {cols cap i j : Nat} {st : BuildState S} (hj : j < cols)
    (h : BuildInv L density cols cap (i * cols + j) st)
    (hs : cell_included L density st.g = true)
    (hlt : stored_count L density (i * cols + j) < cap) :
    BuildInv L density cols cap (i * cols + j + 1)
      { g := (L.rand (L.rand st.g).2).2
        temp_values := st.temp_values.set (stored_count L density (i * cols + j))
          ((((L.rand (L.rand st.g).2).1 : ℚ) / (L.RAND_MAX : ℚ)) * 10)
        temp_cols := st.temp_cols.set (stored_count L density (i * cols + j)) (j : Int)
        nnz := st.nnz + 1 } := by
  have hst : stored L density (i * cols + j) = true := by
    unfold stored; rw [← h.g_eq]; exact hs
  have hcnt : stored_count L density (i * cols + j + 1) =
      stored_count L density (i * cols + j) + 1 := by
    rw [stored_count_succ]; simp [hst]
  have hcells : stored_cells L density (i * cols + j + 1) =
      stored_cells L density (i * cols + j) ++ [i * cols + j] := by
    rw [stored_cells_succ]; simp [hst]
  constructor
  · show _ = scan_state L density (i * cols + j + 1)
    rw [scan_state_succ, ← h.g_eq]
    simp [cell_next, hs]
  · show st.nnz + 1 = _
    rw [hcnt, h.nnz_eq]; push_cast; rfl
  · simp [h.tv_len]
  · simp [h.tc_len]
  · show (st.temp_values.set _ _).take _ = _
    rw [hcnt, take_set_succ _ _ _ (by rw [h.tv_len]; exact hlt), h.tv_eq, hcells,
      List.map_append]
    simp [stored_value, cell_value, ← h.g_eq]
  · show (st.temp_cols.set _ _).take _ = _
    rw [hcnt, take_set_succ _ _ _ (by rw [h.tc_len]; exact hlt), h.tc_eq, hcells,
      List.map_append]
    simp only [List.map_cons, List.map_nil, mul_add_mod_lt i cols j hj]

theorem BuildInv.step_skipped {cols cap c : Nat} {st : BuildState S}
    (h : BuildInv L density cols cap c st)
    (hs : cell_included L density st.g = false) :
    BuildInv L density cols cap (c + 1) { st with g := (L.rand st.g).2 } := by
  have hst : stored L density c = false := by
    unfold stored; rw [← h.g_eq]; exact hs
  have hcnt : stored_count L density (c + 1) = stored_count L density c := by
    rw [stored_count_succ]; simp [hst]
  have hcells : stored_cells L density (c + 1) = stored_cells L density c := by
    rw [stored_cells_succ]; simp [hst]
  constructor
  · show _ = scan_state L density (c + 1)
    rw [scan_state_succ, ← h.g_eq]
    simp [cell_next, hs]
  · show st.nnz = _
    rw [hcnt, h.nnz_eq]
  · exact h.tv_len
  · exact h.tc_len
  · show st.temp_values.take _ = _
    rw [hcnt, hcells, h.tv_eq]
  · show st.temp_cols.take _ = _
    rw [hcnt, hcells, h.tc_eq]

/-- The column loop from cell `i * cols + j`: it runs to the end when the stored
cells up to its last cell fit the buffers, and leaves a buffer otherwise. -/
theorem col_loop_spec (cols cap i : Nat) :
    ∀ (n j : Nat) (st : BuildState S), j + n ≤ cols →
      BuildInv L density cols cap (i * cols + j) st →
      (stored_count L density (i * cols + j + n) ≤ cap →
        ∃ st1, col_loop L density n (j : Int) st = some st1 ∧
          BuildInv L density cols cap (i * cols + j + n) st1) ∧
      (cap < stored_count L density (i * cols + j + n) →
        col_loop L density n (j : Int) st = none) := by
  intro n
  induction n with
  | zero =>
    intro j st _ hinv
    refine ⟨fun _ => ⟨st, rfl, hinv⟩, fun h => ?_⟩
    have := hinv.count_le
    simp only [Nat.add_zero] at h
    omega
  | succ n ih =>
    intro j st hjn hinv
    have hj : j < cols := by omega
    have hcast : ((j : Int) + 1) = ((j + 1 : Nat) : Int) := by push_cast; rfl
    have hidx : i * cols + j + (n + 1) = i * cols + (j + 1) + n := by omega
    have hidx1 : i * cols + j + 1 = i * cols + (j + 1) := by omega
    have hmono : stored_count L density (i * cols + j + 1) ≤
        stored_count L density (i * cols + j + (n + 1)) :=
      stored_count_mono L density (by omega)
    by_cases hs : cell_included L density st.g = true
    · have hlt : ((L.rand st.g).1 : ℚ) / (L.RAND_MAX : ℚ) < density := by
        simpa [cell_included] using hs
      have hst : stored L density (i * cols + j) = true := by
        unfold stored; rw [← hinv.g_eq]; exact hs
      have hcnt : stored_count L density (i * cols + j + 1) =
          stored_count L density (i * cols + j) + 1 := by
        rw [stored_count_succ]; simp [hst]
      by_cases hfit : stored_count L density (i * cols + j) < cap
      · have hinv1 := hinv.step_stored L density hj hs hfit
        rw [hidx1] at hinv1
        have hrec := ih (j + 1) _ (by omega) hinv1
        simp only [col_loop, hlt, if_true, hinv.nnz_eq, writeAt_natCast, hinv.tv_len,
          hinv.tc_len, hfit, Option.bind_eq_bind, Option.some_bind, hcast, hidx]
        rw [← hinv.nnz_eq]
        exact hrec
      · have hnone : col_loop L density (n + 1) (j : Int) st = none := by
          simp only [col_loop, hlt, if_true, hinv.nnz_eq, writeAt_natCast, hinv.tv_len,
            hfit, if_false, Option.bind_eq_bind, Option.none_bind]
        refine ⟨fun h => ?_, fun _ => hnone⟩
        omega
    · have hs2 : cell_included L density st.g = false := by simpa using hs
      have hlt : ¬ ((L.rand st.g).1 : ℚ) / (L.RAND_MAX : ℚ) < density := by
        simpa [cell_included] using hs2
      have hinv1 := hinv.step_skipped L density hs2
      rw [hidx1] at hinv1
      have hrec := ih (j + 1) _ (by omega) hinv1
      simp only [col_loop, hlt, if_false, hcast, hidx]
      exact hrec

/-- The row loop from row `i`: it runs to the end when the stored cells of all
rows up to its last fit the buffers, and leaves a buffer otherwise. -/
theorem row_gen_loop_spec (cols : Int) (cap rows : Nat) :
    ∀ (n i : Nat) (st : BuildState S) (rp : List Int), i + n ≤ rows →
      BuildInv L density cols.toNat cap (i * cols.toNat) st →
      rp.length = rows + 1 →
      rp.take (i + 1) = (List.range (i + 1)).map
        (fun t => (stored_count L density (t * cols.toNat) : Int)) →
      (stored_count L density ((i + n) * cols.toNat) ≤ cap →
        ∃ fin, row_gen_loop L density cols n (i : Int) (st, rp) = some fin ∧
          BuildInv L density cols.toNat cap ((i + n) * cols.toNat) fin.1 ∧
          fin.2.length = rows + 1 ∧
          fin.2.take (i + n + 1) = (List.range (i + n + 1)).map
            (fun t => (stored_count L density (t * cols.toNat) : Int))) ∧
      (cap < stored_count L density ((i + n) * cols.toNat) →
        row_gen_loop L density cols n (i : Int) (st, rp) = none) := by
  intro n
  induction n with
  | zero =>
    intro i st rp _ hinv hlen htake
    refine ⟨fun _ => ⟨(st, rp), rfl, hinv, hlen, htake⟩, fun h => ?_⟩
    have := hinv.count_le
    simp only [Nat.add_zero] at h
    omega
  | succ n ih =>
    intro i st rp hin hinv hlen htake
    have hcast : ((i : Int) + 1) = ((i + 1 : Nat) : Int) := by push_cast; rfl
    have hidx : i * cols.toNat + 0 + cols.toNat = (i + 1) * cols.toNat := by
      rw [Nat.add_zero, Nat.succ_mul]
    have hidx2 : i + (n + 1) = i + 1 + n := by omega
    have hmono : stored_count L density ((i + 1) * cols.toNat) ≤
        stored_count L density ((i + (n + 1)) * cols.toNat) :=
      stored_count_mono L density (Nat.mul_le_mul_right _ (by omega))
    have hcol := col_loop_spec L density cols.toNat cap i cols.toNat 0 st (by omega)
      (by simpa using hinv)
    rw [hidx] at hcol
    simp only [Nat.cast_zero] at hcol
    by_cases hfit : stored_count L density ((i + 1) * cols.toNat) ≤ cap
    · obtain ⟨st1, hst1, hinv1⟩ := hcol.1 hfit
      have hw : i + 1 < rp.length := by omega
      have hrp1len : (rp.set (i + 1) st1.nnz).length = rows + 1 := by simp [hlen]
      have hrp1 : (rp.set (i + 1) st1.nnz).take (i + 1 + 1) = (List.range (i + 1 + 1)).map
          (fun t => (stored_count L density (t * cols.toNat) : Int)) := by
        rw [take_set_succ _ _ _ hw, htake, List.range_succ (i + 1), List.map_append,
          hinv1.nnz_eq]
        rfl
      have hrec := ih (i + 1) st1 (rp.set (i + 1) st1.nnz) (by omega) hinv1 hrp1len hrp1
      simp only [row_gen_loop, Nat.cast_zero, hst1, Option.bind_eq_bind, Option.some_bind,
        hcast, writeAt_natCast, hw, if_true, hidx2]
      exact hrec
    · have hnone : row_gen_loop L density cols (n + 1) (i : Int) (st, rp) = none := by
        simp only [row_gen_loop, Nat.cast_zero, hcol.2 (by omega), Option.bind_eq_bind,
          Option.none_bind]
      refine ⟨fun h => ?_, fun _ => hnone⟩
      omega

/-- What `create_random_sparse_matrix` computes: the store the scan describes,
when `rows` is not negative and the stored cells fit the temporary buffers; no
store otherwise. -/
theorem create_random_sparse_matrix_eq (g0 : S) (rows cols : Int) :
    create_random_sparse_matrix L g0 rows cols density =
      if 0 ≤ rows ∧ stored_count L density (rows.toNat * cols.toNat) ≤
          (temp_capacity rows cols density).toNat then
        some (scanned_store L density rows cols,
          scan_state L density (rows.toNat * cols.toNat))
      else none := by
  unfold create_random_sparse_matrix
  by_cases hr : 0 ≤ rows
  · have hrp0 : writeAt (alloc (rows + 1) (0 : Int)) 0 0 =
        some (List.replicate (rows.toNat + 1) 0) := by
      have e : (rows + 1).toNat = rows.toNat + 1 := by omega
      simp [writeAt, alloc, e, List.replicate_succ]
    have hinv0 : BuildInv L density cols.toNat (temp_capacity rows cols density).toNat
        (0 * cols.toNat)
        { g := L.srand 42, temp_values := alloc (temp_capacity rows cols density) (0 : ℚ),
          temp_cols := alloc (temp_capacity rows cols density) (0 : Int), nnz := 0 } := by
      rw [Nat.zero_mul]
      constructor <;> simp [scan_state, stored_count, stored_cells, alloc]
    have hspec := row_gen_loop_spec L density cols (temp_capacity rows cols density).toNat
      rows.toNat rows.toNat 0 _ (List.replicate (rows.toNat + 1) (0 : Int)) (by omega) hinv0
      (by simp) (by
        show List.take 1 (List.replicate (rows.toNat + 1) (0 : Int)) = _
        simp [List.replicate_succ, stored_count, stored_cells, List.range_succ])
    simp only [Nat.zero_add, Nat.cast_zero] at hspec
    simp only [hrp0, Option.bind_eq_bind, Option.some_bind, hr, true_and]
    by_cases hfit : stored_count L density (rows.toNat * cols.toNat) ≤
        (temp_capacity rows cols density).toNat
    · obtain ⟨fin, hfin, hinv, hlen, htake⟩ := hspec.1 hfit
      rw [hfin, if_pos hfit]
      simp only [Option.some_bind, Option.some.injEq, Prod.mk.injEq]
      refine ⟨?_, hinv.g_eq⟩
      have hfull : fin.2 = (List.range (rows.toNat + 1)).map
          (fun t => (stored_count L density (t * cols.toNat) : Int)) := by
        rw [← htake, List.take_of_length_le (by omega)]
      simp only [scanned_store, hinv.nnz_eq, Int.toNat_ofNat, hinv.tv_eq, hinv.tc_eq, hfull]
    · rw [hspec.2 (by omega), if_neg hfit]
      rfl
  · have hrp0 : writeAt (alloc (rows + 1) (0 : Int)) 0 0 = none := by
      have e : (rows + 1).toNat = 0 := by omega
      simp [writeAt, alloc, e]
    simp [hrp0, hr]

end BuilderLemmas

/-! ## The store the scan describes -/

section ScannedStore

variable {S : Type} (L : Libc S) (density : ℚ)

theorem stored_cells_add (a n : Nat) :
    stored_cells L density (a + n) =
      stored_cells L density a ++ (List.range' a n).filter (stored L density) := by
  induction n with
  | zero => simp
  | succ n ih =>
    rw [← Nat.add_assoc, stored_cells_succ, ih, List.range'_concat, List.filter_append,
      List.append_assoc]
    by_cases h : stored L density (a + n) <;> simp [h]

theorem stored_cells_lt {N c : Nat} (h : c ∈ stored_cells L density N) : c < N := by
  unfold stored_cells at h
  exact List.mem_range.1 (List.mem_of_mem_filter h)

/-- The stored cells numbered from `a` up to `b` sit in the list of all stored
cells after the first `stored_count a`. -/
theorem stored_cells_segment {a b N : Nat} (hab : a ≤ b) (hb : b ≤ N) :
    ((stored_cells L density N).drop (stored_count L density a)).take
        (stored_count L density b - stored_count L density a) =
      (List.range' a (b - a)).filter (stored L density) := by
  have e1 : stored_cells L density b =
      stored_cells L density a ++ (List.range' a (b - a)).filter (stored L density) := by
    rw [← stored_cells_add]; congr 1; omega
  have e2 : stored_cells L density N =
      stored_cells L density b ++ (List.range' b (N - b)).filter (stored L density) := by
    rw [← stored_cells_add]; congr 1; omega
  have hlen : stored_count L density b - stored_count L density a =
      ((List.range' a (b - a)).filter (stored L density)).length := by
    unfold stored_count
    rw [e1, List.length_append]; omega
  rw [hlen, e2, e1, List.append_assoc,
    List.drop_left' (show (stored_cells L density a).length = stored_count L density a from rfl),
    List.take_left' rfl]

theorem scanned_store_row_ptr_getD (rows cols : Int) (r : Nat) (hr : r ≤ rows.toNat) :
    (scanned_store L density rows cols).row_ptr.getD r 0 =
      (stored_count L density (r * cols.toNat) : Int) := by
  have h : r < (List.range (rows.toNat + 1)).length := by simp; omega
  simp only [scanned_store]
  rw [List.getD_eq_getElem _ _ (by simpa using h)]
  simp

/-- Row `r` of the store the scan describes holds, in ascending order of the
column, one entry for each cell of the row that passes its inclusion draw. -/
theorem scanned_store_row_entries (rows cols : Int) (r : Nat) (hr : r < rows.toNat) :
    row_entries (scanned_store L density rows cols) r =
      ((List.range cols.toNat).filter (fun j => stored L density (r * cols.toNat + j))).map
        (fun (j : Nat) => ((j : Int), stored_value L density (r * cols.toNat + j))) := by
  have hseg := stored_cells_segment L density (a := r * cols.toNat)
    (b := (r + 1) * cols.toNat) (N := rows.toNat * cols.toNat)
    (Nat.mul_le_mul_right _ (by omega)) (Nat.mul_le_mul_right _ (by omega))
  have hsub : (r + 1) * cols.toNat - r * cols.toNat = cols.toNat := by
    rw [Nat.succ_mul]; omega
  rw [hsub] at hseg
  unfold row_entries
  rw [scanned_store_row_ptr_getD L density rows cols r (by omega),
    scanned_store_row_ptr_getD L density rows cols (r + 1) (by omega)]
  simp only [Int.toNat_ofNat, scanned_store, List.zip_map']
  rw [← List.map_drop, ← List.map_take, hseg, List.range'_eq_map_range, List.filter_map,
    List.map_map]
  apply List.map_congr_left
  intro j hj
  have hjlt : j < cols.toNat := List.mem_range.1 (List.mem_of_mem_filter hj)
  simp only [Function.comp, mul_add_mod_lt r cols.toNat j hjlt]

theorem scanned_store_rows_sorted (rows cols : Int) :
    (scanned_store L density rows cols).RowsSorted := by
  intro r hr
  have hnr : (scanned_store L density rows cols).num_rows = rows := rfl
  rw [hnr] at hr
  rw [scanned_store_row_entries L density rows cols r hr, List.map_map]
  apply List.Pairwise.map _ _ ((List.pairwise_lt_range _).filter _)
  intro a b hab
  simp only [Function.comp]
  omega

theorem scanned_store_valid (rows cols : Int) (hr : 0 ≤ rows) :
    (scanned_store L density rows cols).Valid := by
  refine ⟨hr, by simp [scanned_store], by simp [scanned_store], ?_, ?_, ?_,
    by simp [scanned_store, stored_count], by simp [scanned_store, stored_count], ?_⟩
  · simp [scanned_store, stored_count, stored_cells, List.range_succ_eq_map]
  · simp only [scanned_store]
    rw [List.getElem?_map, List.getElem?_range (by omega)]
    rfl
  · simp only [scanned_store]
    apply List.Pairwise.map _ _ (List.pairwise_lt_range _)
    intro a b hab
    have := stored_count_mono L density (Nat.mul_le_mul_right cols.toNat (Nat.le_of_lt hab))
    omega
  · intro c hc
    simp only [scanned_store, List.mem_map] at hc
    obtain ⟨k, hk, rfl⟩ := hc
    have hlt := stored_cells_lt L density hk
    have hpos : 0 < cols.toNat := by
      rcases Nat.eq_zero_or_pos cols.toNat with h | h
      · rw [h] at hlt; simp at hlt
      · exact h
    have := Nat.mod_lt k hpos
    show 0 ≤ ((k % cols.toNat : Nat) : Int) ∧ ((k % cols.toNat : Nat) : Int) < cols
    omega

theorem create_some_eq {g0 g : S} {rows cols : Int} {m : CSRMatrix ℚ}
    (h : create_random_sparse_matrix L g0 rows cols density = some (m, g)) :
    0 ≤ rows ∧ m = scanned_store L density rows cols := by
  rw [create_random_sparse_matrix_eq] at h
  split at h
  · rename_i hc
    simp only [Option.some.injEq, Prod.mk.injEq] at h
    exact ⟨hc.1, h.1.symm⟩
  · cases h

end ScannedStore

/-! ## The builder at density 0 and 1, and on an example -/

section Density

variable {S : Type} (L : Libc S)

theorem stored_full_density (hlt : ∀ g, (L.rand g).1 < L.RAND_MAX) (c : Nat) :
    stored L 1 c = true := by
  unfold stored cell_included
  simp only [decide_eq_true_eq]
  have h := hlt (scan_state L 1 c)
  have hpos : (0 : ℚ) < (L.RAND_MAX : ℚ) := by
    have : 0 < L.RAND_MAX := by omega
    exact_mod_cast this
  rw [div_lt_one hpos]
  exact_mod_cast h

theorem stored_cells_full_density (hlt : ∀ g, (L.rand g).1 < L.RAND_MAX) (N : Nat) :
    stored_cells L 1 N = List.range N := by
  unfold stored_cells
  rw [List.filter_eq_self]
  intro a _
  exact stored_full_density L hlt a

theorem temp_capacity_full_density (rows cols : Int) (hr : 1 ≤ rows) (hc : 1 ≤ cols)
    (hfit : rows * cols * 2 ≤ INT_MAX) : temp_capacity rows cols 1 = rows * cols * 2 := by
  have hpos : 1 ≤ rows * cols := by nlinarith
  have h1 : rows * cols ≤ 2147483647 := by unfold INT_MAX at hfit; omega
  have hw : wrap32 (rows * cols) = rows * cols := by unfold wrap32; omega
  have hd : estimated_nnz rows cols 1 = rows * cols := by
    unfold estimated_nnz double_to_int
    simp only [hw, mul_one, Rat.num_intCast, Rat.den_intCast, Nat.cast_one, Int.tdiv_one]
    rw [if_pos ⟨by omega, h1⟩]
  unfold temp_capacity
  rw [hd]
  unfold wrap32
  unfold INT_MAX at hfit
  omega

end Density

set_option maxHeartbeats 4000000 in
theorem exampleLibc_run :
    create_random_sparse_matrix exampleLibc [] 2 3 (1 / 2) = some (exampleBuilt, []) := by
  simp [create_random_sparse_matrix, row_gen_loop, col_loop, exampleLibc, listLibc, writeAt,
    alloc, temp_capacity, estimated_nnz, double_to_int, wrap32, exampleBuilt]
  norm_num
  constructor <;> rfl

/-! ## The verifier on equal vectors -/

theorem verify_loop_self (y : List ℚ) :
    ∀ (n i : Nat) (st : Int × List Line), i + n ≤ y.length →
      verify_loop y y n (i : Int) st = some st := by
  intro n
  induction n with
  | zero => intro i st _; rfl
  | succ n ih =>
    intro i st h
    have hi : i < y.length := by omega
    have htol : ¬ (0 : ℚ) > tolerance := by norm_num [tolerance]
    simp only [verify_loop, readAt_natCast, List.getElem?_eq_getElem hi, Option.bind_eq_bind,
      Option.some_bind, sub_self, abs_zero, htol, if_false]
    rw [show ((i : Int) + 1) = ((i + 1 : Nat) : Int) by push_cast; rfl]
    exact ih (i + 1) st (by omega)

theorem verify_results_self (y : List ℚ) (size : Int) (h : size.toNat ≤ y.length) :
    verify_results y y size = some (1, []) := by
  have hl := verify_loop_self y size.toNat 0 (0, []) (by omega)
  simp only [Nat.cast_zero] at hl
  simp [verify_results, hl]

/-! ## Claims on the kernels -/

/-- C1: for every store that satisfies the structural invariant and every `x` of
length `num_cols`, `spmv_sequential` returns, and for every row `r` in
`[0, num_rows)` the cell `y[r]` holds the products `values[k] * x[col_indices[k]]`,
`k` from `row_ptr[r]` up to `row_ptr[r+1]`, added one by one to `0` in ascending
order of `k`.  No law of `+` and `*` is used. -/
theorem spmv_sequential_row_sums {α : Type} [Zero α] [Add α] [Mul α] (A : CSRMatrix α)
    (x y0 : List α) (hA : A.Valid) (hx : (x.length : Int) = A.num_cols)
    (hy : y0.length = A.num_rows.toNat) :
    ∃ y, spmv_sequential A x y0 = some y ∧ y.length = A.num_rows.toNat ∧
      ∀ r, r < A.num_rows.toNat → y[r]? = some (row_sum A x r) := by
  refine ⟨_, spmv_sequential_eq_map A x hA (valid_cols_lt A x hA hx) y0 hy, by simp, ?_⟩
  intro r hr
  simp [List.getElem?_range, hr]

theorem spmv_sequential_row_sums_witness :
    exampleStore.Valid ∧
    ∃ y, spmv_sequential exampleStore [1, 1, 1] [7, 7, 7] = some y ∧
      y.length = exampleStore.num_rows.toNat ∧
      ∀ r, r < exampleStore.num_rows.toNat → y[r]? = some (row_sum exampleStore [1, 1, 1] r) :=
  ⟨by decide,
   spmv_sequential_row_sums exampleStore [1, 1, 1] [7, 7, 7] (by decide) (by decide) (by decide)⟩

/-- C3: for every store that satisfies the structural invariant, with strictly
increasing column indices in each row, and every `x` of length `num_cols`, over
exact arithmetic (any semiring) `spmv_sequential` returns the dense
matrix-vector product: `y[r]` is the sum over all columns `c` in `[0, num_cols)`
of `D[r][c] * x[c]`, where `D[r][c]` is the value stored for the cell and `0`
when none is stored. -/
theorem spmv_sequential_eq_dense {α : Type} [Semiring α] (A : CSRMatrix α) (x y0 : List α)
    (hA : A.Valid) (hS : A.RowsSorted) (hx : (x.length : Int) = A.num_cols)
    (hy : y0.length = A.num_rows.toNat) :
    ∃ y, spmv_sequential A x y0 = some y ∧ y.length = A.num_rows.toNat ∧
      ∀ r, r < A.num_rows.toNat → y[r]? = some (dense_row_product A x r) := by
  refine ⟨_, spmv_sequential_eq_map A x hA (valid_cols_lt A x hA hx) y0 hy, by simp, ?_⟩
  intro r hr
  simp [List.getElem?_range, hr, row_sum_eq_dense A x hA hS r hr]

theorem spmv_sequential_eq_dense_witness :
    exampleStoreQ.Valid ∧ exampleStoreQ.RowsSorted ∧
    spmv_sequential exampleStoreQ [1, 1, 1] [0, 0, 0] = some [3, 0, 3] ∧
    ∃ y, spmv_sequential exampleStoreQ [1, 1, 1] [0, 0, 0] = some y ∧
      y.length = exampleStoreQ.num_rows.toNat ∧
      ∀ r, r < exampleStoreQ.num_rows.toNat →
        y[r]? = some (dense_row_product exampleStoreQ [1, 1, 1] r) :=
  ⟨by decide, by decide,
   by simp [spmv_sequential, spmv_loop, spmv_row, row_loop, readAt, writeAt, exampleStoreQ]
      norm_num,
   spmv_sequential_eq_dense exampleStoreQ [1, 1, 1] [0, 0, 0] (by decide) (by decide)
     (by decide) (by decide)⟩

/-- C10: whatever `num_rows` and the thread count, a chunk size that
`spmv_parallel_dynamic` computes lies in `[10, 1000]`; and it is computed for
every thread count `T` from `1` to `INT_MAX` other than `2^30` (where `T * 100`
is `0` in 32-bit arithmetic and the division has no result), so for `T = 1` and
`T = 256` with `num_rows = 1` and `num_rows = 10000000`. -/
theorem chunk_size_bounds (num_rows T : Int) :
    (∀ c, chunk_size num_rows T = some c → 10 ≤ c ∧ c ≤ 1000) ∧
    (1 ≤ T → T ≤ INT_MAX → T ≠ 1073741824 →
      ∃ c, chunk_size num_rows T = some c ∧ 10 ≤ c ∧ c ≤ 1000) := by
  refine ⟨fun c h => chunk_size_range num_rows T c h, fun h1 h2 h3 => ?_⟩
  obtain ⟨c, hc⟩ := chunk_size_isSome num_rows T h1 h2 h3
  exact ⟨c, hc, chunk_size_range num_rows T c hc⟩

theorem chunk_size_bounds_witness :
    (chunk_size 1 1 = some 10 ∧ chunk_size 10000000 1 = some 1000 ∧
      chunk_size 1 256 = some 10 ∧ chunk_size 10000000 256 = some 390) ∧
    (∃ c, chunk_size 10000000 256 = some c ∧ 10 ≤ c ∧ c ≤ 1000) :=
  ⟨by decide, (chunk_size_bounds 10000000 256).2 (by decide) (by decide) (by decide)⟩

/-! ## Claims on the builder -/

/-- C4: for every `rows`, `cols`, every density and every generator, a store
that `create_random_sparse_matrix` returns has the dimensions asked for and
satisfies the structural invariant: `row_ptr` has `num_rows + 1` entries, starts
at `0`, ends at `nnz`, the length of `values` and of `col_indices`, is
non-decreasing, and every column index lies in `[0, num_cols)`. -/
theorem create_structural_invariant {S : Type} (L : Libc S) (g0 g : S) (rows cols : Int)
    (density : ℚ) (m : CSRMatrix ℚ)
    (h : create_random_sparse_matrix L g0 rows cols density = some (m, g)) :
    m.num_rows = rows ∧ m.num_cols = cols ∧ m.Valid := by
  obtain ⟨hr, rfl⟩ := create_some_eq L density h
  exact ⟨rfl, rfl, scanned_store_valid L density rows cols hr⟩

theorem create_structural_invariant_witness :
    create_random_sparse_matrix exampleLibc [] 2 3 (1 / 2) = some (exampleBuilt, []) ∧
    exampleBuilt.num_rows = 2 ∧ exampleBuilt.num_cols = 3 ∧ exampleBuilt.Valid :=
  ⟨exampleLibc_run,
   create_structural_invariant exampleLibc [] [] 2 3 (1 / 2) exampleBuilt exampleLibc_run⟩

/-- C5: in a store that `create_random_sparse_matrix` returns, the entries at
the positions `row_ptr[r]` up to `row_ptr[r+1]` are, in ascending order of the
column, one entry `(j, value)` for each column `j` in `[0, cols)` whose cell
`(r, j)` passed its inclusion draw `rand() / RAND_MAX < density` in the
row-major scan, with the value drawn for that cell, and nothing else. -/
theorem create_rows_complete {S : Type} (L : Libc S) (g0 g : S) (rows cols : Int)
    (density : ℚ) (m : CSRMatrix ℚ)
    (h : create_random_sparse_matrix L g0 rows cols density = some (m, g))
    (r : Nat) (hr : r < rows.toNat) :
    row_entries m r =
      ((List.range cols.toNat).filter (fun j => stored L density (r * cols.toNat + j))).map
        (fun (j : Nat) => ((j : Int), stored_value L density (r * cols.toNat + j))) := by
  obtain ⟨_, rfl⟩ := create_some_eq L density h
  exact scanned_store_row_entries L density rows cols r hr

theorem create_rows_complete_witness :
    create_random_sparse_matrix exampleLibc [] 2 3 (1 / 2) = some (exampleBuilt, []) ∧
    1 < (2 : Int).toNat ∧
    row_entries exampleBuilt 1 =
      ((List.range (3 : Int).toNat).filter
        (fun j => stored exampleLibc (1 / 2) (1 * (3 : Int).toNat + j))).map
        (fun (j : Nat) => ((j : Int), stored_value exampleLibc (1 / 2) (1 * (3 : Int).toNat + j))) :=
  ⟨exampleLibc_run, by decide,
   create_rows_complete exampleLibc [] [] 2 3 (1 / 2) exampleBuilt exampleLibc_run 1
     (by decide)⟩

/-- C6: in a store that `create_random_sparse_matrix` returns, the column
indices at the positions `row_ptr[r]` up to `row_ptr[r+1]` are strictly
increasing, for every row `r`; the builder does not sort. -/
theorem create_rows_sorted {S : Type} (L : Libc S) (g0 g : S) (rows cols : Int)
    (density : ℚ) (m : CSRMatrix ℚ)
    (h : create_random_sparse_matrix L g0 rows cols density = some (m, g)) :
    m.RowsSorted := by
  obtain ⟨_, rfl⟩ := create_some_eq L density h
  exact scanned_store_rows_sorted L density rows cols

theorem create_rows_sorted_witness :
    create_random_sparse_matrix exampleLibc [] 2 3 (1 / 2) = some (exampleBuilt, []) ∧
    exampleBuilt.RowsSorted :=
  ⟨exampleLibc_run,
   create_rows_sorted exampleLibc [] [] 2 3 (1 / 2) exampleBuilt exampleLibc_run⟩

/-- C8, as the code has it: for every `rows, cols ≥ 1` and every generator whose
draws are all below `RAND_MAX`, a store that
`create_random_sparse_matrix(rows, cols, 1.0)` returns has `nnz = rows * cols` and
every row holds the columns `0 .. cols - 1`; and a store is returned whenever
`2 * rows * cols` fits an `int` (the size of the temporary buffers). -/
theorem create_full_density {S : Type} (L : Libc S) (g0 : S) (rows cols : Int)
    (hr : 1 ≤ rows) (hc : 1 ≤ cols) (hlt : ∀ g, (L.rand g).1 < L.RAND_MAX) :
    (∀ m g, create_random_sparse_matrix L g0 rows cols 1 = some (m, g) →
      m.nnz = rows * cols ∧
      ∀ r, r < rows.toNat →
        (row_entries m r).map Prod.fst = (List.range cols.toNat).map (fun (j : Nat) => (j : Int))) ∧
    (rows * cols * 2 ≤ INT_MAX →
      ∃ m g, create_random_sparse_matrix L g0 rows cols 1 = some (m, g) ∧
        m.nnz = rows * cols) := by
  have hcnt : stored_count L 1 (rows.toNat * cols.toNat) = rows.toNat * cols.toNat := by
    simp [stored_count, stored_cells_full_density L hlt]
  have hnnz : (scanned_store L 1 rows cols).nnz = rows * cols := by
    simp only [scanned_store, hcnt]
    push_cast
    rw [Int.toNat_of_nonneg (by omega), Int.toNat_of_nonneg (by omega)]
  constructor
  · intro m g h
    obtain ⟨_, rfl⟩ := create_some_eq L 1 h
    refine ⟨hnnz, fun r hrr => ?_⟩
    rw [scanned_store_row_entries L 1 rows cols r hrr, List.map_map]
    have hf : (List.range cols.toNat).filter (fun j => stored L 1 (r * cols.toNat + j)) =
        List.range cols.toNat := by
      rw [List.filter_eq_self]
      intro a _
      exact stored_full_density L hlt _
    rw [hf]
    rfl
  · intro hfit
    refine ⟨scanned_store L 1 rows cols, scan_state L 1 (rows.toNat * cols.toNat), ?_, hnnz⟩
    rw [create_random_sparse_matrix_eq, temp_capacity_full_density rows cols hr hc hfit, hcnt]
    have hprod : ((rows.toNat * cols.toNat : Nat) : Int) = rows * cols := by
      push_cast
      rw [Int.toNat_of_nonneg (by omega), Int.toNat_of_nonneg (by omega)]
    rw [if_pos ⟨by omega, by omega⟩]

theorem create_full_density_witness :
    (∀ g, ((constLibc 32767 5).rand g).1 < (constLibc 32767 5).RAND_MAX) ∧
    ((2 : Int) * 3 * 2 ≤ INT_MAX) ∧
    ∃ m g, create_random_sparse_matrix (constLibc 32767 5) () 2 3 1 = some (m, g) ∧
      m.nnz = 2 * 3 :=
  ⟨fun g => by cases g; decide, by decide,
   (create_full_density (constLibc 32767 5) () 2 3 (by decide) (by decide)
     (fun g => by cases g; decide)).2 (by decide)⟩

/-- C8 fails as stated: with `rows = cols = 1`, density `1.0` and a generator
whose draws lie in `[0, RAND_MAX]` and whose first draw is `RAND_MAX`, the test
`rand() / RAND_MAX < density` is `1 < 1`, the cell is left out, and the store
returned has `nnz = 0`, not `1`. -/
theorem create_full_density_counterexample :
    (constLibc 32767 32767).InRange ∧
    create_random_sparse_matrix (constLibc 32767 32767) () 1 1 1 =
      some ({ num_rows := 1, num_cols := 1, nnz := 0, values := [], col_indices := [],
              row_ptr := [0, 0] }, ()) ∧
    (0 : Int) ≠ 1 * 1 := by
  refine ⟨⟨by decide, fun g => by cases g; decide⟩, ?_, by decide⟩
  simp [create_random_sparse_matrix, row_gen_loop, col_loop, constLibc, writeAt, alloc,
    temp_capacity, estimated_nnz, double_to_int, wrap32]

/-! ## Claims on the estimate and the buffers -/

/-- C12, the code at the claim's own example: with `rows = cols = 3` and density
`0.05` the estimate is `0`, the temporary buffers have no cell, and with a
generator whose first draw passes the inclusion test the write
`temp_values[0] = ...` is outside the buffer: the builder does not grow it. -/
theorem create_overflows_estimate :
    estimated_nnz 3 3 (1 / 20) = 0 ∧ temp_capacity 3 3 (1 / 20) = 0 ∧
    (constLibc 32767 0).InRange ∧
    stored (constLibc 32767 0) (1 / 20) 0 = true ∧
    create_random_sparse_matrix (constLibc 32767 0) () 3 3 (1 / 20) = none := by
  have he : estimated_nnz 3 3 (1 / 20) = 0 := by
    norm_num [estimated_nnz, double_to_int, wrap32]
    decide
  have hc : temp_capacity 3 3 (1 / 20) = 0 := by
    unfold temp_capacity; rw [he]; decide
  have hs : stored (constLibc 32767 0) (1 / 20) 0 = true := by
    norm_num [stored, cell_included, scan_state, constLibc]
  refine ⟨he, hc, ⟨by decide, fun g => by cases g; decide⟩, hs, ?_⟩
  have h1 : stored_count (constLibc 32767 0) (1 / 20) (0 + 1) = 1 := by
    rw [stored_count_succ, hs]; rfl
  have hm := stored_count_mono (constLibc 32767 0) (1 / 20)
    (show 0 + 1 ≤ (3 : Int).toNat * (3 : Int).toNat by decide)
  rw [create_random_sparse_matrix_eq, hc, if_neg]
  intro h
  have h2 := h.2
  simp only [Int.toNat_zero] at h2
  omega

/-- C13, the code at the program's default size: `50000 * 50000` is
`2500000000`, above `INT_MAX`; as a 32-bit `int` product it is `-1794967296`,
and `estimated_nnz` at density `0.05` is `-89748364`, not `125000000`. -/
theorem estimated_nnz_default_overflows :
    ((50000 : Int) * 50000 = 2500000000) ∧ (2500000000 : Int) > INT_MAX ∧
    wrap32 (50000 * 50000) = -1794967296 ∧
    estimated_nnz 50000 50000 (1 / 20) = -89748364 ∧
    temp_capacity 50000 50000 (1 / 20) = -179496728 := by
  have he : estimated_nnz 50000 50000 (1 / 20) = -89748364 := by
    norm_num [estimated_nnz, double_to_int, wrap32]
    decide
  refine ⟨by decide, by decide, by decide, he, ?_⟩
  unfold temp_capacity; rw [he]; decide

/-! ## The values the builder stores -/

theorem stored_value_range {S : Type} (L : Libc S) (hL : L.InRange) (density : ℚ) (c : Nat) :
    0 ≤ stored_value L density c ∧ stored_value L density c ≤ 10 := by
  unfold stored_value cell_value
  obtain ⟨hpos, hle⟩ := hL
  have hR : (0 : ℚ) < (L.RAND_MAX : ℚ) := by exact_mod_cast hpos
  have hr : ((L.rand (L.rand (scan_state L density c)).2).1 : ℚ) ≤ (L.RAND_MAX : ℚ) := by
    exact_mod_cast hle _
  constructor
  · positivity
  · have h1 : ((L.rand (L.rand (scan_state L density c)).2).1 : ℚ) / (L.RAND_MAX : ℚ) ≤ 1 :=
      (div_le_one hR).2 hr
    linarith

theorem exampleLibc_inRange : exampleLibc.InRange :=
  ⟨by decide, fun g => by simp [exampleLibc, listLibc]⟩

/-! ## What the verifier computes -/

theorem verify_loop_eq (y1 y2 : List ℚ) :
    ∀ (n i e : Nat) (out : List Line), i + n ≤ y1.length → i + n ≤ y2.length →
      verify_loop y1 y2 n (i : Int) ((e : Int), out) =
        some (((e + ((List.range' i n).filter (mismatch y1 y2)).length : Nat) : Int),
          out ++ (((List.range' i n).filter (mismatch y1 y2)).take (5 - e)).map
            (error_line y1 y2)) := by
  intro n
  induction n with
  | zero => intro i e out _ _; simp [verify_loop]
  | succ n ih =>
    intro i e out h1 h2
    have hi1 : i < y1.length := by omega
    have hi2 : i < y2.length := by omega
    have hcast : ((i : Int) + 1) = ((i + 1 : Nat) : Int) := by push_cast; rfl
    have hg1 : y1.getD i 0 = y1[i] := List.getD_eq_getElem _ _ hi1
    have hg2 : y2.getD i 0 = y2[i] := List.getD_eq_getElem _ _ hi2
    simp only [verify_loop, readAt_natCast, List.getElem?_eq_getElem hi1,
      List.getElem?_eq_getElem hi2, Option.bind_eq_bind, Option.some_bind, hcast,
      List.range'_succ]
    by_cases hm : |y1[i] - y2[i]| > tolerance
    · have hmm : mismatch y1 y2 i = true := by
        unfold mismatch; rw [hg1, hg2]; exact decide_eq_true hm
      rw [if_pos hm, List.filter_cons_of_pos hmm]
      have hrec := ih (i + 1) (e + 1)
        (if ((e : Int) + 1) ≤ 5 then out ++ [Line.error_at (i : Int) y1[i] y2[i]] else out)
        (by omega) (by omega)
      rw [show (((e + 1 : Nat) : Int)) = (e : Int) + 1 by push_cast; rfl] at hrec
      rw [hrec]
      congr 2
      · simp only [List.length_cons]; push_cast; omega
      · by_cases he : e < 5
        · have he1 : (e : Int) + 1 ≤ 5 := by omega
          have he2 : 5 - e = (5 - (e + 1)) + 1 := by omega
          rw [if_pos he1, he2, List.take_succ_cons, List.map_cons, List.append_assoc]
          simp only [error_line, hg1, hg2, List.singleton_append]
        · have he1 : ¬ (e : Int) + 1 ≤ 5 := by omega
          have he2 : 5 - e = 0 := by omega
          have he3 : 5 - (e + 1) = 0 := by omega
          rw [if_neg he1, he2, he3]
          simp
    · have hmm : mismatch y1 y2 i = false := by
        unfold mismatch; rw [hg1, hg2]; exact decide_eq_false hm
      rw [if_neg hm, List.filter_cons_of_neg (by simp [hmm])]
      exact ih (i + 1) e out (by omega) (by omega)

/-- The verifier returns `1` exactly when there is no mismatch, prints a line for
each of the first five mismatches and, beyond five, the number of the others. -/
theorem verify_results_eq (y1 y2 : List ℚ) (size : Int) (h1 : size.toNat ≤ y1.length)
    (h2 : size.toNat ≤ y2.length) :
    verify_results y1 y2 size =
      some ((if (mismatches y1 y2 size.toNat).length = 0 then 1 else 0),
        ((mismatches y1 y2 size.toNat).take 5).map (error_line y1 y2) ++
          (if 5 < (mismatches y1 y2 size.toNat).length then
            [Line.more_errors (((mismatches y1 y2 size.toNat).length : Int) - 5)] else [])) := by
  have hl := verify_loop_eq y1 y2 size.toNat 0 0 [] (by omega) (by omega)
  simp only [Nat.cast_zero, Nat.zero_add, List.nil_append, Nat.sub_zero,
    ← List.range_eq_range'] at hl
  unfold verify_results mismatches
  rw [hl]
  simp only [Option.bind_eq_bind, Option.some_bind]
  congr 2
  · simp only [Nat.cast_eq_zero]
  · by_cases h5 : 5 < ((List.range size.toNat).filter (mismatch y1 y2)).length
    · have : ((((List.range size.toNat).filter (mismatch y1 y2)).length : Nat) : Int) > 5 := by
        omega
      rw [if_pos this, if_pos h5]
    · have : ¬ ((((List.range size.toNat).filter (mismatch y1 y2)).length : Nat) : Int) > 5 := by
        omega
      rw [if_neg this, if_neg h5]
      simp

/-- C14 as the code has it: for every generator whose draws lie in
`[0, RAND_MAX]`, every value `(rand() / RAND_MAX) * 10.0` in a store that
`create_random_sparse_matrix` returns satisfies `0 ≤ v ≤ 10`. -/
theorem create_values_range {S : Type} (L : Libc S) (hL : L.InRange) (g0 g : S)
    (rows cols : Int) (density : ℚ) (m : CSRMatrix ℚ)
    (h : create_random_sparse_matrix L g0 rows cols density = some (m, g)) :
    ∀ v ∈ m.values, 0 ≤ v ∧ v ≤ 10 := by
  obtain ⟨_, rfl⟩ := create_some_eq L density h
  intro v hv
  simp only [scanned_store, List.mem_map] at hv
  obtain ⟨c, _, rfl⟩ := hv
  exact stored_value_range L hL density c

theorem create_values_range_witness :
    exampleLibc.InRange ∧
    create_random_sparse_matrix exampleLibc [] 2 3 (1 / 2) = some (exampleBuilt, []) ∧
    ∀ v ∈ exampleBuilt.values, 0 ≤ v ∧ v ≤ 10 :=
  ⟨exampleLibc_inRange, exampleLibc_run,
   create_values_range exampleLibc exampleLibc_inRange [] [] 2 3 (1 / 2) exampleBuilt
     exampleLibc_run⟩

/-- C14 fails as stated: with draws in `[0, RAND_MAX]`, a value draw equal to
`RAND_MAX` stores the value `10`, which is not below `10`. -/
theorem create_values_range_counterexample :
    exampleLibc.InRange ∧
    create_random_sparse_matrix exampleLibc [] 2 3 (1 / 2) = some (exampleBuilt, []) ∧
    (10 : ℚ) ∈ exampleBuilt.values ∧ ¬ ((10 : ℚ) < 10) :=
  ⟨exampleLibc_inRange, exampleLibc_run, by simp [exampleBuilt], by norm_num⟩

/-- C15: for vectors that hold at least `size` elements, `verify_results`
returns, its value is `1` or `0`, and it is non-zero exactly when no index `i` in
`[0, size)` has `|y1[i] - y2[i]| > 1e-9`; so a difference of exactly `1e-9` is
accepted and `size = 0` passes. -/
theorem verify_results_pass_iff (y1 y2 : List ℚ) (size : Int) (h1 : size.toNat ≤ y1.length)
    (h2 : size.toNat ≤ y2.length) :
    ∃ ret out, verify_results y1 y2 size = some (ret, out) ∧ (ret = 1 ∨ ret = 0) ∧
      (ret ≠ 0 ↔ ∀ i, i < size.toNat → ¬ (|y1.getD i 0 - y2.getD i 0| > tolerance)) := by
  refine ⟨_, _, verify_results_eq y1 y2 size h1 h2, ?_, ?_⟩
  · by_cases h : (mismatches y1 y2 size.toNat).length = 0 <;> simp [h]
  · have hiff : (mismatches y1 y2 size.toNat).length = 0 ↔
        ∀ i, i < size.toNat → ¬ (|y1.getD i 0 - y2.getD i 0| > tolerance) := by
      rw [List.length_eq_zero]
      unfold mismatches
      rw [List.filter_eq_nil_iff]
      constructor
      · intro h i hi
        have := h i (List.mem_range.2 hi)
        simpa [mismatch] using this
      · intro h i hi
        have := h i (List.mem_range.1 hi)
        simpa [mismatch] using this
    rw [← hiff]
    by_cases h : (mismatches y1 y2 size.toNat).length = 0 <;> simp [h]

theorem verify_results_pass_iff_witness :
    verify_results [1 + 1 / 1000000000, 2] [1, 2] 2 = some (1, []) ∧
    verify_results [] [] 0 = some (1, []) ∧
    ∃ ret out, verify_results [1 + 1 / 1000000000, 2] [1, 2] 2 = some (ret, out) ∧
      (ret = 1 ∨ ret = 0) ∧
      (ret ≠ 0 ↔ ∀ i, i < (2 : Int).toNat →
        ¬ (|[1 + 1 / 1000000000, (2 : ℚ)].getD i 0 - [1, (2 : ℚ)].getD i 0| > tolerance)) :=
  ⟨by
     have hp : |(1 : ℚ) / 1000000000| = 1 / 1000000000 := abs_of_pos (by norm_num)
     simp [verify_results, verify_loop, readAt, tolerance]
     norm_num [hp],
   by simp [verify_results, verify_loop],
   verify_results_pass_iff [1 + 1 / 1000000000, 2] [1, 2] 2 (by decide) (by decide)⟩

/-- C16: for vectors that hold at least `size` elements, with `m` mismatching
indices, `verify_results` prints one `Error at index` line, with the index and
both values, for the first `min(5, m)` mismatching indices in ascending order,
and when `m > 5` one more line with the count `m - 5` of the others; the lines
and that count add up to `m`. -/
theorem verify_results_report (y1 y2 : List ℚ) (size : Int) (h1 : size.toNat ≤ y1.length)
    (h2 : size.toNat ≤ y2.length) :
    (∃ ret, verify_results y1 y2 size =
      some (ret, ((mismatches y1 y2 size.toNat).take 5).map (error_line y1 y2) ++
        (if 5 < (mismatches y1 y2 size.toNat).length then
          [Line.more_errors (((mismatches y1 y2 size.toNat).length : Int) - 5)] else []))) ∧
    ((mismatches y1 y2 size.toNat).take 5).length = min 5 (mismatches y1 y2 size.toNat).length ∧
    (∀ i, i ∈ mismatches y1 y2 size.toNat ↔
      i < size.toNat ∧ |y1.getD i 0 - y2.getD i 0| > tolerance) ∧
    (mismatches y1 y2 size.toNat).Pairwise (fun a b => a < b) ∧
    (5 < (mismatches y1 y2 size.toNat).length →
      ((min 5 (mismatches y1 y2 size.toNat).length : Nat) : Int) +
        (((mismatches y1 y2 size.toNat).length : Int) - 5) =
        ((mismatches y1 y2 size.toNat).length : Int)) := by
  refine ⟨⟨_, verify_results_eq y1 y2 size h1 h2⟩, by simp [List.length_take], ?_, ?_, ?_⟩
  · intro i
    simp [mismatches, mismatch, List.mem_filter]
  · exact (List.pairwise_lt_range _).filter _
  · intro h
    omega

theorem verify_results_report_witness :
    verify_results [0, 0, 0, 0, 0, 0, 0] [1, 1, 0, 1, 1, 1, 1] 7 =
      some (0, [Line.error_at 0 0 1, Line.error_at 1 0 1, Line.error_at 3 0 1,
        Line.error_at 4 0 1, Line.error_at 5 0 1, Line.more_errors 1]) ∧
    ∃ ret, verify_results [0, 0, 0, 0, 0, 0, 0] [1, 1, 0, 1, 1, 1, 1] 7 =
      some (ret, ((mismatches [0, 0, 0, 0, 0, 0, 0] [1, 1, 0, 1, 1, 1, 1]
          (7 : Int).toNat).take 5).map
          (error_line [0, 0, 0, 0, 0, 0, 0] [1, 1, 0, 1, 1, 1, 1]) ++
        (if 5 < (mismatches [0, 0, 0, 0, 0, 0, 0] [1, 1, 0, 1, 1, 1, 1]
            (7 : Int).toNat).length then
          [Line.more_errors (((mismatches [0, 0, 0, 0, 0, 0, 0] [1, 1, 0, 1, 1, 1, 1]
            (7 : Int).toNat).length : Int) - 5)] else [])) :=
  ⟨by simp [verify_results, verify_loop, readAt, tolerance]; norm_num,
   (verify_results_report [0, 0, 0, 0, 0, 0, 0] [1, 1, 0, 1, 1, 1, 1] 7 (by decide)
     (by decide)).1⟩

/-- C17: for every store that satisfies the structural invariant, every `x` of
length `num_cols` and every `y` of length `num_rows`, `spmv_sequential` returns a
`y` of length `num_rows`, and every access it makes is inside its array: for each
row `i` the reads `row_ptr[i]` and `row_ptr[i + 1]`, for each `j` between them the
reads `values[j]`, `col_indices[j]` and `x[col_indices[j]]`, and the write
`y[i]`. -/
theorem spmv_sequential_in_bounds {α : Type} [Zero α] [Add α] [Mul α] (A : CSRMatrix α)
    (x y0 : List α) (hA : A.Valid) (hx : (x.length : Int) = A.num_cols)
    (hy : y0.length = A.num_rows.toNat) :
    (∃ y, spmv_sequential A x y0 = some y ∧ y.length = A.num_rows.toNat) ∧
    ∀ i : Int, 0 ≤ i → i < A.num_rows →
      ∃ lo hi : Int, readAt A.row_ptr i = some lo ∧ readAt A.row_ptr (i + 1) = some hi ∧
        (∀ j : Int, lo ≤ j → j < hi →
          ∃ v c xv, readAt A.values j = some v ∧ readAt A.col_indices j = some c ∧
            readAt x c = some xv) ∧
        (∀ (y : List α) (s : α), y.length = A.num_rows.toNat →
          ∃ y1, writeAt y i s = some y1) := by
  have hc := valid_cols_lt A x hA hx
  refine ⟨⟨_, spmv_sequential_eq_map A x hA hc y0 hy, by simp⟩, ?_⟩
  intro i hi0 hin
  obtain ⟨r, rfl⟩ := Int.eq_ofNat_of_zero_le hi0
  have hr : r < A.num_rows.toNat := by omega
  obtain ⟨lo, hi, hlo, hhi, hle, hnz⟩ := valid_row_bounds A hA r hr
  have hvl : A.values.length = A.nnz.toNat := hA.2.2.2.2.2.2.1
  have hcl : A.col_indices.length = A.nnz.toNat := hA.2.2.2.2.2.2.2.1
  refine ⟨lo, hi, ?_, ?_, ?_, ?_⟩
  · rw [readAt_natCast, hlo]
  · rw [show ((r : Int) + 1) = ((r + 1 : Nat) : Int) by push_cast; rfl, readAt_natCast, hhi]
  · intro j hj1 hj2
    obtain ⟨k, rfl⟩ := Int.eq_ofNat_of_zero_le (show 0 ≤ j by omega)
    have hk1 : k < A.values.length := by omega
    have hk2 : k < A.col_indices.length := by omega
    have hck := hc (A.col_indices[k]) (List.getElem_mem hk2)
    refine ⟨A.values[k], A.col_indices[k], x[(A.col_indices[k]).toNat], ?_, ?_, ?_⟩
    · rw [readAt_natCast, List.getElem?_eq_getElem hk1]
    · rw [readAt_natCast, List.getElem?_eq_getElem hk2]
    · simp [readAt, hck.1, List.getElem?_eq_getElem hck.2]
  · intro y s hyl
    have : r < y.length := by omega
    exact ⟨y.set r s, by simp [writeAt_natCast, this]⟩

theorem spmv_sequential_in_bounds_witness :
    exampleStore.Valid ∧
    (∃ y, spmv_sequential exampleStore [1, 1, 1] [7, 7, 7] = some y ∧
      y.length = exampleStore.num_rows.toNat) :=
  ⟨by decide,
   (spmv_sequential_in_bounds exampleStore [1, 1, 1] [7, 7, 7] (by decide) (by decide)
     (by decide)).1⟩

/-- C19: `create_random_sparse_matrix` reseeds the generator with `42` before
the scan, so its result (the store and the state the generator is left in) does
not depend on the state of the generator before the call; a second call with the
same arguments, made in the state the first one left, returns the same store;
the store returned is the one the scan from `srand(42)` describes. -/
theorem create_reproducible {S : Type} (L : Libc S) (rows cols : Int) (density : ℚ) :
    (∀ g0 g0' : S, create_random_sparse_matrix L g0 rows cols density =
      create_random_sparse_matrix L g0' rows cols density) ∧
    (∀ (g0 g1 : S) (m : CSRMatrix ℚ),
      create_random_sparse_matrix L g0 rows cols density = some (m, g1) →
      create_random_sparse_matrix L g1 rows cols density = some (m, g1)) ∧
    (∀ (g0 g1 : S) (m : CSRMatrix ℚ),
      create_random_sparse_matrix L g0 rows cols density = some (m, g1) →
      m = scanned_store L density rows cols ∧
        g1 = scan_state L density (rows.toNat * cols.toNat)) := by
  refine ⟨fun _ _ => rfl, fun _ _ _ h => h, fun g0 g1 m h => ?_⟩
  rw [create_random_sparse_matrix_eq] at h
  split at h
  · simp only [Option.some.injEq, Prod.mk.injEq] at h
    exact ⟨h.1.symm, h.2.symm⟩
  · cases h

theorem create_reproducible_witness :
    create_random_sparse_matrix exampleLibc [] 2 3 (1 / 2) = some (exampleBuilt, []) ∧
    create_random_sparse_matrix exampleLibc [7, 7, 7] 2 3 (1 / 2) = some (exampleBuilt, []) :=
  ⟨exampleLibc_run,
   ((create_reproducible exampleLibc 2 3 (1 / 2)).1 [7, 7, 7] []).trans exampleLibc_run⟩

/-! ## The kernels change `y` only -/

section KernelsMemLemmas

variable {α : Type} [Zero α] [Add α] [Mul α]

theorem spmv_row_mem_eq (m : Mem α) (i : Int) :
    spmv_row_mem m i = (spmv_row m.A m.x m.y i).map (fun y => { m with y := y }) := by
  unfold spmv_row_mem spmv_row
  rcases readAt m.A.row_ptr i with _ | lo
  · rfl
  rcases readAt m.A.row_ptr (i + 1) with _ | hi
  · rfl
  simp only [Option.bind_eq_bind, Option.some_bind]
  rcases row_loop m.A m.x (hi - lo).toNat lo 0 with _ | sum
  · rfl
  simp only [Option.some_bind]
  rcases writeAt m.y i sum with _ | y1 <;> rfl

theorem spmv_loop_mem_eq :
    ∀ (n : Nat) (i : Int) (m : Mem α),
      spmv_loop_mem n i m = (spmv_loop m.A m.x n i m.y).map (fun y => { m with y := y }) := by
  intro n
  induction n with
  | zero => intro i m; rfl
  | succ n ih =>
    intro i m
    simp only [spmv_loop_mem, spmv_loop, spmv_row_mem_eq]
    cases spmv_row m.A m.x m.y i with
    | none => rfl
    | some y1 => simp [ih]

theorem omp_for_mem_eq :
    ∀ (sched : List Nat) (m : Mem α),
      omp_for_mem sched m =
        (omp_for (spmv_row m.A m.x) sched m.y).map (fun y => { m with y := y }) := by
  intro sched
  induction sched with
  | nil => intro m; rfl
  | cons i rest ih =>
    intro m
    simp only [omp_for_mem, omp_for, spmv_row_mem_eq]
    cases spmv_row m.A m.x m.y (i : Int) with
    | none => rfl
    | some y1 => simp [ih]

end KernelsMemLemmas

/-! ## The builder when allocations can fail: lemmas -/

theorem memcpy_fresh {β : Type} (src : List β) (n : Nat) (fill : β) (h : n ≤ src.length) :
    memcpy (alloc_or_null true (n : Int) fill) src (n : Int) = some (src.take n) := by
  simp [memcpy, alloc_or_null, alloc, h]

/-- With every request served the environment model is the builder. -/
theorem create_random_sparse_matrix_env_all_ok {S : Type} (L : Libc S) (g0 : S)
    (rows cols : Int) (density : ℚ) :
    create_random_sparse_matrix_env L (fun _ => true) g0 rows cols density =
      create_random_sparse_matrix L g0 rows cols density := by
  unfold create_random_sparse_matrix_env create_random_sparse_matrix
  simp only [Bool.true_eq_false, if_false, alloc_or_null, if_true]
  by_cases hr : 0 ≤ rows
  · have e : (rows + 1).toNat = rows.toNat + 1 := by omega
    have hrp0 : writeAt (alloc (rows + 1) (0 : Int)) 0 0 =
        some (List.replicate (rows.toNat + 1) 0) := by
      simp [writeAt, alloc, e, List.replicate_succ]
    have hinv0 : BuildInv L density cols.toNat (temp_capacity rows cols density).toNat
        (0 * cols.toNat)
        { g := L.srand 42, temp_values := alloc (temp_capacity rows cols density) (0 : ℚ),
          temp_cols := alloc (temp_capacity rows cols density) (0 : Int), nnz := 0 } := by
      rw [Nat.zero_mul]
      constructor <;> simp [scan_state, stored_count, stored_cells, alloc]
    have hspec := row_gen_loop_spec L density cols (temp_capacity rows cols density).toNat
      rows.toNat rows.toNat 0 _ (List.replicate (rows.toNat + 1) (0 : Int)) (by omega) hinv0
      (by simp) (by
        show List.take 1 (List.replicate (rows.toNat + 1) (0 : Int)) = _
        simp [List.replicate_succ, stored_count, stored_cells, List.range_succ])
    simp only [Nat.zero_add, Nat.cast_zero] at hspec
    simp only [hrp0, Option.bind_eq_bind, Option.some_bind]
    by_cases hfit : stored_count L density (rows.toNat * cols.toNat) ≤
        (temp_capacity rows cols density).toNat
    · obtain ⟨fin, hfin, hinv, _, _⟩ := hspec.1 hfit
      have hcnt := hinv.count_le
      rw [hfin]
      simp only [Option.some_bind, hinv.nnz_eq, Int.toNat_ofNat]
      have h1 := memcpy_fresh fin.1.temp_values (stored_count L density (rows.toNat * cols.toNat))
        (0 : ℚ) (by rw [hinv.tv_len]; exact hcnt)
      have h2 := memcpy_fresh fin.1.temp_cols (stored_count L density (rows.toNat * cols.toNat))
        (0 : Int) (by rw [hinv.tc_len]; exact hcnt)
      simp only [alloc_or_null, if_true] at h1 h2
      rw [h1, h2]
      rfl
    · rw [hspec.2 (by omega)]
      rfl
  · have hrp0 : writeAt (alloc (rows + 1) (0 : Int)) 0 0 = none := by
      have e : (rows + 1).toNat = 0 := by omega
      simp [writeAt, alloc, e]
    simp [hrp0]

/-- C20, the code when an allocation fails: with the request for the matrix
header refused, the run makes an access through the null pointer whatever the
arguments; and with the request for `temp_values` refused, `rows = cols = 1`,
density `1.0` and a first draw of `0`, the run goes on to the scan and makes the
write `temp_values[0] = ...` through the null pointer.  With every request served
the same call returns a store. -/
theorem create_ignores_failed_allocation :
    (∀ (ok : Nat → Bool) (rows cols : Int) (density : ℚ), ok 0 = false →
      create_random_sparse_matrix_env (constLibc 32767 0) ok () rows cols density = none) ∧
    create_random_sparse_matrix_env (constLibc 32767 0) refuse_temp_values () 1 1 1 = none ∧
    create_random_sparse_matrix_env (constLibc 32767 0) (fun _ => true) () 1 1 1 =
      some ({ num_rows := 1, num_cols := 1, nnz := 1, values := [0], col_indices := [0],
              row_ptr := [0, 1] }, ()) := by
  refine ⟨fun ok rows cols density h => by simp [create_random_sparse_matrix_env, h], ?_, ?_⟩
  · simp [create_random_sparse_matrix_env, refuse_temp_values, alloc_or_null, row_gen_loop,
      col_loop, constLibc, writeAt, alloc]
  · simp [create_random_sparse_matrix_env, alloc_or_null, row_gen_loop,
      col_loop, constLibc, writeAt, alloc, memcpy, temp_capacity, estimated_nnz, double_to_int,
      wrap32]

/-! ## The builder at a density outside `[0, 1]` -/

section DensityOutside

variable {S : Type} (L : Libc S)

end DensityOutside

theorem chunk_size_of_rep (num_rows T : Int) (hn : 0 ≤ num_rows) (hn2 : num_rows ≤ INT_MAX)
    (hT : 1 ≤ T) (hrep : T * 100 ≤ INT_MAX) :
    chunk_size num_rows T =
      some (if (if num_rows / (T * 100) < 10 then 10 else num_rows / (T * 100)) > 1000 then 1000
        else (if num_rows / (T * 100) < 10 then 10 else num_rows / (T * 100))) := by
  unfold INT_MAX at hn2 hrep
  have hd : wrap32 (T * 100) = T * 100 := by unfold wrap32; omega
  have hq : Int.tdiv num_rows (T * 100) = num_rows / (T * 100) :=
    Int.tdiv_eq_ediv hn (by omega)
  have hq0 : 0 ≤ num_rows / (T * 100) := Int.ediv_nonneg hn (by omega)
  have hq1 : num_rows / (T * 100) ≤ num_rows := Int.ediv_le_self _ hn
  have hw : wrap32 (num_rows / (T * 100)) = num_rows / (T * 100) := by
    unfold wrap32; omega
  have hne : T * 100 ≠ 0 := by omega
  simp only [chunk_size, hd, hne, if_false, hq, hw]

theorem wrap32_of_range (z : Int) (h1 : -2147483648 ≤ z) (h2 : z ≤ 2147483647) :
    wrap32 z = z := by
  unfold wrap32; omega

theorem wrap32_range (z : Int) : -2147483648 ≤ wrap32 z ∧ wrap32 z ≤ 2147483647 := by
  unfold wrap32; omega

theorem clamp_tdiv_mono (d n1 n2 c1 c2 : Int) (h0 : 0 ≤ n1) (h12 : n1 ≤ n2)
    (h2 : n2 ≤ 2147483647) (hd : d ≠ 0)
    (e1 : (if (if wrap32 (Int.tdiv n1 d) < 10 then 10 else wrap32 (Int.tdiv n1 d)) > 1000
      then 1000 else (if wrap32 (Int.tdiv n1 d) < 10 then 10 else wrap32 (Int.tdiv n1 d))) = c1)
    (e2 : (if (if wrap32 (Int.tdiv n2 d) < 10 then 10 else wrap32 (Int.tdiv n2 d)) > 1000
      then 1000 else (if wrap32 (Int.tdiv n2 d) < 10 then 10 else wrap32 (Int.tdiv n2 d))) = c2) :
    c1 ≤ c2 := by
  rcases lt_or_gt_of_ne hd with hneg | hpos
  · have q1 : Int.tdiv n1 d ≤ 0 := by
      have := Int.tdiv_nonneg h0 (show 0 ≤ -d by omega)
      rw [Int.tdiv_neg] at this; omega
    have q2 : Int.tdiv n2 d ≤ 0 := by
      have := Int.tdiv_nonneg (show 0 ≤ n2 by omega) (show 0 ≤ -d by omega)
      rw [Int.tdiv_neg] at this; omega
    have a1 : -n1 ≤ Int.tdiv n1 d := by
      have h' : Int.tdiv n1 (-d) ≤ n1 := by
        rw [Int.tdiv_eq_ediv h0 (by omega)]; exact Int.ediv_le_self _ h0
      rw [Int.tdiv_neg] at h'; omega
    have a2 : -n2 ≤ Int.tdiv n2 d := by
      have h' : Int.tdiv n2 (-d) ≤ n2 := by
        rw [Int.tdiv_eq_ediv (by omega) (by omega)]; exact Int.ediv_le_self _ (by omega)
      rw [Int.tdiv_neg] at h'; omega
    rw [wrap32_of_range _ (by omega) (by omega)] at e1 e2
    subst e1 e2
    split_ifs <;> omega
  · have hq1 : Int.tdiv n1 d = n1 / d := Int.tdiv_eq_ediv h0 (by omega)
    have hq2 : Int.tdiv n2 d = n2 / d := Int.tdiv_eq_ediv (by omega) (by omega)
    have hm : n1 / d ≤ n2 / d := Int.ediv_le_ediv hpos h12
    have b1 : 0 ≤ n1 / d := Int.ediv_nonneg h0 (by omega)
    have b2 : n2 / d ≤ n2 := Int.ediv_le_self _ (by omega)
    rw [hq1, wrap32_of_range _ (by omega) (by omega)] at e1
    rw [hq2, wrap32_of_range _ (by omega) (by omega)] at e2
    subst e1 e2
    split_ifs <;> omega

theorem chunk_size_mono_rows (T n1 n2 c1 c2 : Int) (h0 : 0 ≤ n1) (h12 : n1 ≤ n2)
    (h2 : n2 ≤ INT_MAX) (e1 : chunk_size n1 T = some c1) (e2 : chunk_size n2 T = some c2) :
    c1 ≤ c2 := by
  unfold INT_MAX at h2
  unfold chunk_size at e1 e2
  simp only at e1 e2
  by_cases hd : wrap32 (T * 100) = 0
  · simp [hd] at e1
  · simp only [hd, if_false, Option.some.injEq] at e1 e2
    exact clamp_tdiv_mono (wrap32 (T * 100)) n1 n2 c1 c2 h0 h12 h2 hd e1 e2

theorem ediv_anti (n a b : Int) (hn : 0 ≤ n) (ha : 0 < a) (hab : a ≤ b) : n / b ≤ n / a := by
  rw [Int.le_ediv_iff_mul_le ha]
  have hq : 0 ≤ n / b := Int.ediv_nonneg hn (by omega)
  have h1 : n / b * b ≤ n := Int.ediv_mul_le n (by omega)
  nlinarith

theorem chunk_size_anti_threads (n T1 T2 : Int) (h0 : 0 ≤ n) (hn : n ≤ INT_MAX)
    (h1 : 1 ≤ T1) (h12 : T1 ≤ T2) (hrep : T2 * 100 ≤ INT_MAX) :
    ∃ c1 c2, chunk_size n T1 = some c1 ∧ chunk_size n T2 = some c2 ∧ c2 ≤ c1 := by
  have e1 := chunk_size_of_rep n T1 h0 hn h1 (by omega)
  have e2 := chunk_size_of_rep n T2 h0 hn (by omega) hrep
  refine ⟨_, _, e1, e2, ?_⟩
  have hm : n / (T2 * 100) ≤ n / (T1 * 100) :=
    ediv_anti n (T1 * 100) (T2 * 100) h0 (by omega) (by omega)
  split_ifs <;> omega

/-! ## Claims on densities outside `[0, 1]` and on the chunk size -/

/-- C25 (amended), as the code has it: for a fixed thread count the computed chunk size is
non-decreasing in `num_rows` (`0 ≤ num_rows ≤ INT_MAX`), whatever the thread
count; for a fixed `num_rows` it is non-increasing in the thread count `T ≥ 1`
as long as `T * 100` is representable as an `int`. -/
theorem chunk_size_monotone :
    (∀ T n1 n2 c1 c2 : Int, 0 ≤ n1 → n1 ≤ n2 → n2 ≤ INT_MAX →
      chunk_size n1 T = some c1 → chunk_size n2 T = some c2 → c1 ≤ c2) ∧
    (∀ n T1 T2 : Int, 0 ≤ n → n ≤ INT_MAX → 1 ≤ T1 → T1 ≤ T2 → T2 * 100 ≤ INT_MAX →
      ∃ c1 c2, chunk_size n T1 = some c1 ∧ chunk_size n T2 = some c2 ∧ c2 ≤ c1) :=
  ⟨fun T n1 n2 c1 c2 h0 h12 h2 e1 e2 => chunk_size_mono_rows T n1 n2 c1 c2 h0 h12 h2 e1 e2,
   fun n T1 T2 h0 hn h1 h12 hrep => chunk_size_anti_threads n T1 T2 h0 hn h1 h12 hrep⟩

theorem chunk_size_monotone_witness :
    (chunk_size 50000 8 = some 62 ∧ chunk_size 100000 8 = some 125 ∧ (62 : Int) ≤ 125) ∧
    ∃ c1 c2, chunk_size 100000 2 = some c1 ∧ chunk_size 100000 8 = some c2 ∧ c2 ≤ c1 :=
  ⟨⟨by decide, by decide,
    chunk_size_monotone.1 8 50000 100000 62 125 (by decide) (by decide) (by decide)
      (by decide) (by decide)⟩,
   chunk_size_monotone.2 100000 2 8 (by decide) (by decide) (by decide) (by decide)
     (by decide)⟩

/-- C25 fails as stated: `T = 42949673` is a thread count `≥ 1`, `T * 100` is
`4294967300`, which is `4` as a 32-bit `int`; for `num_rows = 4000` the chunk
size is `40` with one thread and `1000` with `T` threads. -/
theorem chunk_size_monotone_counterexample :
    ((1 : Int) ≤ 42949673) ∧ ((42949673 : Int) ≤ INT_MAX) ∧
    wrap32 (42949673 * 100) = 4 ∧
    chunk_size 4000 1 = some 40 ∧ chunk_size 4000 42949673 = some 1000 ∧
    ¬ ((1000 : Int) ≤ 40) := by
  decide

/-! ## The chunks of a dynamic schedule tile the rows -/

theorem mem_dynamic_chunk (C n k r : Nat) :
    r ∈ dynamic_chunk C n k ↔ k * C ≤ r ∧ r < (k + 1) * C ∧ r < n := by
  unfold dynamic_chunk
  rw [List.mem_range'_1]
  have : k * C ≤ (k + 1) * C := Nat.mul_le_mul_right _ (by omega)
  omega

theorem flatMap_dynamic_chunk_upto (C n : Nat) :
    ∀ K, (List.range K).flatMap (dynamic_chunk C n) = List.range (min (K * C) n) := by
  intro K
  induction K with
  | zero => simp
  | succ K ih =>
    rw [List.range_succ, List.flatMap_append, ih, List.flatMap_singleton]
    simp only [dynamic_chunk]
    have hle : K * C ≤ (K + 1) * C := Nat.mul_le_mul_right _ (by omega)
    by_cases h : K * C ≤ n
    · rw [Nat.min_eq_left h, List.range_eq_range', List.range_eq_range']
      have := List.range'_append 0 (K * C) (min ((K + 1) * C) n - K * C) 1
      simp only [Nat.zero_add, Nat.one_mul] at this
      rw [this]
      congr 1
      omega
    · have h1 : min (K * C) n = n := by omega
      have h2 : min ((K + 1) * C) n = n := by omega
      have h3 : n - K * C = 0 := by omega
      rw [h1, h2, h3]
      simp

theorem num_dynamic_chunks_mul_ge (C n : Nat) (hC : 1 ≤ C) :
    n ≤ num_dynamic_chunks C n * C := by
  unfold num_dynamic_chunks
  have h := Nat.div_add_mod (n + C - 1) C
  have h2 := Nat.mod_lt (n + C - 1) (show 0 < C by omega)
  have h3 : C * ((n + C - 1) / C) = (n + C - 1) / C * C := Nat.mul_comm _ _
  omega

theorem bind_dynamic_chunk (C n : Nat) (hC : 1 ≤ C) :
    (List.range (num_dynamic_chunks C n)).flatMap (dynamic_chunk C n) = List.range n := by
  rw [flatMap_dynamic_chunk_upto, Nat.min_eq_right (num_dynamic_chunks_mul_ge C n hC)]

theorem chunk_index_unique (C k r : Nat) (h1 : k * C ≤ r) (h2 : r < (k + 1) * C) :
    k = r / C :=
  (Nat.div_eq_of_lt_le h1 h2).symm

theorem chunk_index_lt (C n r : Nat) (hC : 1 ≤ C) (hr : r < n) :
    r / C < num_dynamic_chunks C n := by
  have h1 := num_dynamic_chunks_mul_ge C n hC
  have h2 : r < num_dynamic_chunks C n * C := by omega
  exact Nat.div_lt_of_lt_mul (by rw [Nat.mul_comm]; exact h2)

theorem mem_own_chunk (C n r : Nat) (hC : 1 ≤ C) (hr : r < n) :
    r ∈ dynamic_chunk C n (r / C) := by
  rw [mem_dynamic_chunk]
  refine ⟨Nat.div_mul_le_self r C, ?_, hr⟩
  have h1 := Nat.lt_div_mul_add (a := r) (b := C) (by omega)
  have h2 : (r / C + 1) * C = r / C * C + C := by ring
  omega

theorem dynamic_chunk_length (C n k : Nat) (hC : 1 ≤ C) (hk : k + 1 < num_dynamic_chunks C n) :
    (dynamic_chunk C n k).length = C := by
  unfold dynamic_chunk
  rw [List.length_range']
  -- the chunk after `k` is not empty, so `(k + 1) * C < n`
  have hlt : (k + 1) * C < n := by
    by_contra hge
    have hge2 : n ≤ (k + 1) * C := by omega
    have : num_dynamic_chunks C n ≤ k + 1 := by
      unfold num_dynamic_chunks
      have hh : n + C - 1 < (k + 1 + 1) * C := by
        have : (k + 1 + 1) * C = (k + 1) * C + C := by ring
        omega
      have := Nat.div_lt_of_lt_mul (show n + C - 1 < C * (k + 1 + 1) by rw [Nat.mul_comm]; exact hh)
      omega
    omega
  have : (k + 1) * C = k * C + C := by ring
  omega

theorem dynamic_chunk_disjoint (C n k1 k2 : Nat) (hne : k1 ≠ k2) :
    List.Disjoint (dynamic_chunk C n k1) (dynamic_chunk C n k2) := by
  intro r h1 h2
  rw [mem_dynamic_chunk] at h1 h2
  have e1 := chunk_index_unique C k1 r h1.1 h1.2.1
  have e2 := chunk_index_unique C k2 r h2.1 h2.2.1
  exact hne (e1.trans e2.symm)

/-! ## The sequential kernel is linear in `x` -/

section Linear

variable {α : Type} [CommSemiring α]

theorem lin_comb_getD (a b : α) (x z : List α) (h : x.length = z.length) (i : Nat) :
    (lin_comb a x b z).getD i 0 = a * x.getD i 0 + b * z.getD i 0 := by
  unfold lin_comb
  rw [List.getD_eq_getElem?_getD, List.getD_eq_getElem?_getD, List.getD_eq_getElem?_getD,
    List.getElem?_zipWith]
  by_cases hi : i < x.length
  · have hi2 : i < z.length := by omega
    simp [List.getElem?_eq_getElem hi, List.getElem?_eq_getElem hi2]
  · have h1 : x.length ≤ i := by omega
    have h2 : z.length ≤ i := by omega
    simp [List.getElem?_eq_none h1, List.getElem?_eq_none h2]

theorem lin_comb_length (a b : α) (x z : List α) (h : x.length = z.length) :
    (lin_comb a x b z).length = x.length := by
  simp [lin_comb, h]

theorem row_sum_lin_comb (A : CSRMatrix α) (a b : α) (x z : List α)
    (h : x.length = z.length) (r : Nat) :
    row_sum A (lin_comb a x b z) r = a * row_sum A x r + b * row_sum A z r := by
  unfold row_sum
  simp only [foldl_add_eq_sum, zero_add, lin_comb_getD a b x z h]
  rw [← List.sum_map_mul_left, ← List.sum_map_mul_left, ← List.sum_map_add]
  congr 1
  apply List.map_congr_left
  intro k _
  ring

theorem row_sum_zeros (A : CSRMatrix α) (n : Nat) (r : Nat) :
    row_sum A (List.replicate n (0 : α)) r = 0 := by
  unfold row_sum
  simp only [foldl_add_eq_sum, zero_add]
  apply List.sum_eq_zero
  intro t ht
  rw [List.mem_map] at ht
  obtain ⟨k, _, rfl⟩ := ht
  have : (List.replicate n (0 : α)).getD (A.col_indices.getD k 0).toNat 0 = 0 := by
    rw [List.getD_eq_getElem?_getD, List.getElem?_replicate]
    split <;> rfl
  rw [this, mul_zero]

theorem row_sum_ones (A : CSRMatrix α) (x : List α) (hA : A.Valid)
    (hc : ∀ c ∈ A.col_indices, 0 ≤ c ∧ c.toNat < x.length) (hone : ∀ v ∈ x, v = 1) (r : Nat)
    (hr : r < A.num_rows.toNat) :
    row_sum A x r = ((row_entries A r).map Prod.snd).sum := by
  obtain ⟨lo, hi, e1, e2, hle, hnz, hent⟩ := row_entries_eq_map A hA r hr
  have hcl : A.col_indices.length = A.nnz.toNat := hA.2.2.2.2.2.2.2.1
  unfold row_sum
  simp only [foldl_add_eq_sum, zero_add, e1, e2, Int.toNat_ofNat]
  rw [hent, List.map_map]
  congr 1
  apply List.map_congr_left
  intro k hk
  rw [List.mem_range'_1] at hk
  have hk2 : k < A.col_indices.length := by omega
  have hck := hc (A.col_indices[k]) (List.getElem_mem hk2)
  have hx1 : x.getD (A.col_indices.getD k 0).toNat 0 = 1 := by
    rw [List.getD_eq_getElem _ _ hk2, List.getD_eq_getElem _ _ hck.2]
    exact hone _ (List.getElem_mem _)
  simp only [Function.comp, hx1, mul_one]

end Linear

/-! ## The dynamic kernel: the chunk size its threads hold -/

theorem private_chunk_size_self (num_rows T : Int) (s : Nat) :
    private_chunk_size num_rows T s s = chunk_size num_rows T := by
  simp [private_chunk_size]

theorem private_chunk_size_other (num_rows T : Int) (s t : Nat) (h : t ≠ s) :
    private_chunk_size num_rows T s t = none := by
  simp [private_chunk_size, h]

theorem chunk_size_one_isSome (num_rows : Int) : ∃ c, chunk_size num_rows 1 = some c :=
  chunk_size_isSome num_rows 1 (by decide) (by decide) (by decide)

theorem schedule_chunk_size_one (num_rows : Int) :
    schedule_chunk_size num_rows 1 0 = chunk_size num_rows 1 := by
  obtain ⟨c, hc⟩ := chunk_size_one_isSome num_rows
  have h1 : (1 : Int).toNat = 1 := rfl
  simp [schedule_chunk_size, private_chunk_size, hc, h1]

theorem schedule_chunk_size_none (num_rows T : Int) (s : Nat) (h : 2 ≤ T) :
    schedule_chunk_size num_rows T s = none := by
  unfold schedule_chunk_size
  rw [if_neg]
  intro hall
  rw [List.all_eq_true] at hall
  by_cases hs : s = 0
  · have h1 := hall 1 (List.mem_range.mpr (by omega))
    rw [private_chunk_size_other _ _ _ _ (by omega)] at h1
    simp at h1
  · have h0 := hall 0 (List.mem_range.mpr (by omega))
    rw [private_chunk_size_other _ _ _ _ (fun e => hs e.symm)] at h0
    simp at h0

theorem dynamic_schedule_one (num_rows c : Int) (order : List Nat)
    (hc : chunk_size num_rows 1 = some c) :
    dynamic_schedule num_rows 1 0 order =
      some (order.flatMap (dynamic_chunk c.toNat num_rows.toNat)) := by
  simp [dynamic_schedule, schedule_chunk_size_one, hc]

theorem dynamic_schedule_none (num_rows T : Int) (s : Nat) (order : List Nat) (h : 2 ≤ T) :
    dynamic_schedule num_rows T s order = none := by
  simp [dynamic_schedule, schedule_chunk_size_none num_rows T s h]

theorem dynamic_rows_perm (num_rows T c : Int) (order : List Nat)
    (hc : chunk_size num_rows T = some c)
    (ho : order.Perm (List.range (num_dynamic_chunks c.toNat num_rows.toNat))) :
    (order.flatMap (dynamic_chunk c.toNat num_rows.toNat)).Perm
      (List.range num_rows.toNat) := by
  have hrange := chunk_size_range num_rows T c hc
  have hC : 1 ≤ c.toNat := by omega
  rw [← bind_dynamic_chunk c.toNat num_rows.toNat hC]
  exact ho.flatMap_right _

section DynamicKernel

variable {α : Type} [Zero α] [Add α] [Mul α]

theorem spmv_parallel_dynamic_none (A : CSRMatrix α) (x y : List α) (T : Int) (s : Nat)
    (order : List Nat) (h : 2 ≤ T) : spmv_parallel_dynamic A x y T s order = none := by
  simp [spmv_parallel_dynamic, dynamic_schedule_none A.num_rows T s order h]

theorem spmv_parallel_dynamic_one (A : CSRMatrix α) (x y : List α) (c : Int)
    (order : List Nat) (hcs : chunk_size A.num_rows 1 = some c) :
    spmv_parallel_dynamic A x y 1 0 order =
      omp_for (spmv_row A x) (order.flatMap (dynamic_chunk c.toNat A.num_rows.toNat)) y := by
  simp [spmv_parallel_dynamic, dynamic_schedule_one A.num_rows c order hcs]

theorem spmv_parallel_dynamic_eq_map (A : CSRMatrix α) (x : List α) (hA : A.Valid)
    (hc : ∀ c ∈ A.col_indices, 0 ≤ c ∧ c.toNat < x.length) (order : List Nat) (y : List α)
    (hy : y.length = A.num_rows.toNat) (c : Int) (hcs : chunk_size A.num_rows 1 = some c)
    (ho : order.Perm (List.range (num_dynamic_chunks c.toNat A.num_rows.toNat))) :
    spmv_parallel_dynamic A x y 1 0 order =
      some ((List.range A.num_rows.toNat).map (row_sum A x)) := by
  rw [spmv_parallel_dynamic_one A x y c order hcs]
  apply omp_for_eq_map A x hA hc _ y hy
  intro i
  rw [(dynamic_rows_perm A.num_rows 1 c order hcs ho).mem_iff, List.mem_range]

theorem spmv_parallel_dynamic_mem_none (m : Mem α) (T : Int) (s : Nat) (order : List Nat)
    (h : 2 ≤ T) : spmv_parallel_dynamic_mem m T s order = none := by
  simp [spmv_parallel_dynamic_mem, dynamic_schedule_none m.A.num_rows T s order h]

theorem spmv_parallel_dynamic_mem_eq (m : Mem α) (hA : m.A.Valid)
    (hc : ∀ c ∈ m.A.col_indices, 0 ≤ c ∧ c.toNat < m.x.length) (order : List Nat)
    (hy : m.y.length = m.A.num_rows.toNat) (c : Int)
    (hcs : chunk_size m.A.num_rows 1 = some c)
    (ho : order.Perm (List.range (num_dynamic_chunks c.toNat m.A.num_rows.toNat))) :
    spmv_parallel_dynamic_mem m 1 0 order =
      some { A := m.A, x := m.x,
             y := (List.range m.A.num_rows.toNat).map (row_sum m.A m.x) } := by
  have hpar := omp_for_eq_map m.A m.x hA hc
    (order.flatMap (dynamic_chunk c.toNat m.A.num_rows.toNat)) m.y hy
    (fun i => by
      rw [(dynamic_rows_perm m.A.num_rows 1 c order hcs ho).mem_iff, List.mem_range])
  simp [spmv_parallel_dynamic_mem, dynamic_schedule_one m.A.num_rows c order hcs,
    omp_for_mem_eq, hpar]

end DynamicKernel

/-! ## Claims on the dynamic kernel -/

/-- C2, as the code has it: `spmv_parallel_static` returns the very vector
`spmv_sequential` returns, for every store that satisfies the structural
invariant, every `x` of length `num_cols`, every element type and every order in
which the rows take effect; so does `spmv_parallel_dynamic` when the team has one
thread, for every order in which its chunks are handed out, and on rationals
`verify_results` then returns `1` and prints nothing.  With two or more threads
`spmv_parallel_dynamic` has no defined result, on any store and whichever thread
executes the `single` block: its `chunk_size` is private to each thread and
assigned by one of them only, and the loop directive reads it in all of them. -/
theorem spmv_parallel_vs_sequential :
    (∀ (α : Type) [Zero α] [Add α] [Mul α] (A : CSRMatrix α) (x y0 y1 y2 : List α)
        (s1 : List Nat),
        A.Valid → (x.length : Int) = A.num_cols →
        y0.length = A.num_rows.toNat → y1.length = A.num_rows.toNat →
        y2.length = A.num_rows.toNat →
        s1.Perm (List.range A.num_rows.toNat) →
        ∃ y c, spmv_sequential A x y0 = some y ∧ spmv_parallel_static A x y1 s1 = some y ∧
          chunk_size A.num_rows 1 = some c ∧
          ∀ order : List Nat,
            order.Perm (List.range (num_dynamic_chunks c.toNat A.num_rows.toNat)) →
            spmv_parallel_dynamic A x y2 1 0 order = some y) ∧
    (∀ (A : CSRMatrix ℚ) (x y0 y1 y2 : List ℚ) (s1 : List Nat),
        A.Valid → (x.length : Int) = A.num_cols →
        y0.length = A.num_rows.toNat → y1.length = A.num_rows.toNat →
        y2.length = A.num_rows.toNat →
        s1.Perm (List.range A.num_rows.toNat) →
        ∃ y ys c, spmv_sequential A x y0 = some y ∧
          spmv_parallel_static A x y1 s1 = some ys ∧
          verify_results y ys A.num_rows = some (1, []) ∧
          chunk_size A.num_rows 1 = some c ∧
          ∀ order : List Nat,
            order.Perm (List.range (num_dynamic_chunks c.toNat A.num_rows.toNat)) →
            ∃ yd, spmv_parallel_dynamic A x y2 1 0 order = some yd ∧
              verify_results y yd A.num_rows = some (1, [])) ∧
    (∀ (α : Type) [Zero α] [Add α] [Mul α] (A : CSRMatrix α) (x y : List α) (T : Int)
        (single_thread : Nat) (order : List Nat),
        2 ≤ T → spmv_parallel_dynamic A x y T single_thread order = none) := by
  refine ⟨?_, ?_, ?_⟩
  · intro α _ _ _ A x y0 y1 y2 s1 hA hx h0 h1 h2 hs1
    have hc := valid_cols_lt A x hA hx
    obtain ⟨c, hcs⟩ := chunk_size_one_isSome A.num_rows
    exact ⟨_, c, spmv_sequential_eq_map A x hA hc y0 h0,
      spmv_parallel_static_eq_map A x hA hc s1 y1 h1 hs1, hcs,
      fun order ho => spmv_parallel_dynamic_eq_map A x hA hc order y2 h2 c hcs ho⟩
  · intro A x y0 y1 y2 s1 hA hx h0 h1 h2 hs1
    have hc := valid_cols_lt A x hA hx
    obtain ⟨c, hcs⟩ := chunk_size_one_isSome A.num_rows
    have hv : verify_results ((List.range A.num_rows.toNat).map (row_sum A x))
        ((List.range A.num_rows.toNat).map (row_sum A x)) A.num_rows = some (1, []) := by
      apply verify_results_self
      simp
    exact ⟨_, _, c, spmv_sequential_eq_map A x hA hc y0 h0,
      spmv_parallel_static_eq_map A x hA hc s1 y1 h1 hs1, hv, hcs,
      fun order ho => ⟨_, spmv_parallel_dynamic_eq_map A x hA hc order y2 h2 c hcs ho, hv⟩⟩
  · intro α _ _ _ A x y T s order hT
    exact spmv_parallel_dynamic_none A x y T s order hT

theorem spmv_parallel_vs_sequential_witness :
    (diagStore12.Valid ∧
      [5, 0, 11, 1, 2, 3, 4, 6, 7, 8, 9, 10].Perm (List.range diagStore12.num_rows.toNat) ∧
      chunk_size diagStore12.num_rows 1 = some 10 ∧
      [1, 0].Perm (List.range (num_dynamic_chunks (10 : Int).toNat
        diagStore12.num_rows.toNat)) ∧
      ∃ y, spmv_sequential diagStore12 (List.replicate 12 1) (List.replicate 12 7) = some y ∧
        spmv_parallel_static diagStore12 (List.replicate 12 1) (List.replicate 12 8)
          [5, 0, 11, 1, 2, 3, 4, 6, 7, 8, 9, 10] = some y ∧
        spmv_parallel_dynamic diagStore12 (List.replicate 12 1) (List.replicate 12 9) 1 0
          [1, 0] = some y) ∧
    spmv_parallel_dynamic exampleStore [1, 1, 1] [9, 9, 9] 2 0 [0] = none ∧
    spmv_parallel_dynamic exampleStore [1, 1, 1] [9, 9, 9] 2 1 [0] = none := by
  have h10 : chunk_size diagStore12.num_rows 1 = some 10 := by decide
  obtain ⟨y, c, hs, hst, hc, hd⟩ :=
    spmv_parallel_vs_sequential.1 Int diagStore12 (List.replicate 12 1) (List.replicate 12 7)
      (List.replicate 12 8) (List.replicate 12 9) [5, 0, 11, 1, 2, 3, 4, 6, 7, 8, 9, 10]
      (by decide) (by decide) (by decide) (by decide) (by decide) (by decide)
  rw [h10] at hc
  cases hc
  exact ⟨⟨by decide, by decide, h10, by decide, y, hs, hst, hd [1, 0] (by decide)⟩,
    spmv_parallel_vs_sequential.2.2 Int exampleStore [1, 1, 1] [9, 9, 9] 2 0 [0] (by decide),
    spmv_parallel_vs_sequential.2.2 Int exampleStore [1, 1, 1] [9, 9, 9] 2 1 [0] (by decide)⟩

/-- C9, as the code has it: on a store that satisfies the invariant and has
`nnz = 0` (so every `row_ptr` entry is `0`) and `num_rows ≥ 1`, for every `x` of
any length, `spmv_sequential`, `spmv_parallel_static` (every order of the rows)
and `spmv_parallel_dynamic` with a team of one thread (every order of its chunks)
return the vector of `num_rows` zeros; on every store that satisfies the
invariant, with `x` of length `num_cols`, a row `r` with
`row_ptr[r] = row_ptr[r+1]` gets `y[r] = 0` from the three of them.  With two or
more threads `spmv_parallel_dynamic` has no defined result, also on a store
without entries: the loop directive reads a `chunk_size` that was never
assigned. -/
theorem spmv_empty_rows {α : Type} [Zero α] [Add α] [Mul α] :
    (∀ (A : CSRMatrix α) (x y0 y1 y2 : List α) (s1 : List Nat),
        A.Valid → A.nnz = 0 → 1 ≤ A.num_rows →
        y0.length = A.num_rows.toNat → y1.length = A.num_rows.toNat →
        y2.length = A.num_rows.toNat →
        s1.Perm (List.range A.num_rows.toNat) →
        spmv_sequential A x y0 = some (List.replicate A.num_rows.toNat 0) ∧
        spmv_parallel_static A x y1 s1 = some (List.replicate A.num_rows.toNat 0) ∧
        ∃ c, chunk_size A.num_rows 1 = some c ∧
          ∀ order : List Nat,
            order.Perm (List.range (num_dynamic_chunks c.toNat A.num_rows.toNat)) →
            spmv_parallel_dynamic A x y2 1 0 order =
              some (List.replicate A.num_rows.toNat 0)) ∧
    (∀ (A : CSRMatrix α) (x y0 y1 y2 : List α) (s1 : List Nat) (r : Nat),
        A.Valid → (x.length : Int) = A.num_cols →
        y0.length = A.num_rows.toNat → y1.length = A.num_rows.toNat →
        y2.length = A.num_rows.toNat →
        s1.Perm (List.range A.num_rows.toNat) →
        r < A.num_rows.toNat → A.row_ptr[r]? = A.row_ptr[r + 1]? →
        ∃ y c, spmv_sequential A x y0 = some y ∧ spmv_parallel_static A x y1 s1 = some y ∧
          y[r]? = some 0 ∧ chunk_size A.num_rows 1 = some c ∧
          ∀ order : List Nat,
            order.Perm (List.range (num_dynamic_chunks c.toNat A.num_rows.toNat)) →
            spmv_parallel_dynamic A x y2 1 0 order = some y) ∧
    (∀ (A : CSRMatrix α) (x y : List α) (T : Int) (single_thread : Nat) (order : List Nat),
        A.Valid → A.nnz = 0 → 2 ≤ T →
        spmv_parallel_dynamic A x y T single_thread order = none) := by
  refine ⟨?_, ?_, ?_⟩
  · intro A x y0 y1 y2 s1 hA hz _ h0 h1 h2 hs1
    have hc : ∀ c ∈ A.col_indices, 0 ≤ c ∧ c.toNat < x.length := by
      have hl : A.col_indices.length = 0 := by rw [hA.2.2.2.2.2.2.2.1, hz]; rfl
      rw [List.length_eq_zero] at hl
      simp [hl]
    obtain ⟨c, hcs⟩ := chunk_size_one_isSome A.num_rows
    rw [← map_row_sum_of_nnz_zero A x hA hz]
    exact ⟨spmv_sequential_eq_map A x hA hc y0 h0,
      spmv_parallel_static_eq_map A x hA hc s1 y1 h1 hs1, c, hcs,
      fun order ho => spmv_parallel_dynamic_eq_map A x hA hc order y2 h2 c hcs ho⟩
  · intro A x y0 y1 y2 s1 r hA hx h0 h1 h2 hs1 hr hrow
    have hc := valid_cols_lt A x hA hx
    obtain ⟨c, hcs⟩ := chunk_size_one_isSome A.num_rows
    refine ⟨_, c, spmv_sequential_eq_map A x hA hc y0 h0,
      spmv_parallel_static_eq_map A x hA hc s1 y1 h1 hs1, ?_, hcs,
      fun order ho => spmv_parallel_dynamic_eq_map A x hA hc order y2 h2 c hcs ho⟩
    have hrs := row_sum_of_row_ptr_eq A x r hrow
    simp [List.getElem?_range, hr, hrs]
  · intro A x y T s order _ _ hT
    exact spmv_parallel_dynamic_none A x y T s order hT

theorem spmv_empty_rows_witness :
    (emptyStore4.Valid ∧
      [3, 1, 0, 2].Perm (List.range emptyStore4.num_rows.toNat) ∧
      chunk_size emptyStore4.num_rows 1 = some 10 ∧
      [0].Perm (List.range (num_dynamic_chunks (10 : Int).toNat
        emptyStore4.num_rows.toNat)) ∧
      spmv_sequential emptyStore4 [5, 6, 7, 8] [1, 1, 1, 1] = some [0, 0, 0, 0] ∧
      spmv_parallel_static emptyStore4 [5, 6, 7, 8] [2, 2, 2, 2] [3, 1, 0, 2]
        = some [0, 0, 0, 0] ∧
      spmv_parallel_dynamic emptyStore4 [5, 6, 7, 8] [3, 3, 3, 3] 1 0 [0]
        = some [0, 0, 0, 0]) ∧
    spmv_parallel_dynamic emptyStore4 [5, 6, 7, 8] [3, 3, 3, 3] 2 0 [0] = none ∧
    spmv_parallel_dynamic emptyStore4 [5, 6, 7, 8] [3, 3, 3, 3] 8 3 [0] = none := by
  have h10 : chunk_size emptyStore4.num_rows 1 = some 10 := by decide
  obtain ⟨hs, hst, c, hc, hd⟩ :=
    spmv_empty_rows.1 emptyStore4 [5, 6, 7, 8] [1, 1, 1, 1] [2, 2, 2, 2] [3, 3, 3, 3]
      [3, 1, 0, 2] (by decide) (by decide) (by decide) (by decide) (by decide) (by decide)
      (by decide)
  rw [h10] at hc
  cases hc
  exact ⟨⟨by decide, by decide, h10, by decide, hs, hst, hd [0] (by decide)⟩,
    spmv_empty_rows.2.2 emptyStore4 [5, 6, 7, 8] [3, 3, 3, 3] 2 0 [0] (by decide) (by decide)
      (by decide),
    spmv_empty_rows.2.2 emptyStore4 [5, 6, 7, 8] [3, 3, 3, 3] 8 3 [0] (by decide) (by decide)
      (by decide)⟩

/-- C11, as the code has it: for every `num_rows` in `0 .. INT_MAX` and every
thread count `T ≥ 1` with `T * 100` representable as an `int`, the `chunk_size`
of the thread that executes the `single` block is
`min(1000, max(10, num_rows div (T * 100)))`, the division truncating, and the
`chunk_size` of every other thread of the team was never assigned.  With one
thread the loop directive receives the value of the formula; with two or more
threads the chunk size it is to use is not defined, whichever thread executes
the `single` block. -/
theorem chunk_size_of_threads (num_rows T : Int) (hn : 0 ≤ num_rows)
    (hn2 : num_rows ≤ INT_MAX) (hT : 1 ≤ T) (hrep : T * 100 ≤ INT_MAX) :
    (∀ s, private_chunk_size num_rows T s s =
      some (min 1000 (max 10 (Int.tdiv num_rows (T * 100))))) ∧
    (∀ s t, t ≠ s → private_chunk_size num_rows T s t = none) ∧
    (T = 1 → schedule_chunk_size num_rows T 0 =
      some (min 1000 (max 10 (Int.tdiv num_rows (T * 100))))) ∧
    (2 ≤ T → ∀ s, schedule_chunk_size num_rows T s = none) := by
  have hf : chunk_size num_rows T = some (min 1000 (max 10 (Int.tdiv num_rows (T * 100)))) := by
    unfold INT_MAX at hn2 hrep
    have hd : wrap32 (T * 100) = T * 100 := by unfold wrap32; omega
    have hq0 : 0 ≤ Int.tdiv num_rows (T * 100) := Int.tdiv_nonneg hn (by omega)
    have hq1 : Int.tdiv num_rows (T * 100) ≤ num_rows := by
      rw [Int.tdiv_eq_ediv hn (by omega)]
      exact Int.ediv_le_self _ hn
    have hw : wrap32 (Int.tdiv num_rows (T * 100)) = Int.tdiv num_rows (T * 100) := by
      unfold wrap32; omega
    have hne : T * 100 ≠ 0 := by omega
    simp only [chunk_size, hd, hne, if_false, hw]
    congr 1
    split_ifs <;> omega
  refine ⟨fun s => ?_, fun s t h => private_chunk_size_other num_rows T s t h, fun h1 => ?_,
    fun h2 s => schedule_chunk_size_none num_rows T s h2⟩
  · rw [private_chunk_size_self, hf]
  · subst h1
    rw [schedule_chunk_size_one, hf]

theorem chunk_size_of_threads_witness :
    (private_chunk_size 50000 8 3 3 = some 62 ∧ private_chunk_size 50000 8 3 0 = none ∧
      private_chunk_size 10000000 256 0 0 = some 390 ∧
      private_chunk_size 10000000 256 0 255 = none ∧
      schedule_chunk_size 1 1 0 = some 10 ∧ schedule_chunk_size 10000000 1 0 = some 1000 ∧
      schedule_chunk_size 50000 8 3 = none ∧ schedule_chunk_size 10000000 256 0 = none) ∧
    (private_chunk_size 50000 8 3 3 =
        some (min 1000 (max 10 (Int.tdiv 50000 (8 * 100)))) ∧
      private_chunk_size 50000 8 3 0 = none ∧
      schedule_chunk_size 50000 8 3 = none) :=
  ⟨by decide,
   (chunk_size_of_threads 50000 8 (by decide) (by decide) (by decide) (by decide)).1 3,
   (chunk_size_of_threads 50000 8 (by decide) (by decide) (by decide) (by decide)).2.1 3 0
     (by decide),
   (chunk_size_of_threads 50000 8 (by decide) (by decide) (by decide) (by decide)).2.2.2
     (by decide) 3⟩

/-- C18, as the code has it: `spmv_sequential`, `spmv_parallel_static` and
`spmv_parallel_dynamic` with a team of one thread, run on a memory that holds a
store satisfying the invariant, an `x` of length `num_cols` and a `y` of length
`num_rows`, return with the store and `x` unchanged, and the `y` they leave is
the vector of the row sums, a function of the store and `x` alone: two runs from
memories that differ in `y` only (and in the order of the rows or chunks) leave
the same `y`.  With two or more threads the run of `spmv_parallel_dynamic` is
undefined and no memory is guaranteed after it. -/
theorem spmv_kernels_frame {α : Type} [Zero α] [Add α] [Mul α] (m : Mem α) (y2 : List α)
    (s1 s2 : List Nat) (hA : m.A.Valid)
    (hx : (m.x.length : Int) = m.A.num_cols)
    (hy : m.y.length = m.A.num_rows.toNat) (hy2 : y2.length = m.A.num_rows.toNat)
    (hs1 : s1.Perm (List.range m.A.num_rows.toNat))
    (hs2 : s2.Perm (List.range m.A.num_rows.toNat)) :
    (∃ y c, y = (List.range m.A.num_rows.toNat).map (row_sum m.A m.x) ∧
      spmv_sequential_mem m = some { A := m.A, x := m.x, y := y } ∧
      spmv_sequential_mem { m with y := y2 } = some { A := m.A, x := m.x, y := y } ∧
      spmv_parallel_static_mem m s1 = some { A := m.A, x := m.x, y := y } ∧
      spmv_parallel_static_mem { m with y := y2 } s2 = some { A := m.A, x := m.x, y := y } ∧
      chunk_size m.A.num_rows 1 = some c ∧
      ∀ o1 o2 : List Nat,
        o1.Perm (List.range (num_dynamic_chunks c.toNat m.A.num_rows.toNat)) →
        o2.Perm (List.range (num_dynamic_chunks c.toNat m.A.num_rows.toNat)) →
        spmv_parallel_dynamic_mem m 1 0 o1 = some { A := m.A, x := m.x, y := y } ∧
        spmv_parallel_dynamic_mem { m with y := y2 } 1 0 o2 =
          some { A := m.A, x := m.x, y := y }) ∧
    (∀ (T : Int) (single_thread : Nat) (order : List Nat), 2 ≤ T →
      spmv_parallel_dynamic_mem m T single_thread order = none ∧
      spmv_parallel_dynamic_mem { m with y := y2 } T single_thread order = none) := by
  have hc := valid_cols_lt m.A m.x hA hx
  have hseq := fun y h => spmv_sequential_eq_map m.A m.x hA hc y h
  have hpar := fun s y h hs => omp_for_eq_map m.A m.x hA hc s y h
    (fun i => by rw [List.Perm.mem_iff hs, List.mem_range])
  unfold spmv_sequential at hseq
  obtain ⟨c, hcs⟩ := chunk_size_one_isSome m.A.num_rows
  refine ⟨⟨_, c, rfl, ?_, ?_, ?_, ?_, hcs, fun o1 o2 ho1 ho2 => ⟨?_, ?_⟩⟩,
    fun T s order hT => ⟨?_, ?_⟩⟩
  · simp [spmv_sequential_mem, spmv_loop_mem_eq, hseq m.y hy]
  · simp [spmv_sequential_mem, spmv_loop_mem_eq, hseq y2 hy2]
  · simp [spmv_parallel_static_mem, omp_for_mem_eq, hpar s1 m.y hy hs1]
  · simp [spmv_parallel_static_mem, omp_for_mem_eq, hpar s2 y2 hy2 hs2]
  · exact spmv_parallel_dynamic_mem_eq m hA hc o1 hy c hcs ho1
  · exact spmv_parallel_dynamic_mem_eq { m with y := y2 } hA hc o2 hy2 c hcs ho2
  · exact spmv_parallel_dynamic_mem_none m T s order hT
  · exact spmv_parallel_dynamic_mem_none _ T s order hT

theorem spmv_kernels_frame_witness :
    exampleStore.Valid ∧
    (∃ y, y = (List.range exampleStore.num_rows.toNat).map (row_sum exampleStore [1, 1, 1]) ∧
      spmv_sequential_mem { A := exampleStore, x := [1, 1, 1], y := [7, 7, 7] } =
        some { A := exampleStore, x := [1, 1, 1], y := y } ∧
      spmv_sequential_mem { A := exampleStore, x := [1, 1, 1], y := [8, 9, 10] } =
        some { A := exampleStore, x := [1, 1, 1], y := y } ∧
      spmv_parallel_static_mem { A := exampleStore, x := [1, 1, 1], y := [7, 7, 7] } [2, 0, 1] =
        some { A := exampleStore, x := [1, 1, 1], y := y } ∧
      spmv_parallel_static_mem { A := exampleStore, x := [1, 1, 1], y := [8, 9, 10] } [1, 2, 0] =
        some { A := exampleStore, x := [1, 1, 1], y := y } ∧
      spmv_parallel_dynamic_mem { A := exampleStore, x := [1, 1, 1], y := [7, 7, 7] } 1 0
        [0] = some { A := exampleStore, x := [1, 1, 1], y := y } ∧
      spmv_parallel_dynamic_mem { A := exampleStore, x := [1, 1, 1], y := [8, 9, 10] } 1 0
        [0] = some { A := exampleStore, x := [1, 1, 1], y := y }) ∧
    spmv_parallel_dynamic_mem { A := exampleStore, x := [1, 1, 1], y := [7, 7, 7] } 2 0 [0] =
      none := by
  have h10 : chunk_size exampleStore.num_rows 1 = some 10 := by decide
  obtain ⟨⟨y, c, hy, h1, h2, h3, h4, hc, hd⟩, hn⟩ :=
    spmv_kernels_frame { A := exampleStore, x := [1, 1, 1], y := [7, 7, 7] } [8, 9, 10]
      [2, 0, 1] [1, 2, 0] (by decide) (by decide) (by decide) (by decide) (by decide)
      (by decide)
  simp only at hc
  rw [h10] at hc
  cases hc
  exact ⟨by decide, ⟨y, hy, h1, h2, h3, h4, (hd [0] [0] (by decide) (by decide)).1,
    (hd [0] [0] (by decide) (by decide)).2⟩, (hn 2 0 [0] (by decide)).1⟩

/-- C23, as the code has it: with a team of one thread the loop directive of
`spmv_parallel_dynamic` receives the chunk size `C` the thread computed
(`C ≥ 10`), and the rows the kernel runs are those of the chunks
`[k * C, min((k + 1) * C, num_rows))` in the order in which the chunks are handed
out; the chunks `k = 0 .. ceil(num_rows / C) - 1` taken in order are the rows
`0 .. num_rows - 1`, each once; every row belongs to exactly one chunk; two
different chunks share no row; every chunk but possibly the last has exactly `C`
rows; the rows of a chunk are ascending; and handing the chunks out in any order
visits every row once.  With two or more threads no chunk size is defined for
the loop directive and the rows the kernel runs are not determined. -/
theorem dynamic_schedule_chunks (num_rows : Int) :
    (∃ c, chunk_size num_rows 1 = some c ∧
      (schedule_chunk_size num_rows 1 0 = some c ∧ 10 ≤ c ∧
        (∀ order, dynamic_schedule num_rows 1 0 order =
          some (order.flatMap (dynamic_chunk c.toNat num_rows.toNat))) ∧
        (∀ (α : Type) [Zero α] [Add α] [Mul α] (A : CSRMatrix α) (x y : List α)
            (order : List Nat), A.num_rows = num_rows →
          spmv_parallel_dynamic A x y 1 0 order =
            omp_for (spmv_row A x)
              (order.flatMap (dynamic_chunk c.toNat num_rows.toNat)) y) ∧
        dynamic_schedule num_rows 1 0
            (List.range (num_dynamic_chunks c.toNat num_rows.toNat)) =
          some (List.range num_rows.toNat)) ∧
      ((∀ r, r < num_rows.toNat →
          ∃ k, (k < num_dynamic_chunks c.toNat num_rows.toNat ∧
              r ∈ dynamic_chunk c.toNat num_rows.toNat k) ∧
            ∀ k2, r ∈ dynamic_chunk c.toNat num_rows.toNat k2 → k2 = k) ∧
        (∀ k1 k2, k1 ≠ k2 → List.Disjoint (dynamic_chunk c.toNat num_rows.toNat k1)
          (dynamic_chunk c.toNat num_rows.toNat k2)) ∧
        (∀ k, k + 1 < num_dynamic_chunks c.toNat num_rows.toNat →
          (dynamic_chunk c.toNat num_rows.toNat k).length = c.toNat) ∧
        (∀ k, (dynamic_chunk c.toNat num_rows.toNat k).Pairwise (fun a b => a < b)) ∧
        (∀ order : List Nat,
          order.Perm (List.range (num_dynamic_chunks c.toNat num_rows.toNat)) →
          ∃ rows, dynamic_schedule num_rows 1 0 order = some rows ∧
            rows.Perm (List.range num_rows.toNat)))) ∧
    (∀ (T : Int) (single_thread : Nat) (order : List Nat), 2 ≤ T →
      schedule_chunk_size num_rows T single_thread = none ∧
      dynamic_schedule num_rows T single_thread order = none) := by
  obtain ⟨c, hc⟩ := chunk_size_one_isSome num_rows
  have hrange := chunk_size_range num_rows 1 c hc
  have hC : 1 ≤ c.toNat := by omega
  have hbind := bind_dynamic_chunk c.toNat num_rows.toNat hC
  refine ⟨⟨c, hc,
    ⟨?_, hrange.1, fun order => dynamic_schedule_one num_rows c order hc, ?_, ?_⟩,
    ⟨?_, ?_, ?_, ?_, ?_⟩⟩, fun T s order hT =>
      ⟨schedule_chunk_size_none num_rows T s hT, dynamic_schedule_none num_rows T s order hT⟩⟩
  · rw [schedule_chunk_size_one, hc]
  · intro α _ _ _ A x y order hn
    subst hn
    exact spmv_parallel_dynamic_one A x y c order hc
  · rw [dynamic_schedule_one num_rows c _ hc, hbind]
  · intro r hr
    refine ⟨r / c.toNat, ⟨chunk_index_lt _ _ r hC hr, mem_own_chunk _ _ r hC hr⟩, ?_⟩
    intro k2 h2
    rw [mem_dynamic_chunk] at h2
    exact chunk_index_unique _ k2 r h2.1 h2.2.1
  · intro k1 k2 hne
    exact dynamic_chunk_disjoint _ _ k1 k2 hne
  · intro k hk
    exact dynamic_chunk_length _ _ k hC hk
  · intro k
    unfold dynamic_chunk
    exact List.pairwise_lt_range' _ _
  · intro order ho
    exact ⟨_, dynamic_schedule_one num_rows c order hc,
      dynamic_rows_perm num_rows 1 c order hc ho⟩

theorem dynamic_schedule_chunks_witness :
    (chunk_size 25 1 = some 10 ∧ schedule_chunk_size 25 1 0 = some 10 ∧
      dynamic_schedule 25 1 0 [2, 0, 1] =
        some [20, 21, 22, 23, 24, 0, 1, 2, 3, 4, 5, 6, 7, 8, 9,
          10, 11, 12, 13, 14, 15, 16, 17, 18, 19] ∧
      dynamic_chunk 10 25 2 = [20, 21, 22, 23, 24] ∧ num_dynamic_chunks 10 25 = 3) ∧
    (∃ rows, dynamic_schedule 25 1 0 [2, 0, 1] = some rows ∧
      rows.Perm (List.range (25 : Int).toNat)) ∧
    (schedule_chunk_size 25 2 0 = none ∧ dynamic_schedule 25 2 0 [2, 0, 1] = none) := by
  have h10 : chunk_size 25 1 = some 10 := by decide
  obtain ⟨⟨c, hc, _, _, _, _, _, hperm⟩, hn⟩ := dynamic_schedule_chunks 25
  rw [h10] at hc
  cases hc
  exact ⟨by decide, hperm [2, 0, 1] (by decide), hn 2 0 [2, 0, 1] (by decide)⟩

/-! ## Claims on linearity -/

/-- C26: over exact arithmetic (any commutative semiring), for every store that
satisfies the structural invariant, all `x`, `z` of length `num_cols` and all
scalars `a`, `b`, `spmv_sequential` maps `a * x + b * z` to `a` times its result
on `x` plus `b` times its result on `z`, element by element; the zero vector
gives the zero vector; and a vector of ones gives in `y[r]` the sum of the values
stored for row `r`. -/
theorem spmv_sequential_linear {α : Type} [CommSemiring α] (A : CSRMatrix α) (a b : α)
    (x z y0 : List α) (hA : A.Valid) (hx : (x.length : Int) = A.num_cols)
    (hz : (z.length : Int) = A.num_cols) (hy : y0.length = A.num_rows.toNat) :
    (∃ yx yz, spmv_sequential A x y0 = some yx ∧ spmv_sequential A z y0 = some yz ∧
      spmv_sequential A (lin_comb a x b z) y0 = some (lin_comb a yx b yz)) ∧
    spmv_sequential A (List.replicate A.num_cols.toNat 0) y0 =
      some (List.replicate A.num_rows.toNat 0) ∧
    spmv_sequential A (List.replicate A.num_cols.toNat 1) y0 =
      some ((List.range A.num_rows.toNat).map
        (fun r => ((row_entries A r).map Prod.snd).sum)) := by
  have hxz : x.length = z.length := by omega
  have hcols : ∀ c ∈ A.col_indices, 0 ≤ c ∧ c < A.num_cols := hA.2.2.2.2.2.2.2.2
  have hlen : ∀ (w : List α), (w.length : Int) = A.num_cols ∨ w.length = A.num_cols.toNat →
      ∀ c ∈ A.col_indices, 0 ≤ c ∧ c.toNat < w.length := by
    intro w hw c hcm
    have := hcols c hcm
    rcases hw with hw | hw <;> omega
  refine ⟨⟨_, _, spmv_sequential_eq_map A x hA (hlen x (Or.inl hx)) y0 hy,
    spmv_sequential_eq_map A z hA (hlen z (Or.inl hz)) y0 hy, ?_⟩, ?_, ?_⟩
  · rw [spmv_sequential_eq_map A _ hA
      (hlen _ (Or.inl (by rw [lin_comb_length a b x z hxz]; exact hx))) y0 hy]
    congr 1
    apply List.ext_getElem?
    intro k
    simp only [lin_comb, List.getElem?_zipWith, List.getElem?_map]
    by_cases hk : k < A.num_rows.toNat
    · simp only [List.getElem?_range hk, Option.map_some']
      have := row_sum_lin_comb A a b x z hxz k
      simp only [lin_comb] at this
      rw [this]
    · have : (List.range A.num_rows.toNat)[k]? = none := by
        rw [List.getElem?_eq_none]; simp; omega
      simp [this]
  · rw [spmv_sequential_eq_map A _ hA (hlen _ (Or.inr (by simp))) y0 hy]
    congr 1
    apply List.ext_getElem?
    intro k
    by_cases hk : k < A.num_rows.toNat
    · simp [List.getElem?_range hk, List.getElem?_replicate, hk, row_sum_zeros]
    · have : (List.range A.num_rows.toNat)[k]? = none := by
        rw [List.getElem?_eq_none]; simp; omega
      simp [this, List.getElem?_replicate, hk]
  · rw [spmv_sequential_eq_map A _ hA (hlen _ (Or.inr (by simp))) y0 hy]
    congr 1
    apply List.map_congr_left
    intro r hr
    rw [List.mem_range] at hr
    apply row_sum_ones A _ hA (hlen _ (Or.inr (by simp))) _ r hr
    intro v hv
    exact (List.mem_replicate.1 hv).2

theorem spmv_sequential_linear_witness :
    exampleStore.Valid ∧
    ∃ yx yz, spmv_sequential exampleStore [1, 2, 3] [0, 0, 0] = some yx ∧
      spmv_sequential exampleStore [0, 1, 0] [0, 0, 0] = some yz ∧
      spmv_sequential exampleStore (lin_comb 2 [1, 2, 3] 3 [0, 1, 0]) [0, 0, 0] =
        some (lin_comb 2 yx 3 yz) :=
  ⟨by decide,
   (spmv_sequential_linear exampleStore 2 3 [1, 2, 3] [0, 1, 0] [0, 0, 0] (by decide)
     (by decide) (by decide) (by decide)).1⟩

/-! ## The companion programs

From here on `wrap32` is kept folded: the proofs below use it through `wrap32_of_range`
only, and unfold it by name where a concrete value is computed. -/

attribute [irreducible] wrap32

/-! ## File encryption: what the loops compute -/

namespace Encryption

theorem xorAt_length (key : Nat) (d : List Nat) (i : Nat) :
    (xorAt key d i).length = d.length := by
  simp [xorAt]

theorem xorAll_length (key : Nat) (idxs : List Nat) :
    ∀ d : List Nat, (xorAll key idxs d).length = d.length := by
  induction idxs with
  | nil => intro d; rfl
  | cons i t ih =>
    intro d
    show (xorAll key t (xorAt key d i)).length = d.length
    rw [ih, xorAt_length]

theorem xorAll_append (key : Nat) (l1 l2 : List Nat) (d : List Nat) :
    xorAll key (l1 ++ l2) d = xorAll key l2 (xorAll key l1 d) := by
  simp [xorAll, List.foldl_append]

theorem xorAt_getElem? (key : Nat) (d : List Nat) (i k : Nat) :
    (xorAt key d i)[k]? = if k = i then d[k]?.map (fun b => xor_byte b key) else d[k]? := by
  unfold xorAt
  rw [List.getElem?_set]
  by_cases hki : k = i
  · subst hki
    by_cases hk : k < d.length
    · simp [hk, List.getD_eq_getElem?_getD, List.getElem?_eq_getElem hk]
    · simp [hk, List.getElem?_eq_none (Nat.le_of_not_lt hk)]
  · have : ¬ i = k := fun h => hki h.symm
    simp [hki, this]

theorem xorAll_getElem? (key : Nat) (idxs : List Nat) :
    ∀ (d : List Nat) (k : Nat), idxs.Nodup →
      (xorAll key idxs d)[k]? =
        if k ∈ idxs then d[k]?.map (fun b => xor_byte b key) else d[k]? := by
  induction idxs with
  | nil => intro d k _; simp [xorAll]
  | cons i t ih =>
    intro d k hnd
    rw [List.nodup_cons] at hnd
    show (xorAll key t (xorAt key d i))[k]? = _
    rw [ih _ k hnd.2, xorAt_getElem?]
    by_cases hki : k = i
    · subst hki
      simp [hnd.1]
    · simp [hki]

theorem xorAll_perm_range (key : Nat) (idxs : List Nat) (d : List Nat)
    (hp : idxs.Perm (List.range d.length)) :
    xorAll key idxs d = d.map (fun b => xor_byte b key) := by
  apply List.ext_getElem?
  intro k
  rw [xorAll_getElem? key idxs d k (hp.nodup_iff.mpr (List.nodup_range _))]
  by_cases hk : k < d.length
  · have : k ∈ idxs := hp.mem_iff.mpr (List.mem_range.mpr hk)
    simp [this]
  · have : k ∉ idxs := fun h => hk (List.mem_range.mp (hp.mem_iff.mp h))
    simp [this, List.getElem?_eq_none (Nat.le_of_not_lt hk)]

theorem for_loop_xor (key : Nat) :
    ∀ (n a : Nat) (d : List Nat), a + n ≤ d.length →
      for_loop (fun d i => (readAt d i).bind (fun b => writeAt d i (xor_byte b key)))
        n (a : Int) d = some (xorAll key (List.range' a n) d) := by
  intro n
  induction n with
  | zero => intro a d _; rfl
  | succ n ih =>
    intro a d h
    have ha : a < d.length := by omega
    have hstep : (readAt d (a : Int)).bind (fun b => writeAt d (a : Int) (xor_byte b key))
        = some (xorAt key d a) := by
      simp [readAt_natCast, writeAt_natCast, List.getElem?_eq_getElem ha, ha, xorAt,
        List.getD_eq_getElem?_getD]
    show ((readAt d (a : Int)).bind (fun b => writeAt d (a : Int) (xor_byte b key))).bind _ = _
    rw [hstep]
    show for_loop _ n ((a : Int) + 1) (xorAt key d a) = _
    have := ih (a + 1) (xorAt key d a) (by rw [xorAt_length]; omega)
    rw [Nat.cast_add, Nat.cast_one] at this
    rw [this]
    rfl

theorem xor_range_full (key : Nat) (buffer : List Nat) :
    xor_range key 0 (buffer.length : Int) buffer = some (buffer.map (fun b => xor_byte b key)) := by
  unfold xor_range
  have := for_loop_xor key buffer.length 0 buffer (by omega)
  rw [Nat.cast_zero] at this
  rw [sub_zero, Int.toNat_natCast, this, xorAll_perm_range]
  rw [List.range_eq_range']

theorem encrypt_sequential_loop_eq (key : Nat) :
    ∀ (fuel : Nat) (fin fout : List Nat), fin.length < fuel →
      encrypt_sequential_loop key fuel fin fout =
        some (fout ++ fin.map (fun b => xor_byte b key)) := by
  intro fuel
  induction fuel with
  | zero => intro fin fout h; omega
  | succ fuel ih =>
    intro fin fout h
    unfold encrypt_sequential_loop
    by_cases hnil : fin = []
    · subst hnil; simp
    · have hpos : 0 < (fin.take 4096).length := by
        rw [List.length_take]
        have : 0 < fin.length := List.length_pos.mpr hnil
        omega
      have hpos2 : ((fin.take 4096).length : Int) > 0 := by exact_mod_cast hpos
      simp only [hpos2, if_true]
      rw [xor_range_full]
      simp only [Option.some_bind]
      rw [ih _ _ (by rw [List.length_drop]; have : 0 < fin.length := List.length_pos.mpr hnil; omega)]
      rw [List.append_assoc, ← List.map_append, List.take_append_drop]

theorem encrypt_sequential_eq (input : List Nat) (key : Nat) :
    encrypt_sequential input key = some (input.map (fun b => xor_byte b key)) := by
  unfold encrypt_sequential
  rw [encrypt_sequential_loop_eq key _ _ _ (by omega)]
  simp

theorem chunk_positions_eq (C n c : Nat) : chunk_positions C n c = dynamic_chunk C n c := by
  unfold chunk_positions dynamic_chunk
  rw [Nat.add_mul, Nat.one_mul]

theorem encrypt_chunk_eq (key : Nat) (C : Nat) (d : List Nat) (c : Nat) :
    encrypt_chunk key (C : Int) (d.length : Int) d c =
      some (xorAll key (chunk_positions C d.length c) d) := by
  unfold encrypt_chunk xor_range chunk_positions
  simp only []
  have hcast : ((c : Int) * (C : Int)) = ((c * C : Nat) : Int) := by push_cast; rfl
  rw [hcast]
  generalize c * C = m
  have hn : ((if (m : Int) + (C : Int) > (d.length : Int) then (d.length : Int)
      else (m : Int) + (C : Int)) - (m : Int)).toNat = min (m + C) d.length - m := by
    by_cases h : (m : Int) + (C : Int) > (d.length : Int)
    · rw [if_pos h]; omega
    · rw [if_neg h]; omega
  rw [hn]
  by_cases hm : m ≤ d.length
  · apply for_loop_xor
    clear hn hcast
    omega
  · have h0 : min (m + C) d.length - m = 0 := by clear hn hcast; omega
    rw [h0]
    rfl

theorem omp_loop_encrypt (key : Nat) (C : Nat) (sched : List Nat) :
    ∀ d : List Nat,
      omp_loop (encrypt_chunk key (C : Int) (d.length : Int)) sched d =
        some (xorAll key (sched.flatMap (chunk_positions C d.length)) d) := by
  induction sched with
  | nil => intro d; rfl
  | cons c t ih =>
    intro d
    show (encrypt_chunk key (C : Int) (d.length : Int) d c).bind _ = _
    rw [encrypt_chunk_eq]
    simp only [Option.some_bind]
    have hl := xorAll_length key (chunk_positions C d.length c) d
    have := ih (xorAll key (chunk_positions C d.length c) d)
    rw [hl] at this
    rw [this, List.flatMap_cons, xorAll_append]

theorem num_chunks_eq (n C : Nat) (hC : 1 ≤ C) (hfit : (n + C - 1) / C ≤ 2147483647) :
    num_chunks (n : Int) (C : Int) = some (((n + C - 1) / C : Nat) : Int) := by
  unfold num_chunks
  have hC0 : ¬ ((C : Int) = 0) := by omega
  rw [if_neg hC0]
  have h1 : ((n : Int) + (C : Int) - 1) = ((n + C - 1 : Nat) : Int) := by omega
  have h2 : Int.tdiv ((n + C - 1 : Nat) : Int) (C : Int) = (((n + C - 1) / C : Nat) : Int) := by
    rw [Int.tdiv_eq_ediv (Int.ofNat_nonneg _) (Int.ofNat_nonneg _)]
    exact (Int.natCast_div _ _).symm
  have hz : (0 : Int) ≤ (((n + C - 1) / C : Nat) : Int) := Int.ofNat_nonneg _
  have hz2 : (((n + C - 1) / C : Nat) : Int) ≤ 2147483647 := by exact_mod_cast hfit
  rw [h1, h2, wrap32_of_range _ (by linarith) hz2]

theorem encrypt_parallel_eq (input : List Nat) (key : Nat) (C : Nat) (sched : List Nat)
    (hC : 1 ≤ C) (hfit : (input.length + C - 1) / C ≤ 2147483647)
    (hs : sched.Perm (List.range ((input.length + C - 1) / C))) :
    encrypt_parallel input key (C : Int) sched = some (input.map (fun b => xor_byte b key)) := by
  unfold encrypt_parallel
  simp only []
  rw [num_chunks_eq _ _ hC hfit]
  simp only [Option.some_bind]
  rw [omp_loop_encrypt, xorAll_perm_range]
  have h1 := hs.flatMap_right (chunk_positions C input.length)
  have h2 : (List.range ((input.length + C - 1) / C)).flatMap (chunk_positions C input.length)
      = List.range input.length := by
    have := bind_dynamic_chunk C input.length hC
    unfold num_dynamic_chunks at this
    rw [← this]
    congr 1
    funext c
    exact chunk_positions_eq C input.length c
  rw [h2] at h1
  exact h1

theorem xor_byte_of_bytes (b key : Nat) (hb : b < 256) (hk : key < 256) :
    xor_byte b key = b ^^^ key := by
  unfold xor_byte
  exact Nat.mod_eq_of_lt (Nat.xor_lt_two_pow (n := 8) hb hk)

theorem verify_loop_pass (key : Nat) (hk : key < 256) :
    ∀ (original : List Nat) (pos : Int), (∀ b ∈ original, b < 256) →
      verify_loop key original (original.map (fun b => xor_byte b key)) pos 0 [] = (0, []) := by
  intro original
  induction original with
  | nil => intro pos _; rfl
  | cons o t ih =>
    intro pos hb
    have ho : xor_byte o key = o ^^^ key :=
      xor_byte_of_bytes o key (hb o (List.mem_cons_self _ _)) hk
    simp only [List.map_cons, verify_loop, ho, ne_eq, not_true_eq_false, if_false]
    exact ih (pos + 1) (fun b hb1 => hb b (List.mem_cons_of_mem _ hb1))

theorem verify_encryption_pass (original : List Nat) (key : Nat) (hk : key < 256)
    (hb : ∀ b ∈ original, b < 256) :
    verify_encryption original (original.map (fun b => xor_byte b key)) key = (1, []) := by
  unfold verify_encryption
  rw [verify_loop_pass key hk original 0 hb]
  rfl

theorem ceil_div_cast (n C : Nat) (hC : 1 ≤ C) :
    ((n : Int) + (C : Int) - 1) / (C : Int) = (((n + C - 1) / C : Nat) : Int) := by
  have h1 : ((n : Int) + (C : Int) - 1) = ((n + C - 1 : Nat) : Int) := by omega
  rw [h1]
  exact (Int.natCast_div _ _).symm

theorem encrypt_parallel_nil (input : List Nat) (key : Nat) (chunk_size nc : Int)
    (h : num_chunks input.length chunk_size = some nc) :
    encrypt_parallel input key chunk_size [] = some input := by
  unfold encrypt_parallel
  simp only []
  rw [h]
  rfl

/-- C30 (amended): for every input byte sequence of length `n`, every key and every
`chunk_size ≥ 1` for which the number of chunks `ceil(n / chunk_size)` fits an `int`,
`encrypt_parallel` computes that number of chunks; every byte position lies in exactly one
chunk `[c * chunk_size, min((c + 1) * chunk_size, n))`; the chunks taken in any order of the
worksharing loop visit every position once; `encrypt_parallel` and `encrypt_sequential` both
return the input with every byte XORed with the key, an output of length `n`; and
`verify_encryption` on the input and that output returns 1 and prints nothing. -/
theorem encrypt_parallel_eq_sequential (input : List Nat) (key : Nat) (chunk_size : Int)
    (sched : List Nat) (hb : ∀ b ∈ input, b < 256) (hk : key < 256) (hcs : 1 ≤ chunk_size)
    (hfit : ((input.length : Int) + chunk_size - 1) / chunk_size ≤ INT_MAX)
    (hs : sched.Perm
      (List.range (((input.length : Int) + chunk_size - 1) / chunk_size).toNat)) :
    num_chunks input.length chunk_size =
      some (((input.length : Int) + chunk_size - 1) / chunk_size) ∧
    (∀ i, i < input.length →
      ∃ c, (c < (((input.length : Int) + chunk_size - 1) / chunk_size).toNat ∧
          i ∈ chunk_positions chunk_size.toNat input.length c) ∧
        ∀ c2, i ∈ chunk_positions chunk_size.toNat input.length c2 → c2 = c) ∧
    (sched.flatMap (chunk_positions chunk_size.toNat input.length)).Perm
      (List.range input.length) ∧
    encrypt_parallel input key chunk_size sched = some (input.map (fun b => b ^^^ key)) ∧
    encrypt_sequential input key = some (input.map (fun b => b ^^^ key)) ∧
    (input.map (fun b => b ^^^ key)).length = input.length ∧
    verify_encryption input (input.map (fun b => b ^^^ key)) key = (1, []) := by
  obtain ⟨C, rfl⟩ := Int.eq_ofNat_of_zero_le (show 0 ≤ chunk_size by omega)
  have hC : 1 ≤ C := by omega
  rw [ceil_div_cast _ _ hC] at hfit hs ⊢
  simp only [Int.toNat_natCast] at hs ⊢
  have hfit2 : (input.length + C - 1) / C ≤ 2147483647 := by
    unfold INT_MAX at hfit
    exact_mod_cast hfit
  have hmap : input.map (fun b => xor_byte b key) = input.map (fun b => b ^^^ key) :=
    List.map_congr_left (fun b hbm => xor_byte_of_bytes b key (hb b hbm) hk)
  have hcover : (List.range ((input.length + C - 1) / C)).flatMap
      (chunk_positions C input.length) = List.range input.length := by
    have := bind_dynamic_chunk C input.length hC
    unfold num_dynamic_chunks at this
    rw [← this]
    congr 1
    funext c
    exact chunk_positions_eq C input.length c
  refine ⟨num_chunks_eq _ _ hC hfit2, ?_, ?_, ?_, ?_, by simp, ?_⟩
  · intro i hi
    refine ⟨i / C, ⟨chunk_index_lt C _ i hC hi, ?_⟩, ?_⟩
    · rw [chunk_positions_eq]
      exact mem_own_chunk C _ i hC hi
    · intro c2 h2
      rw [chunk_positions_eq, mem_dynamic_chunk] at h2
      exact chunk_index_unique C c2 i h2.1 h2.2.1
  · rw [← hcover]
    exact hs.flatMap_right _
  · rw [← hmap]
    exact encrypt_parallel_eq input key C sched hC hfit2 hs
  · rw [← hmap]
    exact encrypt_sequential_eq input key
  · rw [← hmap]
    exact verify_encryption_pass input key hk hb

theorem encrypt_parallel_eq_sequential_witness :
    encrypt_parallel [1, 2, 3, 4, 5] 165 2 [2, 0, 1] = some [164, 167, 166, 161, 160] ∧
    encrypt_sequential [1, 2, 3, 4, 5] 165 = some [164, 167, 166, 161, 160] ∧
    verify_encryption [1, 2, 3, 4, 5] [164, 167, 166, 161, 160] 165 = (1, []) :=
  have h := encrypt_parallel_eq_sequential [1, 2, 3, 4, 5] 165 2 [2, 0, 1] (by decide)
    (by decide) (by decide) (by decide) (by decide)
  ⟨h.2.2.2.1, h.2.2.2.2.1, h.2.2.2.2.2.2⟩

/-- C30 as stated fails: a file of `2^31` zero bytes with `chunk_size = 1` has
`2^31` chunks, a number that does not fit the `int num_chunks`; converted to `int` it is
`-2^31`, the chunk loop runs no iteration (the empty schedule is the only one), and
`encrypt_parallel` writes the input back unchanged: byte 0 is 0, not `0 XOR 0xA5 = 165`. -/
theorem encrypt_parallel_counterexample :
    (1 : Int) ≤ 1 ∧
    num_chunks ((List.replicate 2147483648 0).length : Int) 1 = some (-2147483648) ∧
    List.range (-2147483648 : Int).toNat = [] ∧
    encrypt_parallel (List.replicate 2147483648 0) 165 1 [] =
      some (List.replicate 2147483648 0) ∧
    (List.replicate 2147483648 0)[0]? = some 0 ∧
    ((List.replicate 2147483648 0).map (fun b => b ^^^ 165))[0]? = some 165 := by
  have hnc : num_chunks ((2147483648 : Nat) : Int) 1 = some (-2147483648) := by
    unfold num_chunks wrap32
    decide
  refine ⟨by decide, ?_, by decide, ?_, ?_, ?_⟩
  · rw [List.length_replicate]; exact hnc
  · exact encrypt_parallel_nil _ 165 1 (-2147483648) (by rw [List.length_replicate]; exact hnc)
  · rw [List.getElem?_replicate, if_pos (by decide)]
  · rw [List.map_replicate, List.getElem?_replicate, if_pos (by decide)]
    rfl

end Encryption

/-! ## The loops of the companion programs: lemmas -/

theorem for_loop_eq_omp_loop {σ : Type} (body : σ → Int → Option σ) :
    ∀ (n a : Nat) (s : σ),
      for_loop body n (a : Int) s =
        omp_loop (fun s (i : Nat) => body s (i : Int)) (List.range' a n) s := by
  intro n
  induction n with
  | zero => intro a s; rfl
  | succ n ih =>
    intro a s
    show (body s (a : Int)).bind _ = (body s (a : Int)).bind _
    congr 1
    funext s1
    have := ih (a + 1) s1
    rw [Nat.cast_add, Nat.cast_one] at this
    exact this

theorem omp_loop_append {σ ι : Type} (body : σ → ι → Option σ) (l1 l2 : List ι) :
    ∀ s : σ, omp_loop body (l1 ++ l2) s = (omp_loop body l1 s).bind (omp_loop body l2) := by
  induction l1 with
  | nil => intro s; rfl
  | cons k t ih =>
    intro s
    show (body s k).bind _ = ((body s k).bind _).bind _
    cases h : body s k with
    | none => rfl
    | some s1 => exact ih s1

theorem getD_set_int (h : List Int) (d b : Nat) (v : Int) (hd : d < h.length) :
    (h.set d v).getD b 0 = if b = d then v else h.getD b 0 := by
  rw [List.getD_eq_getElem?_getD, List.getD_eq_getElem?_getD, List.getElem?_set]
  by_cases hbd : b = d
  · subst hbd; simp [hd]
  · have : ¬ d = b := fun e => hbd e.symm
    simp [hbd, this]

theorem map_getD_range (l : List Int) :
    (List.range l.length).map (fun i => l.getD i 0) = l := by
  apply List.ext_getElem?
  intro k
  by_cases hk : k < l.length
  · simp [List.getElem?_map, List.getElem?_range hk, List.getD_eq_getElem?_getD,
      List.getElem?_eq_getElem hk]
  · have hk2 : l.length ≤ k := Nat.le_of_not_lt hk
    rw [List.getElem?_eq_none hk2, List.getElem?_eq_none (by simpa using hk2)]

/-! ## Histogram: what the loops compute -/

namespace Histogram

theorem eq_map_of_getD (h : List Int) (f : Nat → Int) (hl : h.length = 10)
    (hf : ∀ b, b < 10 → h.getD b 0 = f b) : h = (List.range 10).map f := by
  have h1 := map_getD_range h
  rw [hl] at h1
  exact h1.symm.trans (List.map_congr_left (fun b hb => hf b (List.mem_range.mp hb)))

theorem memset_zero_bins (a : List Int) (ha : a.length = 10) :
    memset_zero a NUM_BINS = some (List.replicate 10 0) := by
  unfold memset_zero NUM_BINS
  have h1 : ((10 : Int).toNat) = 10 := rfl
  rw [h1, if_pos ⟨by decide, by omega⟩, List.drop_of_length_le (by omega)]
  rfl

theorem getD_replicate_zero (n b : Nat) : (List.replicate n (0 : Int)).getD b 0 = 0 := by
  rw [List.getD_eq_getElem?_getD, List.getElem?_replicate]
  split <;> rfl

theorem count_element_eq (data h : List Int) (i : Nat) (hi : i < data.length)
    (hd : ∀ d ∈ data, 0 ≤ d ∧ d ≤ 9) (hl : h.length = 10)
    (hb : ∀ b, b < 10 → 0 ≤ h.getD b 0 ∧ h.getD b 0 + 1 ≤ 2147483647) :
    count_element data h (i : Int) =
      some (h.set (data.getD i 0).toNat (h.getD (data.getD i 0).toNat 0 + 1)) := by
  unfold count_element
  have hdi := hd (data.getD i 0) (by
    rw [List.getD_eq_getElem?_getD, List.getElem?_eq_getElem hi]
    exact List.getElem_mem _)
  obtain ⟨d, hdd⟩ := Int.eq_ofNat_of_zero_le hdi.1
  have hd9 : d < 10 := by omega
  have hrd : readAt data (i : Int) = some (d : Int) := by
    rw [readAt_natCast, ← hdd, List.getD_eq_getElem?_getD, List.getElem?_eq_getElem hi]
    rfl
  rw [hrd, hdd]
  simp only [Option.some_bind, Int.toNat_natCast]
  have hdl : d < h.length := by omega
  have hrh : readAt h (d : Int) = some (h.getD d 0) := by
    rw [readAt_natCast, List.getD_eq_getElem?_getD, List.getElem?_eq_getElem hdl]
    rfl
  rw [hrh]
  simp only [Option.some_bind]
  have hbd := hb d hd9
  rw [wrap32_of_range _ (by omega) (by omega), writeAt_natCast, if_pos hdl]

theorem tally_cons (data : List Int) (i : Nat) (t : List Nat) (b : Nat) :
    tally data (i :: t) b = tally data t b + if data.getD i 0 = (b : Int) then 1 else 0 := by
  unfold tally
  rw [List.countP_cons]
  simp

theorem tally_le (data : List Int) (idxs : List Nat) (b : Nat) :
    tally data idxs b ≤ idxs.length :=
  List.countP_le_length _

theorem count_loop_eq (data : List Int) (hd : ∀ d ∈ data, 0 ≤ d ∧ d ≤ 9) :
    ∀ (idxs : List Nat) (h : List Int), h.length = 10 → (∀ i ∈ idxs, i < data.length) →
      (∀ b, b < 10 → 0 ≤ h.getD b 0 ∧ h.getD b 0 + idxs.length ≤ 2147483647) →
      ∃ h1, omp_loop (fun h (i : Nat) => count_element data h (i : Int)) idxs h = some h1 ∧
        h1.length = 10 ∧ ∀ b, b < 10 → h1.getD b 0 = h.getD b 0 + tally data idxs b := by
  intro idxs
  induction idxs with
  | nil =>
    intro h hl _ _
    exact ⟨h, rfl, hl, fun b _ => by simp [tally]⟩
  | cons i t ih =>
    intro h hl hi hb
    have hi0 : i < data.length := hi i (List.mem_cons_self _ _)
    have hdi := hd (data.getD i 0) (by
      rw [List.getD_eq_getElem?_getD, List.getElem?_eq_getElem hi0]
      exact List.getElem_mem _)
    have hstep := count_element_eq data h i hi0 hd hl (fun b hb9 => by
      have := hb b hb9
      simp only [List.length_cons, Nat.cast_add, Nat.cast_one] at this
      omega)
    have hdl : (data.getD i 0).toNat < h.length := by omega
    obtain ⟨h1, e1, l1, g1⟩ := ih (h.set (data.getD i 0).toNat
        (h.getD (data.getD i 0).toNat 0 + 1)) (by rw [List.length_set]; exact hl)
      (fun j hj => hi j (List.mem_cons_of_mem _ hj))
      (fun b hb9 => by
        have := hb b hb9
        simp only [List.length_cons, Nat.cast_add, Nat.cast_one] at this
        rw [getD_set_int _ _ _ _ hdl]
        split
        · rename_i e; rw [← e]; omega
        · omega)
    refine ⟨h1, ?_, l1, ?_⟩
    · show (count_element data h (i : Int)).bind _ = _
      rw [hstep]
      exact e1
    · intro b hb9
      rw [g1 b hb9, getD_set_int _ _ _ _ hdl, tally_cons]
      by_cases e : b = (data.getD i 0).toNat
      · have e2 : data.getD i 0 = (b : Int) := by omega
        rw [if_pos e, if_pos e2, ← e]
        push_cast
        ring
      · have e2 : ¬ data.getD i 0 = (b : Int) := by omega
        rw [if_neg e, if_neg e2]
        push_cast
        ring

theorem tally_range (data : List Int) (b : Nat) :
    tally data (List.range data.length) b = data.count (b : Int) := by
  unfold tally
  have h := List.countP_map (fun d : Int => decide (d = (b : Int)))
    (fun i => data.getD i 0) (List.range data.length)
  rw [map_getD_range] at h
  rw [List.count, ← List.countP_congr (l := data)
    (p := fun d : Int => decide (d = (b : Int))) (fun x _ => by simp), h]
  rfl

theorem tally_perm (data : List Int) (l1 l2 : List Nat) (b : Nat) (hp : l1.Perm l2) :
    tally data l1 b = tally data l2 b :=
  hp.countP_eq _

theorem tally_append (data : List Int) (l1 l2 : List Nat) (b : Nat) :
    tally data (l1 ++ l2) b = tally data l1 b + tally data l2 b := by
  unfold tally
  exact List.countP_append _ _ _

theorem merge_loop_eq (l : List Int) (hll : l.length = 10) :
    ∀ (n a : Nat) (h : List Int), a + n = 10 → h.length = 10 →
      (∀ b, a ≤ b → b < 10 → -2147483648 ≤ h.getD b 0 + l.getD b 0 ∧
        h.getD b 0 + l.getD b 0 ≤ 2147483647) →
      ∃ h1, for_loop (merge_bin l) n (a : Int) h = some h1 ∧ h1.length = 10 ∧
        ∀ b, b < 10 → h1.getD b 0 = if a ≤ b then h.getD b 0 + l.getD b 0 else h.getD b 0 := by
  intro n
  induction n with
  | zero =>
    intro a h ha hl _
    refine ⟨h, rfl, hl, fun b hb => ?_⟩
    rw [if_neg (by omega)]
  | succ n ih =>
    intro a h ha hl hb
    have hal : a < h.length := by omega
    have hall : a < l.length := by omega
    have hstep : merge_bin l h (a : Int) = some (h.set a (h.getD a 0 + l.getD a 0)) := by
      unfold merge_bin
      rw [readAt_natCast, readAt_natCast, List.getElem?_eq_getElem hal,
        List.getElem?_eq_getElem hall]
      simp only [Option.some_bind]
      have hh : h.getD a 0 = h[a] := by
        rw [List.getD_eq_getElem?_getD, List.getElem?_eq_getElem hal]; rfl
      have hl2 : l.getD a 0 = l[a] := by
        rw [List.getD_eq_getElem?_getD, List.getElem?_eq_getElem hall]; rfl
      have := hb a (Nat.le_refl _) (by omega)
      rw [← hh, ← hl2, wrap32_of_range _ this.1 this.2, writeAt_natCast, if_pos hal]
    obtain ⟨h1, e1, l1, g1⟩ := ih (a + 1) (h.set a (h.getD a 0 + l.getD a 0)) (by omega)
      (by rw [List.length_set]; exact hl) (fun b hab hb9 => by
        rw [getD_set_int _ _ _ _ hal, if_neg (by omega)]
        exact hb b (by omega) hb9)
    refine ⟨h1, ?_, l1, ?_⟩
    · show (merge_bin l h (a : Int)).bind _ = _
      rw [hstep]
      simp only [Option.some_bind]
      have := e1
      rw [Nat.cast_add, Nat.cast_one] at this
      exact this
    · intro b hb9
      rw [g1 b hb9, getD_set_int _ _ _ _ hal]
      by_cases h1 : b = a
      · subst h1
        rw [if_neg (by omega), if_pos rfl, if_pos (Nat.le_refl _)]
      · by_cases h2 : a ≤ b
        · rw [if_pos (by omega), if_neg h1, if_pos h2]
        · rw [if_neg (by omega), if_neg h1, if_neg h2]

theorem thread_run_eq (data : List Int) (hd : ∀ d ∈ data, 0 ≤ d ∧ d ≤ 9)
    (h : List Int) (share : List Nat) (hl : h.length = 10)
    (hi : ∀ i ∈ share, i < data.length) (hs : (share.length : Int) ≤ 2147483647)
    (hb : ∀ b, b < 10 → 0 ≤ h.getD b 0 ∧ h.getD b 0 + share.length ≤ 2147483647) :
    ∃ h1, thread_run data h share = some h1 ∧ h1.length = 10 ∧
      ∀ b, b < 10 → h1.getD b 0 = h.getD b 0 + tally data share b := by
  obtain ⟨loc, e1, l1, g1⟩ := count_loop_eq data hd share (List.replicate 10 0) (by simp) hi
    (fun b _ => by rw [getD_replicate_zero]; omega)
  have hloc : ∀ b, b < 10 → loc.getD b 0 = tally data share b := by
    intro b hb9
    rw [g1 b hb9, getD_replicate_zero, zero_add]
  obtain ⟨h1, e2, l2, g2⟩ := merge_loop_eq loc l1 10 0 h rfl hl (fun b _ hb9 => by
    have h1 := hb b hb9
    have h2 := tally_le data share b
    rw [hloc b hb9]
    omega)
  refine ⟨h1, ?_, l2, ?_⟩
  · unfold thread_run
    have hn : NUM_BINS.toNat = 10 := rfl
    rw [hn, e1]
    simp only [Option.some_bind]
    exact e2
  · intro b hb9
    rw [g2 b hb9, if_pos (Nat.zero_le _), hloc b hb9]

theorem threads_eq (data : List Int) (hd : ∀ d ∈ data, 0 ≤ d ∧ d ≤ 9) :
    ∀ (shares : List (List Nat)) (h : List Int), h.length = 10 →
      (∀ i ∈ shares.flatMap id, i < data.length) →
      (∀ b, b < 10 → 0 ≤ h.getD b 0 ∧
        h.getD b 0 + (shares.flatMap id).length ≤ 2147483647) →
      ∃ h1, omp_loop (thread_run data) shares h = some h1 ∧ h1.length = 10 ∧
        ∀ b, b < 10 → h1.getD b 0 = h.getD b 0 + tally data (shares.flatMap id) b := by
  intro shares
  induction shares with
  | nil =>
    intro h hl _ _
    exact ⟨h, rfl, hl, fun b _ => by simp [tally]⟩
  | cons s t ih =>
    intro h hl hi hb
    rw [List.flatMap_cons] at hi hb
    simp only [id, List.length_append, Nat.cast_add] at hb
    have hmem : ∀ i ∈ s, i < data.length := fun i his => hi i (List.mem_append_left _ his)
    obtain ⟨h1, e1, l1, g1⟩ := thread_run_eq data hd h s hl hmem
      (by have := hb 0 (by omega); omega)
      (fun b hb9 => by have := hb b hb9; omega)
    obtain ⟨h2, e2, l2, g2⟩ := ih h1 l1
      (fun i hit => hi i (List.mem_append_right _ hit))
      (fun b hb9 => by
        have h3 := hb b hb9
        have h4 := tally_le data s b
        rw [g1 b hb9]
        omega)
    refine ⟨h2, ?_, l2, ?_⟩
    · show (thread_run data h s).bind _ = _
      rw [e1]
      exact e2
    · intro b hb9
      rw [g2 b hb9, g1 b hb9, List.flatMap_cons, tally_append]
      simp only [id]
      push_cast
      ring

theorem histogram_sequential_eq (data h0 : List Int) (hd : ∀ d ∈ data, 0 ≤ d ∧ d ≤ 9)
    (hsize : (data.length : Int) ≤ 2147483647) (hl : h0.length = 10) :
    histogram_sequential data (data.length : Int) h0 = some (bin_counts data) := by
  unfold histogram_sequential
  rw [memset_zero_bins h0 hl]
  simp only [Option.some_bind, Int.toNat_natCast]
  have h := for_loop_eq_omp_loop (count_element data) data.length 0 (List.replicate 10 0)
  rw [Nat.cast_zero] at h
  rw [h, ← List.range_eq_range']
  obtain ⟨h1, e1, l1, g1⟩ := count_loop_eq data hd (List.range data.length)
    (List.replicate 10 0) (by simp) (fun i hi => List.mem_range.mp hi)
    (fun b _ => by rw [getD_replicate_zero, List.length_range]; omega)
  rw [e1]
  congr 1
  unfold bin_counts
  apply eq_map_of_getD h1 _ l1
  intro b hb9
  rw [g1 b hb9, getD_replicate_zero, zero_add, tally_range]

theorem histogram_parallel_reduction_eq (data h0 : List Int) (shares : List (List Nat))
    (hd : ∀ d ∈ data, 0 ≤ d ∧ d ≤ 9) (hsize : (data.length : Int) ≤ 2147483647)
    (hl : h0.length = 10) (hp : (shares.flatMap id).Perm (List.range data.length)) :
    histogram_parallel_reduction data (data.length : Int) h0 shares =
      some (bin_counts data) := by
  unfold histogram_parallel_reduction
  rw [memset_zero_bins h0 hl]
  simp only [Option.some_bind]
  obtain ⟨h1, e1, l1, g1⟩ := threads_eq data hd shares (List.replicate 10 0) (by simp)
    (fun i hi => List.mem_range.mp (hp.mem_iff.mp hi))
    (fun b _ => by rw [getD_replicate_zero, hp.length_eq, List.length_range]; omega)
  rw [e1]
  congr 1
  unfold bin_counts
  apply eq_map_of_getD h1 _ l1
  intro b hb9
  rw [g1 b hb9, getD_replicate_zero, zero_add, tally_perm data _ _ b hp, tally_range]

theorem verify_loop_same (h : List Int) :
    ∀ (n a : Nat), a + n ≤ h.length →
      for_loop (verify_bin h h) n (a : Int) (0, []) = some (0, []) := by
  intro n
  induction n with
  | zero => intro a _; rfl
  | succ n ih =>
    intro a ha
    have hal : a < h.length := by omega
    have hstep : verify_bin h h (0, []) (a : Int) = some (0, []) := by
      unfold verify_bin
      rw [readAt_natCast, List.getElem?_eq_getElem hal]
      simp
    show (verify_bin h h (0, []) (a : Int)).bind _ = _
    rw [hstep]
    have := ih (a + 1) (by omega)
    rw [Nat.cast_add, Nat.cast_one] at this
    exact this

theorem verify_histograms_same (h : List Int) (hl : h.length = 10) :
    verify_histograms h h = some (1, []) := by
  unfold verify_histograms
  have hn : NUM_BINS.toNat = 10 := rfl
  have := verify_loop_same h 10 0 (by omega)
  rw [Nat.cast_zero] at this
  rw [hn, this]
  rfl

theorem count_sum_cons (d : Int) (t : List Int) (hd : 0 ≤ d ∧ d ≤ 9) :
    (bin_counts (d :: t)).sum = (bin_counts t).sum + 1 := by
  obtain ⟨k, rfl⟩ := Int.eq_ofNat_of_zero_le hd.1
  have hk : k < 10 := by omega
  unfold bin_counts
  interval_cases k <;> simp [List.range_succ, List.count_cons] <;> ring

theorem bin_counts_sum (data : List Int) (hd : ∀ d ∈ data, 0 ≤ d ∧ d ≤ 9) :
    (bin_counts data).sum = data.length := by
  induction data with
  | nil => simp [bin_counts]
  | cons d t ih =>
    rw [count_sum_cons d t (hd d (List.mem_cons_self _ _)),
      ih (fun x hx => hd x (List.mem_cons_of_mem _ hx))]
    simp

/-- C29: for every data array whose length `size` is an `int` value and whose elements all
lie in `[0, 9]`, every histogram array of ten cells holding anything before the call, and
every partition `shares` of the indices among the worker threads (in any order within and
between the threads), `histogram_sequential` and `histogram_parallel_reduction` both return
the same ten bins, bin `b` being the number of indices `i` with `data[i] = b`; the bins sum
to `size`; and `verify_histograms` on the two results returns 1 and prints nothing. -/
theorem histogram_parallel_eq_sequential (data h0 h0par : List Int)
    (shares : List (List Nat)) (hd : ∀ d ∈ data, 0 ≤ d ∧ d ≤ 9)
    (hsize : (data.length : Int) ≤ INT_MAX) (hl : h0.length = 10)
    (hlpar : h0par.length = 10)
    (hp : (shares.flatMap id).Perm (List.range data.length)) :
    histogram_sequential data (data.length : Int) h0 = some (bin_counts data) ∧
    histogram_parallel_reduction data (data.length : Int) h0par shares =
      some (bin_counts data) ∧
    (∀ b : Nat, b < 10 → (bin_counts data)[b]? = some ((data.count (b : Int) : Nat) : Int)) ∧
    (bin_counts data).sum = data.length ∧
    verify_histograms (bin_counts data) (bin_counts data) = some (1, []) := by
  refine ⟨histogram_sequential_eq data h0 hd hsize hl,
    histogram_parallel_reduction_eq data h0par shares hd hsize hlpar hp, ?_,
    bin_counts_sum data hd, verify_histograms_same _ (by simp [bin_counts])⟩
  intro b hb
  unfold bin_counts
  rw [List.getElem?_map, List.getElem?_range hb]
  rfl

theorem histogram_parallel_eq_sequential_witness :
    histogram_sequential [3, 1, 3, 9, 0] 5 (List.replicate 10 7) =
      some (bin_counts [3, 1, 3, 9, 0]) ∧
    histogram_parallel_reduction [3, 1, 3, 9, 0] 5 [1, 2, 3, 4, 5, 6, 7, 8, 9, 10]
      [[4, 0], [], [2, 1, 3]] = some (bin_counts [3, 1, 3, 9, 0]) ∧
    bin_counts [3, 1, 3, 9, 0] = [1, 1, 0, 2, 0, 0, 0, 0, 0, 1] :=
  have h := histogram_parallel_eq_sequential [3, 1, 3, 9, 0] (List.replicate 10 7)
    [1, 2, 3, 4, 5, 6, 7, 8, 9, 10] [[4, 0], [], [2, 1, 3]] (by decide) (by decide)
    (by decide) (by decide) (by decide)
  ⟨h.1, h.2.1, by decide⟩

end Histogram

/-! ## Square matrices in row-major arrays: lemmas -/

namespace Transpose

section

variable {α : Type} [Inhabited α]

theorem transposed_length (A : List α) (n : Nat) : (transposed A n).length = n * n := by
  simp [transposed]

end

end Transpose

namespace MatMul

section

variable {α : Type} [Zero α] [Add α] [Mul α]

end

end MatMul

end SpMV
